import Mathlib

/-!
Verification development for the `babel-plugin-transform-minify-graphql`
repository.  The development shallowly embeds the two core components of
`src/index.js` — the Document Printer (`printDocASTReducer` together with the
helpers `join`, `block` and `wrap`) and the Constant Expression Resolver
(`getStringLiteral` plus the reconstruction pipeline inside the
`TaggedTemplateExpression` visitor) — and models the external GraphQL parser
(a collaborator the repository only calls) from the specification.
All machine strings are Lean `String`s; JavaScript string falsiness is
emptiness.  Braces inside string literals are written with `\x7b` / `\x7d`
escapes; they denote the ordinary characters.
-/

namespace MinifyGraphql

set_option maxRecDepth 10000

/-- `join` from src/index.js: given a (possibly absent, here: possibly empty)
array of strings, drop the falsy (empty) entries and join the survivors with
the separator (`separator || ''`).  An absent array is modelled as `[]`. -/
def join (maybeArray : List String) (separator : String) : String :=
  String.intercalate separator (maybeArray.filter (fun x => x != ""))

/-- `block` from src/index.js: a non-empty array prints as its space-join
wrapped in braces, an absent or empty array prints as a literal brace pair. -/
def block (array : List String) : String :=
  if array ≠ [] then "\x7b" ++ join array " " ++ "\x7d" else "\x7b\x7d"

/-- `wrap` from src/index.js: if `maybeString` is not falsy (empty), wrap it
with `start` and `end` (`end || ''` is modelled by passing `""` where the
source omits the third argument); otherwise print the empty string. -/
def wrap (start : String) (maybeString : String) (endStr : String) : String :=
  if maybeString != "" then start ++ maybeString ++ endStr else ""

/-! ### The tree node kinds (data model of §3)

The node shapes follow the graphql-js AST consumed by `printDocASTReducer`.
Optional fields are `Option`, sequence fields are `List` (an absent sequence
behaves exactly like an empty one throughout the printer, since both render
to the empty string under `join`/`wrap`). -/

/-- `Name` node: carries its text. -/
structure GName where
  value : String


/-- `Variable` node: `$` followed by a name. -/
structure GVariable where
  name : GName


/-- `NamedType` node. -/
structure GNamedType where
  name : GName


mutual
/-- Value nodes (`IntValue`, `FloatValue`, `StringValue`, `BooleanValue`,
`NullValue`, `EnumValue`, `ListValue`, `ObjectValue`, plus `Variable`). -/
inductive GValue where
  | variableValue (v : GVariable)
  | intValue (value : String)
  | floatValue (value : String)
  | stringValue (value : String)
  | booleanValue (value : Bool)
  | nullValue
  | enumValue (value : String)
  | listValue (values : List GValue)
  | objectValue (fields : List GObjectField)


/-- `ObjectField` node: a name/value pair inside an `ObjectValue`. -/
inductive GObjectField where
  | mk (name : GName) (value : GValue)

end

/-- `Argument` node. -/
structure GArgument where
  name : GName
  value : GValue


/-- `Directive` node. -/
structure GDirective where
  name : GName
  arguments : List GArgument


/-- Type reference nodes (`NamedType`, `ListType`, `NonNullType`). -/
inductive GType where
  | namedType (t : GNamedType)
  | listType (type : GType)
  | nonNullType (type : GType)


/-- `VariableDefinition` node (`variable`, `type`, optional `defaultValue`). -/
structure GVariableDefinition where
  variable_ : GVariable
  type : GType
  defaultValue : Option GValue


mutual
/-- Selection nodes (`Field`, `FragmentSpread`, `InlineFragment`). -/
inductive GSelection where
  | field (alias_ : Option GName) (name : GName) (arguments : List GArgument)
      (directives : List GDirective) (selectionSet : Option GSelectionSet)
  | fragmentSpread (name : GName) (directives : List GDirective)
  | inlineFragment (typeCondition : Option GNamedType)
      (directives : List GDirective) (selectionSet : GSelectionSet)


/-- `SelectionSet` node. -/
inductive GSelectionSet where
  | mk (selections : List GSelection)

end

/-- The selections carried by a `SelectionSet` node. -/
def GSelectionSet.selections : GSelectionSet → List GSelection
  | .mk selections => selections

/-- `OperationDefinition` node. -/
structure GOperationDefinition where
  operation : String
  name : Option GName
  variableDefinitions : List GVariableDefinition
  directives : List GDirective
  selectionSet : GSelectionSet


/-- `FragmentDefinition` node. -/
structure GFragmentDefinition where
  name : GName
  typeCondition : GNamedType
  directives : List GDirective
  selectionSet : GSelectionSet


/-- Executable definition nodes of a document. -/
inductive GDefinition where
  | operationDefinition (d : GOperationDefinition)
  | fragmentDefinition (d : GFragmentDefinition)


/-- `Document` node. -/
structure GDocument where
  definitions : List GDefinition


/-! ### JSON.stringify on strings and booleans

`printDocASTReducer` renders `StringValue` and `BooleanValue` through the
JavaScript builtin `JSON.stringify`; this models it for those two uses. -/

/-- One hexadecimal digit. -/
def hexDigit (n : Nat) : Char :=
  if n < 10 then Char.ofNat (48 + n) else Char.ofNat (87 + n)

/-- JSON escaping of a single character, as `JSON.stringify` performs it. -/
def jsonEscapeChar (c : Char) : String :=
  if c.toNat = 34 then "\\\""
  else if c.toNat = 92 then "\\\\"
  else if c.toNat = 10 then "\\n"
  else if c.toNat = 13 then "\\r"
  else if c.toNat = 9 then "\\t"
  else if c.toNat = 8 then "\\b"
  else if c.toNat = 12 then "\\f"
  else if c.toNat < 32 then
    "\\u00" ++ String.singleton (hexDigit (c.toNat / 16)) ++
      String.singleton (hexDigit (c.toNat % 16))
  else String.singleton c

/-- `JSON.stringify` on a string value: quote and escape. -/
def jsonStringify (s : String) : String :=
  "\"" ++ String.join (s.data.map jsonEscapeChar) ++ "\""

/-- `JSON.stringify` on a boolean value. -/
def jsonStringifyBool (b : Bool) : String :=
  if b then "true" else "false"

/-! ### The Document Printer (printDocASTReducer from src/index.js)

`visit(ast, { leave: printDocASTReducer })` is a post-order reduction: when a
node's rule runs, each child field already holds the child's printed string
(or `undefined` for an absent child, which behaves as `""` in `join`/`wrap`).
The embedding makes that bottom-up reduction an ordinary structural
recursion; each per-kind equation below transcribes the corresponding rule. -/

/-- `Name: node => node.value` -/
def printName (node : GName) : String := node.value

/-- `Variable: node => '$' + node.name` -/
def printVariable (node : GVariable) : String := "$" ++ printName node.name

/-- `NamedType: ({ name }) => name` -/
def printNamedType (node : GNamedType) : String := printName node.name

/-- Rendering of an optional name: absent renders as empty. -/
def printOptName (o : Option GName) : String :=
  match o with
  | none => ""
  | some n => printName n

/-- Rendering of an optional type condition: absent renders as empty. -/
def printOptNamedType (o : Option GNamedType) : String :=
  match o with
  | none => ""
  | some t => printNamedType t

mutual
/-- The per-kind value rules of `printDocASTReducer`:
`IntValue`/`FloatValue` print their raw text, `StringValue`/`BooleanValue`
print via `JSON.stringify`, `NullValue` prints `null`, `EnumValue` prints its
bare name, `ListValue` is `'[' + join(values, ', ') + ']'`, `ObjectValue` is
`'{' + join(fields, ', ') + '}'`. -/
def printValue : GValue → String
  | .variableValue v => printVariable v
  | .intValue value => value
  | .floatValue value => value
  | .stringValue value => jsonStringify value
  | .booleanValue value => jsonStringifyBool value
  | .nullValue => "null"
  | .enumValue value => value
  | .listValue values => "[" ++ join (printValueList values) ", " ++ "]"
  | .objectValue fields => "\x7b" ++ join (printObjectFieldList fields) ", " ++ "\x7d"

/-- `ObjectField: ({ name, value }) => name + ': ' + value` -/
def printObjectField : GObjectField → String
  | .mk name value => printName name ++ ": " ++ printValue value

/-- Pointwise rendering of a list of values. -/
def printValueList : List GValue → List String
  | [] => []
  | v :: vs => printValue v :: printValueList vs

/-- Pointwise rendering of a list of object fields. -/
def printObjectFieldList : List GObjectField → List String
  | [] => []
  | f :: fs => printObjectField f :: printObjectFieldList fs
end

/-- `Argument: ({ name, value }) => name + ':' + value` -/
def printArgument (node : GArgument) : String :=
  printName node.name ++ ":" ++ printValue node.value

/-- `Directive: ({ name, arguments: args }) => '@' + name + wrap('(', join(args, ', '), ')')` -/
def printDirective (node : GDirective) : String :=
  "@" ++ printName node.name ++ wrap "(" (join (node.arguments.map printArgument) ", ") ")"

/-- The type rules: `NamedType` is the name, `ListType` is `'[' + type + ']'`,
`NonNullType` is `type + '!'`. -/
def printType : GType → String
  | .namedType t => printNamedType t
  | .listType type => "[" ++ printType type ++ "]"
  | .nonNullType type => printType type ++ "!"

/-- `VariableDefinition: ({ variable, type, defaultValue }) =>
variable + ':' + type + wrap('=', defaultValue)` -/
def printVariableDefinition (node : GVariableDefinition) : String :=
  printVariable node.variable_ ++ ":" ++ printType node.type ++
    wrap "=" (match node.defaultValue with | none => "" | some v => printValue v) ""

mutual
/-- `SelectionSet: ({ selections }) => wrap('{', join(selections, ','), '}')` -/
def printSelectionSet : GSelectionSet → String
  | .mk selections => wrap "\x7b" (join (printSelectionList selections) ",") "\x7d"

/-- The three selection rules of `printDocASTReducer`: `Field`,
`FragmentSpread` and `InlineFragment`, transcribed clause by clause. -/
def printSelection : GSelection → String
  | .field alias_ name arguments directives selectionSet =>
      join [wrap "" (printOptName alias_) ":" ++ printName name ++
              wrap "(" (join (arguments.map printArgument) ",") ")",
            join (directives.map printDirective) " ",
            printOptSelectionSet selectionSet] ""
  | .fragmentSpread name directives =>
      "..." ++ printName name ++ wrap " " (join (directives.map printDirective) " ") ""
  | .inlineFragment typeCondition directives selectionSet =>
      join ["...",
            wrap "on " (printOptNamedType typeCondition) "",
            join (directives.map printDirective) " ",
            printSelectionSet selectionSet] ""

/-- Pointwise rendering of a list of selections. -/
def printSelectionList : List GSelection → List String
  | [] => []
  | s :: ss => printSelection s :: printSelectionList ss

/-- Rendering of an optional selection set: absent renders as empty. -/
def printOptSelectionSet : Option GSelectionSet → String
  | none => ""
  | some s => printSelectionSet s
end

/-- `OperationDefinition`: anonymous queries with no directives or variable
definitions use the query short form; otherwise the space-join of the
operation keyword, the name/variable-definitions join, the directives and the
selection set. -/
def printOperationDefinition (node : GOperationDefinition) : String :=
  let op := node.operation
  let name := printOptName node.name
  let varDefs := wrap "(" (join (node.variableDefinitions.map printVariableDefinition) ",") ")"
  let directives := join (node.directives.map printDirective) " "
  let selectionSet := printSelectionSet node.selectionSet
  if name = "" ∧ directives = "" ∧ varDefs = "" ∧ op = "query" then selectionSet
  else join [op, join [name, varDefs] "", directives, selectionSet] " "

/-- `FragmentDefinition: fragment name on typeCondition directives selectionSet`,
via the source's template literal and `wrap`. -/
def printFragmentDefinition (node : GFragmentDefinition) : String :=
  "fragment " ++ printName node.name ++ " on " ++ printNamedType node.typeCondition ++ " " ++
    wrap "" (join (node.directives.map printDirective) " ") " " ++
    printSelectionSet node.selectionSet

/-- Dispatch over the executable definition kinds. -/
def printDefinition : GDefinition → String
  | .operationDefinition d => printOperationDefinition d
  | .fragmentDefinition d => printFragmentDefinition d

/-- `Document: node => join(node.definitions, ' ') + '\n'` -/
def printDocument (node : GDocument) : String :=
  join (node.definitions.map printDefinition) " " ++ "\n"

/-- `print = ast => visit(ast, { leave: printDocASTReducer })`, applied (as in
the plugin) to a parsed document. -/
def print (ast : GDocument) : String := printDocument ast

/-! ### Type-system definition rules of printDocASTReducer

These kinds complete the reducer's table; the build-time path never produces
them (interpolated templates are executable queries), but the rules exist and
are transcribed for completeness, as §4.2 requires. -/

/-- `OperationTypeDefinition` node. -/
structure GOperationTypeDefinition where
  operation : String
  type : GNamedType

/-- `OperationTypeDefinition: ({ operation, type }) => operation + ': ' + type` -/
def printOperationTypeDefinition (node : GOperationTypeDefinition) : String :=
  node.operation ++ ": " ++ printNamedType node.type

/-- `SchemaDefinition` node. -/
structure GSchemaDefinition where
  directives : List GDirective
  operationTypes : List GOperationTypeDefinition

/-- `SchemaDefinition: join(['schema', join(directives, ' '), block(operationTypes)], ' ')` -/
def printSchemaDefinition (node : GSchemaDefinition) : String :=
  join ["schema", join (node.directives.map printDirective) " ",
        block (node.operationTypes.map printOperationTypeDefinition)] " "

/-- `ScalarTypeDefinition` node. -/
structure GScalarTypeDefinition where
  name : GName
  directives : List GDirective

/-- `ScalarTypeDefinition: join(['scalar', name, join(directives, ' ')], ' ')` -/
def printScalarTypeDefinition (node : GScalarTypeDefinition) : String :=
  join ["scalar", printName node.name, join (node.directives.map printDirective) " "] " "

/-- `InputValueDefinition` node. -/
structure GInputValueDefinition where
  name : GName
  type : GType
  defaultValue : Option GValue
  directives : List GDirective

/-- `InputValueDefinition: join([name + ': ' + type, wrap('= ', defaultValue), join(directives, ' ')], ' ')` -/
def printInputValueDefinition (node : GInputValueDefinition) : String :=
  join [printName node.name ++ ": " ++ printType node.type,
        wrap "= " (match node.defaultValue with | none => "" | some v => printValue v) "",
        join (node.directives.map printDirective) " "] " "

/-- `FieldDefinition` node. -/
structure GFieldDefinition where
  name : GName
  arguments : List GInputValueDefinition
  type : GType
  directives : List GDirective

/-- `FieldDefinition: name + wrap('(', join(args, ', '), ')') + ': ' + type + wrap(' ', join(directives, ' '))` -/
def printFieldDefinition (node : GFieldDefinition) : String :=
  printName node.name ++
    wrap "(" (join (node.arguments.map printInputValueDefinition) ", ") ")" ++
    ": " ++ printType node.type ++
    wrap " " (join (node.directives.map printDirective) " ") ""

/-- `ObjectTypeDefinition` node. -/
structure GObjectTypeDefinition where
  name : GName
  interfaces : List GNamedType
  directives : List GDirective
  fields : List GFieldDefinition

/-- `ObjectTypeDefinition: join(['type', name, wrap('implements ', join(interfaces, ', ')), join(directives, ' '), block(fields)], ' ')` -/
def printObjectTypeDefinition (node : GObjectTypeDefinition) : String :=
  join ["type", printName node.name,
        wrap "implements " (join (node.interfaces.map printNamedType) ", ") "",
        join (node.directives.map printDirective) " ",
        block (node.fields.map printFieldDefinition)] " "

/-- `InterfaceTypeDefinition` node. -/
structure GInterfaceTypeDefinition where
  name : GName
  directives : List GDirective
  fields : List GFieldDefinition

/-- `InterfaceTypeDefinition: join(['interface', name, join(directives, ' '), block(fields)], ' ')` -/
def printInterfaceTypeDefinition (node : GInterfaceTypeDefinition) : String :=
  join ["interface", printName node.name,
        join (node.directives.map printDirective) " ",
        block (node.fields.map printFieldDefinition)] " "

/-- `UnionTypeDefinition` node. -/
structure GUnionTypeDefinition where
  name : GName
  directives : List GDirective
  types : List GNamedType

/-- `UnionTypeDefinition: join(['union', name, join(directives, ' '), '= ' + join(types, ' | ')], ' ')` -/
def printUnionTypeDefinition (node : GUnionTypeDefinition) : String :=
  join ["union", printName node.name,
        join (node.directives.map printDirective) " ",
        "= " ++ join (node.types.map printNamedType) " | "] " "

/-- `EnumValueDefinition` node. -/
structure GEnumValueDefinition where
  name : GName
  directives : List GDirective

/-- `EnumValueDefinition: join([name, join(directives, ' ')], ' ')` -/
def printEnumValueDefinition (node : GEnumValueDefinition) : String :=
  join [printName node.name, join (node.directives.map printDirective) " "] " "

/-- `EnumTypeDefinition` node. -/
structure GEnumTypeDefinition where
  name : GName
  directives : List GDirective
  values : List GEnumValueDefinition

/-- `EnumTypeDefinition: join(['enum', name, join(directives, ' '), block(values)], ' ')` -/
def printEnumTypeDefinition (node : GEnumTypeDefinition) : String :=
  join ["enum", printName node.name,
        join (node.directives.map printDirective) " ",
        block (node.values.map printEnumValueDefinition)] " "

/-- `InputObjectTypeDefinition` node. -/
structure GInputObjectTypeDefinition where
  name : GName
  directives : List GDirective
  fields : List GInputValueDefinition

/-- `InputObjectTypeDefinition: join(['input', name, join(directives, ' '), block(fields)], ' ')` -/
def printInputObjectTypeDefinition (node : GInputObjectTypeDefinition) : String :=
  join ["input", printName node.name,
        join (node.directives.map printDirective) " ",
        block (node.fields.map printInputValueDefinition)] " "

/-- `TypeExtensionDefinition` node. -/
structure GTypeExtensionDefinition where
  definition_ : GObjectTypeDefinition

/-- `TypeExtensionDefinition: ({ definition }) => 'extend ' + definition` -/
def printTypeExtensionDefinition (node : GTypeExtensionDefinition) : String :=
  "extend " ++ printObjectTypeDefinition node.definition_

/-- `DirectiveDefinition` node. -/
structure GDirectiveDefinition where
  name : GName
  arguments : List GInputValueDefinition
  locations : List GName

/-- `DirectiveDefinition: 'directive @' + name + wrap('(', join(args, ', '), ')') + ' on ' + join(locations, ' | ')` -/
def printDirectiveDefinition (node : GDirectiveDefinition) : String :=
  "directive @" ++ printName node.name ++
    wrap "(" (join (node.arguments.map printInputValueDefinition) ", ") ")" ++
    " on " ++ join (node.locations.map printName) " | "

/-! ### The Babel host model and the Constant Expression Resolver

`getStringLiteral` and the `TaggedTemplateExpression` visitor from
src/index.js work on Babel AST nodes, a Babel scope, and two lodash helpers.
The expression shapes that matter are whether a node is an `Identifier` or a
`StringLiteral`; other shapes are represented so failure cases are concrete. -/

/-- The JavaScript expression shapes relevant to the plugin. -/
inductive BabelExpr where
  | identifier (name : String)
  | stringLiteral (value : String)
  | memberExpression (objectName : String) (propertyName : String)
  | callExpression (calleeName : String)
  | numericLiteral (value : Int)
  | otherExpression

/-- `t.isIdentifier(node)`. -/
def isIdentifierNode : BabelExpr → Bool
  | .identifier _ => true
  | _ => false

/-- `t.isIdentifier(path.get('tag').node, { name: 'gql' })`: the tag is the
bare identifier `gql`.  This is `isGqlString` from src/index.js. -/
def isGqlString : BabelExpr → Bool
  | .identifier n => n == "gql"
  | _ => false

/-- A Babel binding: its single-assignment flag (`binding.constant`) and the
initializer node of its declarator (`binding.path.get('init').node`, which is
absent for declarations without an initializer). -/
structure Binding where
  constant : Bool
  init : Option BabelExpr

/-- A Babel scope snapshot: `scope.getBinding(name)` yields the binding for a
name, or nothing when the name is unbound. -/
structure Scope where
  bindings : List (String × Binding)

/-- `scope.getBinding(name)`. -/
def Scope.getBinding (scope : Scope) (name : String) : Option Binding :=
  (scope.bindings.find? (fun p => p.1 == name)).map (fun p => p.2)

/-- The failures the plugin can produce.  `interpolationError` is the
`Error('only constant string literal references allowed in gql
interpolation')` thrown by `interpolateError`; `typeErrorUndefinedBinding` is
the JavaScript `TypeError` raised by reading `.constant` of `undefined` when
`scope.getBinding` found no binding; `parseError` is the external parser's
syntax error. -/
inductive PluginError where
  | interpolationError
  | typeErrorUndefinedBinding
  | parseError
deriving DecidableEq

deriving instance DecidableEq for Except

/-- `getStringLiteral(e, scope)` from src/index.js:
non-identifier slots fail; the identifier's binding is read without a
definedness check (`binding.constant` on `undefined` is a TypeError); a
non-constant binding fails; a non-string-literal initializer fails; otherwise
the initializer's string value is returned. -/
def getStringLiteral (e : BabelExpr) (scope : Scope) : Except PluginError String :=
  match e with
  | .identifier name =>
    match scope.getBinding name with
    | none => .error .typeErrorUndefinedBinding
    | some binding =>
      if binding.constant then
        match binding.init with
        | some (.stringLiteral value) => .ok value
        | _ => .error .interpolationError
      else .error .interpolationError
  | _ => .error .interpolationError

/-- lodash `zip` of the two arrays the visitor builds (chunk texts and
resolved slot strings); the shorter input is padded with `undefined`. -/
def lodashZip2 : List String → List String → List (Option String × Option String)
  | [], ys => ys.map (fun y => (none, some y))
  | x :: xs, [] => (some x, none) :: lodashZip2 xs []
  | x :: xs, y :: ys => (some x, some y) :: lodashZip2 xs ys

/-- lodash `flatten` of the zipped pairs (one level). -/
def lodashFlatten : List (Option String × Option String) → List (Option String)
  | [] => []
  | p :: l => p.1 :: p.2 :: lodashFlatten l

/-- lodash `compact`: drop the falsy entries — both the `undefined` padding
and empty strings. -/
def lodashCompact (l : List (Option String)) : List String :=
  l.filterMap (fun o =>
    match o with
    | some s => if s = "" then none else some s
    | none => none)

/-- `compact(flatten(zip(quasis, resolved))).join('')` — the reconstructed
raw query text of the visitor, given the chunk texts and the already-resolved
slot strings. -/
def reconstructQuery (quasis resolved : List String) : String :=
  String.join (lodashCompact (lodashFlatten (lodashZip2 quasis resolved)))

/-- The spec's interleaved concatenation
`chunks[0] + resolve(slots[0]) + chunks[1] + ... + chunks[N]`. -/
def interleaveConcat : List String → List String → String
  | [], _ => ""
  | c :: _, [] => c
  | c :: cs, r :: rs => c ++ r ++ interleaveConcat cs rs

/-- The white-space characters the JavaScript `trim` builtin removes that can
occur in printed output. -/
def isTrimmedChar (c : Char) : Bool :=
  decide (c.toNat = 32) || decide (c.toNat = 9) || decide (c.toNat = 10) ||
    decide (c.toNat = 13) || decide (c.toNat = 11) || decide (c.toNat = 12)

/-- The JavaScript `String.prototype.trim` builtin: drop white space from
both ends. -/
def jsTrim (s : String) : String :=
  String.mk (((s.data.dropWhile isTrimmedChar).reverse.dropWhile isTrimmedChar).reverse)

/-- `.replace(/^{/, '')`: remove one leading brace when present. -/
def stripLeadingBrace (s : String) : String :=
  match s.data with
  | '\x7b' :: rest => String.mk rest
  | _ => s

/-- `.replace(/}$/, '')`: remove one trailing brace when present. -/
def stripTrailingBrace (s : String) : String :=
  if s.data.getLast? = some '\x7d' then String.mk s.data.dropLast else s

/-- `print(...).trim().replace(/^{/, '').replace(/}$/, '')` — the
orchestrator's normalization of the printed document. -/
def minify (printed : String) : String :=
  stripTrailingBrace (stripLeadingBrace (jsTrim printed))

/-! ### The external parser, modelled from the spec

The repository calls `parse` from the external `graphql` package; the spec
treats it as a collaborator, `parse(text) -> Tree | ParseError`, that turns
GraphQL query text into a tree of the node kinds of §3.  The model below is a
lexer plus a recursive-descent parser for the executable sub-grammar
(documents of operation and fragment definitions); it is the `parse` against
which the parse-dependent claims are settled. -/

/-- Modelled from the spec: a GraphQL name-start character (`[_A-Za-z]`,
code points 95, 65-90, 97-122). -/
def isNameStartChar (c : Char) : Bool :=
  decide (c.toNat = 95) || (decide (65 ≤ c.toNat) && decide (c.toNat ≤ 90)) ||
    (decide (97 ≤ c.toNat) && decide (c.toNat ≤ 122))

/-- Modelled from the spec: a GraphQL name-continuation character
(`[_0-9A-Za-z]`). -/
def isNameChar (c : Char) : Bool :=
  isNameStartChar c || (decide (48 ≤ c.toNat) && decide (c.toNat ≤ 57))

/-- A decimal digit (code points 48-57). -/
def isDigitChar (c : Char) : Bool :=
  decide (48 ≤ c.toNat) && decide (c.toNat ≤ 57)

/-- Modelled from the spec: characters GraphQL ignores between tokens
(white space, line terminators and commas). -/
def isIgnoredChar (c : Char) : Bool :=
  decide (c.toNat = 32) || decide (c.toNat = 9) || decide (c.toNat = 10) ||
    decide (c.toNat = 13) || decide (c.toNat = 44)

/-- A string character the model accepts inside a quoted string: anything but
the quote, the backslash and control characters (the modelled string grammar
has no escape sequences). -/
def isPlainStringChar (c : Char) : Bool :=
  decide (c.toNat ≠ 34) && decide (c.toNat ≠ 92) && decide (32 ≤ c.toNat)

/-- Modelled from the spec: the token shapes of the executable grammar. -/
inductive Token where
  | lbrace | rbrace | lparen | rparen | lbrack | rbrack
  | colon | eq | atSign | bang | dollar | spread | pipe
  | nameTok (s : String)
  | intTok (s : String)
  | strTok (s : String)
deriving DecidableEq

/-- The digits of a GraphQL integer part without the sign:
`0` or a nonzero digit followed by digits. -/
def wfNatChars : List Char → Bool
  | [] => false
  | c :: cs => if c.toNat = 48 then cs = [] else isDigitChar c && cs.all isDigitChar

/-- A GraphQL `IntValue` raw text: optional `-`, then the integer part. -/
def wfIntChars : List Char → Bool
  | [] => false
  | c :: cs => if c.toNat = 45 then wfNatChars cs else wfNatChars (c :: cs)

/-- After a number the next character must not extend it into a float or a
name (the model rejects such adjacency as real GraphQL lexers do). -/
def numberFollowOk : List Char → Bool
  | [] => true
  | c :: _ => !(decide (c.toNat = 46) || isNameStartChar c)

/-- The punctuator characters and their tokens. -/
def punctTable : List (Nat × Token) :=
  [(123, Token.lbrace), (125, Token.rbrace), (40, Token.lparen), (41, Token.rparen),
   (91, Token.lbrack), (93, Token.rbrack), (58, Token.colon), (61, Token.eq),
   (64, Token.atSign), (33, Token.bang), (36, Token.dollar), (124, Token.pipe)]

/-- The punctuator token of a character, when it is one. -/
def punctToken? (c : Char) : Option Token :=
  (punctTable.find? (fun e => e.1 == c.toNat)).map (fun e => e.2)

/-- How the lexer treats the character that starts the next token. -/
inductive CharClass where
  | ignored
  | punct (t : Token)
  | dot
  | nameStart
  | numStart
  | quote
  | other
deriving DecidableEq

/-- The class of a character at a token start. -/
def classifyChar (c : Char) : CharClass :=
  if isIgnoredChar c then CharClass.ignored
  else
    match punctToken? c with
    | some t => CharClass.punct t
    | none =>
      if c.toNat = 46 then CharClass.dot
      else if isNameStartChar c then CharClass.nameStart
      else if decide (c.toNat = 45) || isDigitChar c then CharClass.numStart
      else if c.toNat = 34 then CharClass.quote
      else CharClass.other

/-- Modelled from the spec: one lexing step.  `next` lexes the remainder.
Ignored characters are skipped, punctuators become punctuator tokens, `...`
becomes the spread token, names and keywords become name tokens, integers
become int tokens carrying their raw text, and `"`-quoted runs of plain
characters become string tokens. -/
def lexStep (next : List Char → Option (List Token)) : List Char → Option (List Token)
  | [] => some []
  | c :: cs =>
    match classifyChar c with
    | CharClass.ignored => next cs
    | CharClass.punct t => (next cs).map (fun ts => t :: ts)
    | CharClass.dot =>
      match cs with
      | d1 :: d2 :: rest =>
        if d1.toNat = 46 ∧ d2.toNat = 46 then (next rest).map (fun ts => Token.spread :: ts)
        else none
      | _ => none
    | CharClass.nameStart =>
      (next (cs.dropWhile isNameChar)).map
        (fun ts => Token.nameTok (String.mk (c :: cs.takeWhile isNameChar)) :: ts)
    | CharClass.numStart =>
      if wfIntChars (c :: cs.takeWhile isDigitChar) && numberFollowOk (cs.dropWhile isDigitChar) then
        (next (cs.dropWhile isDigitChar)).map
          (fun ts => Token.intTok (String.mk (c :: cs.takeWhile isDigitChar)) :: ts)
      else none
    | CharClass.quote =>
      match cs.dropWhile (fun d => decide (d.toNat ≠ 34)) with
      | q :: rest =>
        if (cs.takeWhile (fun d => decide (d.toNat ≠ 34))).all isPlainStringChar ∧ q.toNat = 34 then
          (next rest).map
            (fun ts => Token.strTok (String.mk (cs.takeWhile (fun d => decide (d.toNat ≠ 34)))) :: ts)
        else none
      | _ => none
    | CharClass.other => none

/-- The fuel-driven lexing loop (any fuel above the input length is enough,
since each step consumes at least one character). -/
def lexMain : Nat → List Char → Option (List Token)
  | 0, _ => none
  | fuel + 1, cs => lexStep (lexMain fuel) cs

/-- Modelled from the spec: the lexer. -/
def lexTokens (cs : List Char) : Option (List Token) :=
  lexMain (cs.length + 1) cs

/-! ### The recursive-descent token parser, modelled from the spec

Each parser takes a fuel bound (an artifact of the model: the entry point
supplies more fuel than any parse can consume) and the remaining tokens, and
returns the parsed node together with the unconsumed tokens. -/

mutual
/-- Modelled from the spec: value parsing — variables, int literals, string
literals, the keywords `true`/`false`/`null`, enum names, lists, objects. -/
def parseValue : Nat → List Token → Option (GValue × List Token)
  | 0, _ => none
  | _ + 1, Token.dollar :: Token.nameTok n :: rest =>
    some (GValue.variableValue ⟨⟨n⟩⟩, rest)
  | _ + 1, Token.intTok s :: rest => some (GValue.intValue s, rest)
  | _ + 1, Token.strTok s :: rest => some (GValue.stringValue s, rest)
  | _ + 1, Token.nameTok s :: rest =>
    if s = "true" then some (GValue.booleanValue true, rest)
    else if s = "false" then some (GValue.booleanValue false, rest)
    else if s = "null" then some (GValue.nullValue, rest)
    else some (GValue.enumValue s, rest)
  | fuel + 1, Token.lbrack :: rest =>
    (parseValueList fuel rest).map (fun p => (GValue.listValue p.1, p.2))
  | fuel + 1, Token.lbrace :: rest =>
    (parseObjectFieldList fuel rest).map (fun p => (GValue.objectValue p.1, p.2))
  | _ + 1, _ => none

/-- Modelled from the spec: the values of a list value, up to `]`. -/
def parseValueList : Nat → List Token → Option (List GValue × List Token)
  | 0, _ => none
  | _ + 1, Token.rbrack :: rest => some ([], rest)
  | fuel + 1, toks =>
    match parseValue fuel toks with
    | some (v, rest) => (parseValueList fuel rest).map (fun p => (v :: p.1, p.2))
    | none => none

/-- Modelled from the spec: the fields of an object value, up to the closing
brace. -/
def parseObjectFieldList : Nat → List Token → Option (List GObjectField × List Token)
  | 0, _ => none
  | _ + 1, Token.rbrace :: rest => some ([], rest)
  | fuel + 1, Token.nameTok n :: Token.colon :: toks =>
    match parseValue fuel toks with
    | some (v, rest) =>
      (parseObjectFieldList fuel rest).map (fun p => (GObjectField.mk ⟨n⟩ v :: p.1, p.2))
    | none => none
  | _ + 1, _ => none
end

/-- Modelled from the spec: one or more `name: value` arguments, up to the
closing parenthesis. -/
def parseArgumentList : Nat → List Token → Option (List GArgument × List Token)
  | 0, _ => none
  | fuel + 1, Token.nameTok n :: Token.colon :: toks =>
    match parseValue fuel toks with
    | some (v, Token.rparen :: rest2) => some ([⟨⟨n⟩, v⟩], rest2)
    | some (v, rest) => (parseArgumentList fuel rest).map (fun p => (⟨⟨n⟩, v⟩ :: p.1, p.2))
    | none => none
  | _ + 1, _ => none

/-- Modelled from the spec: an optional parenthesized argument list. -/
def parseOptArguments : Nat → List Token → Option (List GArgument × List Token)
  | 0, _ => none
  | fuel + 1, Token.lparen :: toks => parseArgumentList fuel toks
  | _ + 1, toks => some ([], toks)

/-- Modelled from the spec: zero or more `@name(args)` directives. -/
def parseDirectives : Nat → List Token → Option (List GDirective × List Token)
  | 0, _ => none
  | fuel + 1, Token.atSign :: Token.nameTok n :: toks =>
    match parseOptArguments fuel toks with
    | some (args, rest) =>
      (parseDirectives fuel rest).map (fun p => (⟨⟨n⟩, args⟩ :: p.1, p.2))
    | none => none
  | _ + 1, toks => some ([], toks)

/-- Modelled from the spec: a type reference — a name or a bracketed list
type, optionally followed by `!`. -/
def parseType : Nat → List Token → Option (GType × List Token)
  | 0, _ => none
  | fuel + 1, Token.lbrack :: toks =>
    match parseType fuel toks with
    | some (t, Token.rbrack :: Token.bang :: rest2) =>
      some (GType.nonNullType (GType.listType t), rest2)
    | some (t, Token.rbrack :: rest) => some (GType.listType t, rest)
    | _ => none
  | _ + 1, Token.nameTok n :: Token.bang :: rest2 =>
    some (GType.nonNullType (GType.namedType ⟨⟨n⟩⟩), rest2)
  | _ + 1, Token.nameTok n :: rest => some (GType.namedType ⟨⟨n⟩⟩, rest)
  | _ + 1, _ => none

/-- Modelled from the spec: one or more `$name: Type (= default)?` variable
definitions, up to the closing parenthesis. -/
def parseVariableDefinitionList :
    Nat → List Token → Option (List GVariableDefinition × List Token)
  | 0, _ => none
  | fuel + 1, Token.dollar :: Token.nameTok n :: Token.colon :: toks =>
    match parseType fuel toks with
    | some (ty, Token.eq :: rest2) =>
      match parseValue fuel rest2 with
      | some (dv, Token.rparen :: rest3) => some ([⟨⟨⟨n⟩⟩, ty, some dv⟩], rest3)
      | some (dv, rest3) =>
        (parseVariableDefinitionList fuel rest3).map
          (fun p => (⟨⟨⟨n⟩⟩, ty, some dv⟩ :: p.1, p.2))
      | none => none
    | some (ty, Token.rparen :: rest2) => some ([⟨⟨⟨n⟩⟩, ty, none⟩], rest2)
    | some (ty, rest2) =>
      (parseVariableDefinitionList fuel rest2).map
        (fun p => (⟨⟨⟨n⟩⟩, ty, none⟩ :: p.1, p.2))
    | none => none
  | _ + 1, _ => none

/-- Modelled from the spec: an optional parenthesized variable-definition
list. -/
def parseOptVariableDefinitions :
    Nat → List Token → Option (List GVariableDefinition × List Token)
  | 0, _ => none
  | fuel + 1, Token.lparen :: toks => parseVariableDefinitionList fuel toks
  | _ + 1, toks => some ([], toks)

/-- Modelled from the spec: a field's optional arguments followed by its
directives (the parts of a field that involve no selection recursion). -/
def parseFieldArgsDirs (fuel : Nat) (toks : List Token) :
    Option ((List GArgument × List GDirective) × List Token) :=
  match parseOptArguments fuel toks with
  | some (args, rest) =>
    match parseDirectives fuel rest with
    | some (dirs, rest2) => some ((args, dirs), rest2)
    | none => none
  | none => none

mutual
/-- Modelled from the spec: a braced selection set with at least one
selection. -/
def parseSelectionSet : Nat → List Token → Option (GSelectionSet × List Token)
  | 0, _ => none
  | fuel + 1, Token.lbrace :: toks =>
    (parseSelectionList fuel toks).map (fun p => (GSelectionSet.mk p.1, p.2))
  | _ + 1, _ => none

/-- Modelled from the spec: one or more selections, up to the closing
brace. -/
def parseSelectionList : Nat → List Token → Option (List GSelection × List Token)
  | 0, _ => none
  | fuel + 1, toks =>
    match parseSelection fuel toks with
    | some (s, Token.rbrace :: rest) => some ([s], rest)
    | some (s, rest) => (parseSelectionList fuel rest).map (fun p => (s :: p.1, p.2))
    | none => none

/-- Modelled from the spec: a single selection — a fragment spread or inline
fragment after `...`, otherwise a field with optional alias, arguments,
directives and an optional selection set. -/
def parseSelection : Nat → List Token → Option (GSelection × List Token)
  | 0, _ => none
  | fuel + 1, Token.spread :: toks =>
    match toks with
    | Token.nameTok n :: rest =>
      if n = "on" then
        match rest with
        | Token.nameTok t :: rest2 =>
          match parseDirectives fuel rest2 with
          | some (dirs, rest3) =>
            (parseSelectionSet fuel rest3).map
              (fun p => (GSelection.inlineFragment (some ⟨⟨t⟩⟩) dirs p.1, p.2))
          | none => none
        | _ => none
      else
        (parseDirectives fuel rest).map
          (fun p => (GSelection.fragmentSpread ⟨n⟩ p.1, p.2))
    | _ =>
      match parseDirectives fuel toks with
      | some (dirs, rest2) =>
        (parseSelectionSet fuel rest2).map
          (fun p => (GSelection.inlineFragment none dirs p.1, p.2))
      | none => none
  | fuel + 1, Token.nameTok n :: toks =>
    match toks with
    | Token.colon :: Token.nameTok n2 :: rest =>
      match parseFieldArgsDirs fuel rest with
      | some ((args, dirs), rest2) =>
        match rest2 with
        | Token.lbrace :: _ =>
          (parseSelectionSet fuel rest2).map
            (fun p => (GSelection.field (some ⟨n⟩) ⟨n2⟩ args dirs (some p.1), p.2))
        | _ => some (GSelection.field (some ⟨n⟩) ⟨n2⟩ args dirs none, rest2)
      | none => none
    | _ =>
      match parseFieldArgsDirs fuel toks with
      | some ((args, dirs), rest2) =>
        match rest2 with
        | Token.lbrace :: _ =>
          (parseSelectionSet fuel rest2).map
            (fun p => (GSelection.field none ⟨n⟩ args dirs (some p.1), p.2))
        | _ => some (GSelection.field none ⟨n⟩ args dirs none, rest2)
      | none => none
  | _ + 1, _ => none
end

/-- Modelled from the spec: the tail of a named operation definition —
optional variable definitions, directives, and the selection set. -/
def parseOperationDefinitionFull (fuel : Nat) (op : String) (name : Option GName)
    (toks : List Token) : Option (GOperationDefinition × List Token) :=
  match parseOptVariableDefinitions fuel toks with
  | some (vds, rest) =>
    match parseDirectives fuel rest with
    | some (dirs, rest2) =>
      (parseSelectionSet fuel rest2).map (fun p => (⟨op, name, vds, dirs, p.1⟩, p.2))
    | none => none
  | none => none

/-- Modelled from the spec: an operation definition — either the anonymous
query shorthand (a bare selection set) or an operation keyword with optional
name, variable definitions and directives. -/
def parseOperationDefinition (fuel : Nat) (toks : List Token) :
    Option (GOperationDefinition × List Token) :=
  match toks with
  | Token.lbrace :: _ =>
    (parseSelectionSet fuel toks).map (fun p => (⟨"query", none, [], [], p.1⟩, p.2))
  | Token.nameTok op :: rest =>
    if op = "query" ∨ op = "mutation" ∨ op = "subscription" then
      match rest with
      | Token.nameTok n :: rest2 => parseOperationDefinitionFull fuel op (some ⟨n⟩) rest2
      | _ => parseOperationDefinitionFull fuel op none rest
    else none
  | _ => none

/-- Modelled from the spec: a fragment definition after the `fragment`
keyword: a fragment name (never `on`), `on`, the type condition, directives
and the selection set. -/
def parseFragmentDefinition (fuel : Nat) (toks : List Token) :
    Option (GFragmentDefinition × List Token) :=
  match toks with
  | Token.nameTok n :: Token.nameTok o :: Token.nameTok t :: rest =>
    if o = "on" ∧ n ≠ "on" then
      match parseDirectives fuel rest with
      | some (dirs, rest2) =>
        (parseSelectionSet fuel rest2).map (fun p => (⟨⟨n⟩, ⟨⟨t⟩⟩, dirs, p.1⟩, p.2))
      | none => none
    else none
  | _ => none

/-- Modelled from the spec: a definition — a fragment definition when the
next token is the `fragment` keyword, otherwise an operation definition. -/
def parseDefinition (fuel : Nat) (toks : List Token) :
    Option (GDefinition × List Token) :=
  match toks with
  | Token.nameTok k :: rest =>
    if k = "fragment" then
      (parseFragmentDefinition fuel rest).map
        (fun p => (GDefinition.fragmentDefinition p.1, p.2))
    else
      (parseOperationDefinition fuel toks).map
        (fun p => (GDefinition.operationDefinition p.1, p.2))
  | _ =>
    (parseOperationDefinition fuel toks).map
      (fun p => (GDefinition.operationDefinition p.1, p.2))

/-- Modelled from the spec: one or more definitions consuming the entire
token stream. -/
def parseDefinitionList : Nat → List Token → Option (List GDefinition × List Token)
  | 0, _ => none
  | fuel + 1, toks =>
    match parseDefinition fuel toks with
    | some (d, []) => some ([d], [])
    | some (d, rest) => (parseDefinitionList fuel rest).map (fun p => (d :: p.1, p.2))
    | none => none

/-- Modelled from the spec: parse a whole token stream as a document. -/
def parseTokens (toks : List Token) : Option GDocument :=
  match parseDefinitionList (toks.length + 2) toks with
  | some (defs, []) => some ⟨defs⟩
  | _ => none

/-- Modelled from the spec: the external `parse(text) -> Tree | ParseError`
collaborator — lex the text, then parse the token stream as a document. -/
def parse (text : String) : Option GDocument :=
  match lexTokens text.data with
  | some toks => parseTokens toks
  | none => none

/-! ### The orchestrator (the TaggedTemplateExpression visitor) -/

/-- The core of the `TaggedTemplateExpression` visitor from src/index.js,
after the `gql` tag test: resolve each slot through `getStringLiteral`,
reconstruct the raw query, parse it wrapped in synthetic braces, print it and
strip the braces again.  Failures (`InterpolationError`, `TypeError`,
`ParseError`) propagate; a string is produced only when every step
succeeds. -/
def transformTemplate (quasis : List String) (expressions : List BabelExpr)
    (scope : Scope) : Except PluginError String :=
  match expressions.mapM (fun e => getStringLiteral e scope) with
  | Except.error err => Except.error err
  | Except.ok resolved =>
    match parse ("\x7b" ++ reconstructQuery quasis resolved ++ "\x7d") with
    | some ast => Except.ok (minify (print ast))
    | none => Except.error PluginError.parseError

/-- The whole `TaggedTemplateExpression` visitor: templates whose tag is not
the bare identifier `gql` are left untouched (`none` = no `replaceWith`);
otherwise the transformation runs and its result replaces the template. -/
def visitTaggedTemplateExpression (tag : BabelExpr) (quasis : List String)
    (expressions : List BabelExpr) (scope : Scope) :
    Except PluginError (Option String) :=
  if isGqlString tag then (transformTemplate quasis expressions scope).map some
  else Except.ok none

/-! ### The printer's kind table (for the dispatch claims)

`print` dispatches on `node.kind` through `printDocASTReducer`'s keys; the
dispatch itself lives in the external `visit`.  The key list below is read
off src/index.js, and the dispatch behaviour on unknown kinds is modelled
from the spec. -/

/-- The kinds for which `printDocASTReducer` has a rule, in source order. -/
def printDocASTReducerKinds : List String :=
  ["Name", "Variable", "Document", "OperationDefinition", "VariableDefinition",
   "SelectionSet", "Field", "Argument", "FragmentSpread", "InlineFragment",
   "FragmentDefinition", "IntValue", "FloatValue", "StringValue", "BooleanValue",
   "NullValue", "EnumValue", "ListValue", "ObjectValue", "ObjectField",
   "Directive", "NamedType", "ListType", "NonNullType", "SchemaDefinition",
   "OperationTypeDefinition", "ScalarTypeDefinition", "ObjectTypeDefinition",
   "FieldDefinition", "InputValueDefinition", "InterfaceTypeDefinition",
   "UnionTypeDefinition", "EnumTypeDefinition", "EnumValueDefinition",
   "InputObjectTypeDefinition", "TypeExtensionDefinition", "DirectiveDefinition"]

/-- The error raised on an unrecognized node kind. -/
inductive PrintFailure where
  | unknownNodeKind (kind : String)
deriving DecidableEq

/-- A tree node as the kind dispatch sees it: its kind tag together with the
text its rendering rule would produce from the already-rendered children. -/
structure KindedNode where
  kind : String
  ruleOutput : String

/-- Modelled from the spec: the printer's kind dispatch.  A node whose kind
has a rule in the table renders through that rule; an unrecognized node kind
is a programming-fatal condition that raises rather than producing any
string. -/
def printKinded (node : KindedNode) : Except PrintFailure String :=
  if node.kind ∈ printDocASTReducerKinds then Except.ok node.ruleOutput
  else Except.error (PrintFailure.unknownNodeKind node.kind)

/-! ### Well-formed trees

`wf...` characterizes the trees the modelled parser can produce: names are
lexically valid, int raw texts are valid integer literals, string values are
plain, enum values are not keyword literals, float values never occur,
selection sets are non-empty, fragment names are never `on`, operations are
one of the three keywords, and non-null types never nest. -/

/-- A lexically valid GraphQL name. -/
def wfNameString (s : String) : Bool :=
  match s.data with
  | [] => false
  | c :: cs => isNameStartChar c && cs.all isNameChar

/-- A plain string value (no quote, backslash or control characters). -/
def wfPlainString (s : String) : Bool := s.data.all isPlainStringChar

mutual
/-- Well-formedness of value nodes. -/
def wfValue : GValue → Bool
  | .variableValue v => wfNameString v.name.value
  | .intValue s => wfIntChars s.data
  | .floatValue _ => false
  | .stringValue s => wfPlainString s
  | .booleanValue _ => true
  | .nullValue => true
  | .enumValue s => wfNameString s && s != "true" && s != "false" && s != "null"
  | .listValue vs => wfValueList vs
  | .objectValue fs => wfObjectFieldList fs

/-- Well-formedness of object fields. -/
def wfObjectField : GObjectField → Bool
  | .mk n v => wfNameString n.value && wfValue v

/-- Well-formedness of a list of values. -/
def wfValueList : List GValue → Bool
  | [] => true
  | v :: vs => wfValue v && wfValueList vs

/-- Well-formedness of a list of object fields. -/
def wfObjectFieldList : List GObjectField → Bool
  | [] => true
  | f :: fs => wfObjectField f && wfObjectFieldList fs
end

/-- Well-formedness of arguments. -/
def wfArgument (a : GArgument) : Bool :=
  wfNameString a.name.value && wfValue a.value

/-- Well-formedness of directives. -/
def wfDirective (d : GDirective) : Bool :=
  wfNameString d.name.value && d.arguments.all wfArgument

/-- Well-formedness of type references (non-null never nests). -/
def wfType : GType → Bool
  | .namedType t => wfNameString t.name.value
  | .listType ty => wfType ty
  | .nonNullType (.nonNullType _) => false
  | .nonNullType ty => wfType ty

/-- Well-formedness of variable definitions. -/
def wfVariableDefinition (vd : GVariableDefinition) : Bool :=
  wfNameString vd.variable_.name.value && wfType vd.type &&
    (match vd.defaultValue with | none => true | some v => wfValue v)

mutual
/-- Well-formedness of selections. -/
def wfSelection : GSelection → Bool
  | .field a n args dirs ss =>
    (match a with | none => true | some al => wfNameString al.value) &&
    wfNameString n.value && args.all wfArgument && dirs.all wfDirective &&
    wfOptSelectionSet ss
  | .fragmentSpread n dirs =>
    wfNameString n.value && n.value != "on" && dirs.all wfDirective
  | .inlineFragment tc dirs ss =>
    (match tc with | none => true | some t => wfNameString t.name.value) &&
    dirs.all wfDirective && wfSelectionSet ss

/-- Well-formedness of selection sets (non-empty). -/
def wfSelectionSet : GSelectionSet → Bool
  | .mk sels => !sels.isEmpty && wfSelectionList sels

/-- Well-formedness of a list of selections. -/
def wfSelectionList : List GSelection → Bool
  | [] => true
  | s :: ss => wfSelection s && wfSelectionList ss

/-- Well-formedness of an optional selection set. -/
def wfOptSelectionSet : Option GSelectionSet → Bool
  | none => true
  | some s => wfSelectionSet s
end

/-- Well-formedness of operation definitions. -/
def wfOperationDefinition (od : GOperationDefinition) : Bool :=
  (od.operation == "query" || od.operation == "mutation" || od.operation == "subscription") &&
  (match od.name with | none => true | some n => wfNameString n.value) &&
  od.variableDefinitions.all wfVariableDefinition &&
  od.directives.all wfDirective &&
  wfSelectionSet od.selectionSet

/-- Well-formedness of fragment definitions. -/
def wfFragmentDefinition (fd : GFragmentDefinition) : Bool :=
  wfNameString fd.name.value && fd.name.value != "on" &&
  wfNameString fd.typeCondition.name.value &&
  fd.directives.all wfDirective && wfSelectionSet fd.selectionSet

/-- Well-formedness of definitions. -/
def wfDefinition : GDefinition → Bool
  | .operationDefinition d => wfOperationDefinition d
  | .fragmentDefinition d => wfFragmentDefinition d

/-- Well-formedness of documents (at least one definition). -/
def wfDocument (doc : GDocument) : Bool :=
  !doc.definitions.isEmpty && doc.definitions.all wfDefinition

/-! ### The token stream of a printed tree

`tokensOf...` describes the token sequence that lexing a node's printed text
yields: every separator the printer emits is either ignored by the lexer
(spaces, commas) or a punctuator of its own. -/

mutual
/-- Tokens of a printed value. -/
def tokensOfValue : GValue → List Token
  | .variableValue v => [Token.dollar, Token.nameTok v.name.value]
  | .intValue s => [Token.intTok s]
  | .floatValue s => [Token.intTok s]
  | .stringValue s => [Token.strTok s]
  | .booleanValue b => [Token.nameTok (jsonStringifyBool b)]
  | .nullValue => [Token.nameTok "null"]
  | .enumValue s => [Token.nameTok s]
  | .listValue vs => Token.lbrack :: tokensOfValueList vs ++ [Token.rbrack]
  | .objectValue fs => Token.lbrace :: tokensOfObjectFieldList fs ++ [Token.rbrace]

/-- Tokens of a printed object field. -/
def tokensOfObjectField : GObjectField → List Token
  | .mk n v => Token.nameTok n.value :: Token.colon :: tokensOfValue v

/-- Tokens of a printed list of values. -/
def tokensOfValueList : List GValue → List Token
  | [] => []
  | v :: vs => tokensOfValue v ++ tokensOfValueList vs

/-- Tokens of a printed list of object fields. -/
def tokensOfObjectFieldList : List GObjectField → List Token
  | [] => []
  | f :: fs => tokensOfObjectField f ++ tokensOfObjectFieldList fs
end

/-- Tokens of a printed argument. -/
def tokensOfArgument (a : GArgument) : List Token :=
  Token.nameTok a.name.value :: Token.colon :: tokensOfValue a.value

/-- Tokens of a printed argument list (with parentheses when non-empty). -/
def tokensOfArguments (args : List GArgument) : List Token :=
  match args with
  | [] => []
  | _ => Token.lparen :: args.flatMap tokensOfArgument ++ [Token.rparen]

/-- Tokens of a printed directive. -/
def tokensOfDirective (d : GDirective) : List Token :=
  Token.atSign :: Token.nameTok d.name.value :: tokensOfArguments d.arguments

/-- Tokens of a printed type reference. -/
def tokensOfType : GType → List Token
  | .namedType t => [Token.nameTok t.name.value]
  | .listType ty => Token.lbrack :: tokensOfType ty ++ [Token.rbrack]
  | .nonNullType ty => tokensOfType ty ++ [Token.bang]

/-- Tokens of a printed variable definition. -/
def tokensOfVariableDefinition (vd : GVariableDefinition) : List Token :=
  Token.dollar :: Token.nameTok vd.variable_.name.value :: Token.colon ::
    (tokensOfType vd.type ++
      (match vd.defaultValue with | none => [] | some v => Token.eq :: tokensOfValue v))

/-- Tokens of a printed variable-definition list (with parentheses when
non-empty). -/
def tokensOfVariableDefinitions (vds : List GVariableDefinition) : List Token :=
  match vds with
  | [] => []
  | _ => Token.lparen :: vds.flatMap tokensOfVariableDefinition ++ [Token.rparen]

mutual
/-- Tokens of a printed selection set. -/
def tokensOfSelectionSet : GSelectionSet → List Token
  | .mk sels => Token.lbrace :: tokensOfSelectionList sels ++ [Token.rbrace]

/-- Tokens of a printed selection. -/
def tokensOfSelection : GSelection → List Token
  | .field a n args dirs ss =>
    (match a with | none => [] | some al => [Token.nameTok al.value, Token.colon]) ++
      Token.nameTok n.value :: (tokensOfArguments args ++
        dirs.flatMap tokensOfDirective ++ tokensOfOptSelectionSet ss)
  | .fragmentSpread n dirs =>
    Token.spread :: Token.nameTok n.value :: dirs.flatMap tokensOfDirective
  | .inlineFragment tc dirs ss =>
    Token.spread ::
      ((match tc with
        | none => []
        | some t => [Token.nameTok "on", Token.nameTok t.name.value]) ++
       dirs.flatMap tokensOfDirective ++ tokensOfSelectionSet ss)

/-- Tokens of a printed list of selections. -/
def tokensOfSelectionList : List GSelection → List Token
  | [] => []
  | s :: ss => tokensOfSelection s ++ tokensOfSelectionList ss

/-- Tokens of a printed optional selection set. -/
def tokensOfOptSelectionSet : Option GSelectionSet → List Token
  | none => []
  | some s => tokensOfSelectionSet s
end

/-- Tokens of a printed optional name. -/
def tokensOfOptName : Option GName → List Token
  | none => []
  | some n => [Token.nameTok n.value]

/-- Tokens of a printed optional default value. -/
def tokensOfOptDefault : Option GValue → List Token
  | none => []
  | some v => Token.eq :: tokensOfValue v

/-- Tokens of a printed operation definition (branching exactly as the
printer's shorthand condition does). -/
def tokensOfOperationDefinition (od : GOperationDefinition) : List Token :=
  if printOptName od.name = "" ∧ join (od.directives.map printDirective) " " = "" ∧
      wrap "(" (join (od.variableDefinitions.map printVariableDefinition) ",") ")" = "" ∧
      od.operation = "query" then
    tokensOfSelectionSet od.selectionSet
  else
    Token.nameTok od.operation ::
      ((match od.name with | none => [] | some n => [Token.nameTok n.value]) ++
       tokensOfVariableDefinitions od.variableDefinitions ++
       od.directives.flatMap tokensOfDirective ++
       tokensOfSelectionSet od.selectionSet)

/-- Tokens of a printed fragment definition. -/
def tokensOfFragmentDefinition (fd : GFragmentDefinition) : List Token :=
  Token.nameTok "fragment" :: Token.nameTok fd.name.value :: Token.nameTok "on" ::
    Token.nameTok fd.typeCondition.name.value ::
    (fd.directives.flatMap tokensOfDirective ++ tokensOfSelectionSet fd.selectionSet)

/-- Tokens of a printed definition. -/
def tokensOfDefinition : GDefinition → List Token
  | .operationDefinition d => tokensOfOperationDefinition d
  | .fragmentDefinition d => tokensOfFragmentDefinition d

/-- Tokens of a printed document. -/
def tokensOfDocument (doc : GDocument) : List Token :=
  doc.definitions.flatMap tokensOfDefinition

/-- Well-formedness of a single token as the lexer produces it: name tokens
carry lexically valid names, int tokens carry valid integer raw text, string
tokens carry plain strings. -/
def tokenWF : Token → Bool
  | Token.nameTok s => wfNameString s
  | Token.intTok s => wfIntChars s.data
  | Token.strTok s => wfPlainString s
  | _ => true

/-- Well-formedness of a token stream. -/
def tokensWF (toks : List Token) : Bool := toks.all tokenWF

/-- The characters that may immediately follow a printed fragment without
disturbing the lexer: printed separators, punctuators and the quote. -/
def safeChar (c : Char) : Bool :=
  [32, 10, 44, 123, 125, 40, 41, 91, 93, 58, 61, 64, 33, 36, 124, 34].contains c.toNat

/-- A character list whose head (if any) is safe. -/
def safeBoundary : List Char → Bool
  | [] => true
  | c :: _ => safeChar c

/-- Whether a character list's head (if any) falsifies `p`. -/
def headNone (p : Char → Bool) : List Char → Bool
  | [] => true
  | c :: _ => !p c

/-- Whether a token list's head (if any) avoids the given tokens. -/
def headNotTok (bad : List Token) : List Token → Bool
  | [] => true
  | t :: _ => !bad.contains t

/-- `s` lexes to the token list `ts` in front of any remainder. -/
def LexAll (s : String) (ts : List Token) : Prop :=
  ∀ rest : List Char,
    lexTokens (s.data ++ rest) = (lexTokens rest).map (fun us => ts ++ us)

/-- `s` lexes to the token list `ts` in front of any remainder that starts
with a safe character (or is empty). -/
def LexSafe (s : String) (ts : List Token) : Prop :=
  ∀ rest : List Char, safeBoundary rest = true →
    lexTokens (s.data ++ rest) = (lexTokens rest).map (fun us => ts ++ us)

/-! ### Basic string lemmas -/

theorem String.eq_empty_iff_data (s : String) : s = "" ↔ s.data = [] := by
  rw [String.ext_iff]

theorem append_ne_empty_left (a b : String) (h : a ≠ "") : a ++ b ≠ "" := by
  rw [ne_eq, String.ext_iff, String.data_append]
  rw [ne_eq, String.ext_iff] at h
  simp only [List.append_eq_nil]
  tauto

theorem append_ne_empty_right (a b : String) (h : b ≠ "") : a ++ b ≠ "" := by
  rw [ne_eq, String.ext_iff, String.data_append]
  rw [ne_eq, String.ext_iff] at h
  simp only [List.append_eq_nil]
  tauto

theorem strFoldlAppend (l : List String) (a : String) :
    l.foldl (fun r s => r ++ s) a = a ++ l.foldl (fun r s => r ++ s) "" := by
  induction l generalizing a with
  | nil => simp
  | cons x xs ih =>
    simp only [List.foldl_cons]
    rw [ih (a ++ x), ih ("" ++ x), String.empty_append, String.append_assoc]

theorem stringJoin_cons (s : String) (l : List String) :
    String.join (s :: l) = s ++ String.join l := by
  show l.foldl (fun r t => r ++ t) ("" ++ s) = _
  rw [String.empty_append, strFoldlAppend]
  rfl

/-! ### Lemmas about the resolver's reconstruction pipeline -/

theorem join_compact_some (s : String) (l : List (Option String)) :
    String.join (lodashCompact (some s :: l)) = s ++ String.join (lodashCompact l) := by
  by_cases h : s = ""
  · simp [lodashCompact, h, String.empty_append]
  · simp [lodashCompact, h, stringJoin_cons]

theorem join_compact_none (l : List (Option String)) :
    String.join (lodashCompact (none :: l)) = String.join (lodashCompact l) := by
  simp [lodashCompact]

/-! ### Lemmas about String.intercalate and join -/

theorem intercalateGoAppend (sep : String) (as : List String) (a b : String) :
    String.intercalate.go (a ++ b) sep as = a ++ String.intercalate.go b sep as := by
  induction as generalizing b with
  | nil => simp [String.intercalate.go]
  | cons x xs ih =>
    show String.intercalate.go (a ++ b ++ sep ++ x) sep xs =
      a ++ String.intercalate.go (b ++ sep ++ x) sep xs
    rw [String.append_assoc, String.append_assoc, String.append_assoc b sep x]
    exact ih (b ++ (sep ++ x))

theorem intercalate_cons_cons (sep x y : String) (xs : List String) :
    String.intercalate sep (x :: y :: xs) =
      (x ++ sep) ++ String.intercalate sep (y :: xs) := by
  show String.intercalate.go (x ++ sep ++ y) sep xs =
    (x ++ sep) ++ String.intercalate.go y sep xs
  exact intercalateGoAppend sep xs (x ++ sep) y

theorem intercalate_cons_ne_empty (sep x : String) (xs : List String) (h : x ≠ "") :
    String.intercalate sep (x :: xs) ≠ "" := by
  cases xs with
  | nil => exact h
  | cons y ys =>
    rw [intercalate_cons_cons]
    exact append_ne_empty_left _ _ (append_ne_empty_left _ _ h)

theorem join_filter_all_kept (l : List String) (sep : String)
    (h : ∀ x ∈ l, x ≠ "") : join l sep = String.intercalate sep l := by
  unfold join
  congr 1
  apply List.filter_eq_self.mpr
  intro a ha
  simpa using h a ha

theorem join_eq_empty_iff (l : List String) (sep : String)
    (h : ∀ x ∈ l, x ≠ "") : join l sep = "" ↔ l = [] := by
  constructor
  · intro he
    cases l with
    | nil => rfl
    | cons x xs =>
      rw [join_filter_all_kept _ _ h] at he
      exact absurd he (intercalate_cons_ne_empty sep x xs (h x (by simp)))
  · intro hl
    subst hl
    rfl

theorem wrap_eq_empty_iff (start m endStr : String) :
    wrap start m endStr = "" ↔ m = "" := by
  unfold wrap
  by_cases h : m = ""
  · simp [h]
  · simp only [h, bne_iff_ne, ne_eq, not_false_eq_true, if_true, iff_false]
    rw [String.append_assoc]
    exact append_ne_empty_right _ _ (append_ne_empty_left _ _ h)

/-! ### Non-emptiness of printed fragments -/

theorem printDirective_ne_empty (d : GDirective) : printDirective d ≠ "" := by
  unfold printDirective
  rw [String.append_assoc]
  exact append_ne_empty_left _ _ (by decide)

theorem printVariable_ne_empty (v : GVariable) : printVariable v ≠ "" := by
  unfold printVariable
  exact append_ne_empty_left _ _ (by decide)

theorem printVariableDefinition_ne_empty (vd : GVariableDefinition) :
    printVariableDefinition vd ≠ "" := by
  unfold printVariableDefinition
  exact append_ne_empty_left _ _
    (append_ne_empty_left _ _ (append_ne_empty_left _ _ (printVariable_ne_empty _)))

/-- C2: the resolver's output is the interleaved concatenation
`chunks[0] + resolved[0] + chunks[1] + ... + chunks[N]`: for every template
whose slots all resolved, `compact(flatten(zip(quasis, resolved))).join('')`
equals the spec's interleaving, including when chunks or resolved values are
empty strings (`compact` drops them, which a separator-free join cannot
observe). -/
theorem claim2_reconstruction_interleaves (chunks resolved : List String)
    (h : chunks.length = resolved.length + 1) :
    reconstructQuery chunks resolved = interleaveConcat chunks resolved := by
  induction resolved generalizing chunks with
  | nil =>
    match chunks, h with
    | [c], _ =>
      show String.join (lodashCompact (lodashFlatten (lodashZip2 [c] []))) = _
      rw [show lodashZip2 [c] [] = [(some c, none)] from rfl]
      rw [show lodashFlatten [(some c, none)] = [some c, none] from rfl]
      rw [join_compact_some, join_compact_none]
      show c ++ String.join (lodashCompact []) = interleaveConcat [c] []
      rw [show String.join (lodashCompact []) = "" from rfl, String.append_empty]
      rfl
  | cons r rs ih =>
    match chunks, h with
    | c :: cs, h =>
      have hlen : cs.length = rs.length + 1 := by
        simpa using h
      show String.join (lodashCompact (lodashFlatten (lodashZip2 (c :: cs) (r :: rs)))) = _
      rw [show lodashZip2 (c :: cs) (r :: rs) = (some c, some r) :: lodashZip2 cs rs from rfl]
      rw [show lodashFlatten ((some c, some r) :: lodashZip2 cs rs) =
            some c :: some r :: lodashFlatten (lodashZip2 cs rs) from rfl]
      rw [join_compact_some, join_compact_some]
      have hrec : String.join (lodashCompact (lodashFlatten (lodashZip2 cs rs))) =
          interleaveConcat cs rs := ih cs hlen
      rw [hrec]
      show c ++ (r ++ interleaveConcat cs rs) = interleaveConcat (c :: cs) (r :: rs)
      rw [show interleaveConcat (c :: cs) (r :: rs) =
            c ++ r ++ interleaveConcat cs rs from rfl, String.append_assoc]

/-- Witness for C2 at the spec's own resolver example, plus a case where a
chunk and a resolved value are empty strings. -/
theorem claim2_witness :
    reconstructQuery ["query \x7b ", " \x7d"] ["name"] =
      interleaveConcat ["query \x7b ", " \x7d"] ["name"] ∧
    reconstructQuery ["", "a", ""] ["", "b"] =
      interleaveConcat ["", "a", ""] ["", "b"] :=
  ⟨claim2_reconstruction_interleaves ["query \x7b ", " \x7d"] ["name"] (by decide),
   claim2_reconstruction_interleaves ["", "a", ""] ["", "b"] (by decide)⟩

/-- C3 (counterexample): the claim says a slot whose identifier does not
resolve to a binding fails with `InterpolationError`; in the code,
`scope.getBinding` yields `undefined` for an unbound name and reading
`.constant` of `undefined` crashes with a `TypeError` instead. -/
theorem claim3_counterexample :
    getStringLiteral (BabelExpr.identifier "x") ⟨[]⟩ =
      Except.error PluginError.typeErrorUndefinedBinding ∧
    (Except.error PluginError.typeErrorUndefinedBinding :
        Except PluginError String) ≠
      Except.error PluginError.interpolationError :=
  ⟨rfl, by decide⟩

/-- C3 (amended): resolver case analysis.  A non-identifier slot fails with
`InterpolationError`; an identifier with no binding at all crashes with a
`TypeError` (reading `.constant` of `undefined`), not `InterpolationError`;
a non-single-assignment binding fails with `InterpolationError`; a constant
binding whose initializer is not a string literal fails with
`InterpolationError`; and a constant binding with a string-literal
initializer resolves to that string. -/
theorem claim3_resolver_cases (e : BabelExpr) (scope : Scope) :
    (isIdentifierNode e = false →
      getStringLiteral e scope = Except.error PluginError.interpolationError) ∧
    (∀ name, e = BabelExpr.identifier name →
      (scope.getBinding name = none →
        getStringLiteral e scope = Except.error PluginError.typeErrorUndefinedBinding) ∧
      (∀ b, scope.getBinding name = some b →
        (b.constant = false →
          getStringLiteral e scope = Except.error PluginError.interpolationError) ∧
        (b.constant = true →
          (∀ v, b.init = some (BabelExpr.stringLiteral v) →
            getStringLiteral e scope = Except.ok v) ∧
          ((∀ v, b.init ≠ some (BabelExpr.stringLiteral v)) →
            getStringLiteral e scope = Except.error PluginError.interpolationError)))) := by
  constructor
  · intro hid
    cases e <;> simp_all [isIdentifierNode, getStringLiteral]
  · intro name hname
    subst hname
    constructor
    · intro hb
      simp [getStringLiteral, hb]
    · intro b hb
      constructor
      · intro hc
        simp [getStringLiteral, hb, hc]
      · intro hc
        constructor
        · intro v hv
          simp [getStringLiteral, hb, hc, hv]
        · intro hv
          cases hinit : b.init with
          | none => simp [getStringLiteral, hb, hc, hinit]
          | some x =>
            cases x with
            | stringLiteral v => exact absurd hinit (hv v)
            | identifier n => simp [getStringLiteral, hb, hc, hinit]
            | memberExpression o pr => simp [getStringLiteral, hb, hc, hinit]
            | callExpression f => simp [getStringLiteral, hb, hc, hinit]
            | numericLiteral k => simp [getStringLiteral, hb, hc, hinit]
            | otherExpression => simp [getStringLiteral, hb, hc, hinit]

/-- Witness for C3 (amended) at concrete inputs: a member expression fails
with `InterpolationError`, and a constant string-literal binding resolves. -/
theorem claim3_witness :
    getStringLiteral (BabelExpr.memberExpression "a" "b") ⟨[]⟩ =
      Except.error PluginError.interpolationError ∧
    getStringLiteral (BabelExpr.identifier "X")
      ⟨[("X", ⟨true, some (BabelExpr.stringLiteral "q")⟩)]⟩ = Except.ok "q" := by
  constructor
  · exact (claim3_resolver_cases (BabelExpr.memberExpression "a" "b") ⟨[]⟩).1 (by decide)
  · have h := (claim3_resolver_cases (BabelExpr.identifier "X")
      ⟨[("X", ⟨true, some (BabelExpr.stringLiteral "q")⟩)]⟩).2 "X" rfl
    exact ((h.2 ⟨true, some (BabelExpr.stringLiteral "q")⟩ rfl).2 rfl).1 "q" rfl

/-- C4: the OperationDefinition rule.  With no (rendered) name, no
directives, no variable definitions and operation `query`, only the
selection set is rendered (shorthand); in every other case the rule renders
`join([op, join([name, varDefs]), directives, selectionSet], ' ')`.  The
hypothesis ties the rendered-emptiness tests of the code to the tree-level
conditions of the claim: a present name renders non-empty (true of every
parser-produced name). -/
theorem claim4_operation_definition_rendering (node : GOperationDefinition)
    (hname : ∀ n, node.name = some n → printName n ≠ "") :
    (node.operation = "query" ∧ node.name = none ∧ node.directives = [] ∧
        node.variableDefinitions = [] →
      printOperationDefinition node = printSelectionSet node.selectionSet) ∧
    (¬(node.operation = "query" ∧ node.name = none ∧ node.directives = [] ∧
        node.variableDefinitions = []) →
      printOperationDefinition node =
        join [node.operation,
              join [printOptName node.name,
                    wrap "(" (join (node.variableDefinitions.map printVariableDefinition) ",") ")"] "",
              join (node.directives.map printDirective) " ",
              printSelectionSet node.selectionSet] " ") := by
  have hnameIff : printOptName node.name = "" ↔ node.name = none := by
    cases hn : node.name with
    | none => simp [printOptName]
    | some n =>
      simp only [printOptName, iff_false, reduceCtorEq]
      exact hname n hn
  have hdirIff : join (node.directives.map printDirective) " " = "" ↔
      node.directives = [] := by
    rw [join_eq_empty_iff]
    · exact List.map_eq_nil
    · intro x hx
      obtain ⟨d, _, rfl⟩ := List.mem_map.mp hx
      exact printDirective_ne_empty d
  have hvarIff : wrap "(" (join (node.variableDefinitions.map printVariableDefinition) ",") ")" = "" ↔
      node.variableDefinitions = [] := by
    rw [wrap_eq_empty_iff, join_eq_empty_iff]
    · exact List.map_eq_nil
    · intro x hx
      obtain ⟨d, _, rfl⟩ := List.mem_map.mp hx
      exact printVariableDefinition_ne_empty d
  simp only [printOperationDefinition]
  constructor
  · intro hAst
    obtain ⟨h4, h1, h2, h3⟩ := hAst
    rw [if_pos ⟨hnameIff.mpr h1, hdirIff.mpr h2, hvarIff.mpr h3, h4⟩]
  · intro hAst
    rw [if_neg ?hc]
    case hc =>
      intro ⟨h1, h2, h3, h4⟩
      exact hAst ⟨h4, hnameIff.mp h1, hdirIff.mp h2, hvarIff.mp h3⟩

/-- Witness for C4 at concrete nodes: a shorthand-eligible anonymous query
and a named mutation. -/
theorem claim4_witness :
    printOperationDefinition
        ⟨"query", none, [], [], GSelectionSet.mk [GSelection.field none ⟨"a"⟩ [] [] none]⟩ =
      printSelectionSet (GSelectionSet.mk [GSelection.field none ⟨"a"⟩ [] [] none]) ∧
    printOperationDefinition
        ⟨"mutation", some ⟨"M"⟩, [], [], GSelectionSet.mk [GSelection.field none ⟨"a"⟩ [] [] none]⟩ =
      join ["mutation", join [printOptName (some ⟨"M"⟩), wrap "(" (join [] ",") ")"] "",
            join [] " ",
            printSelectionSet (GSelectionSet.mk [GSelection.field none ⟨"a"⟩ [] [] none])] " " := by
  constructor
  · exact (claim4_operation_definition_rendering _
      (by intro n hn; cases hn)).1 ⟨rfl, rfl, rfl, rfl⟩
  · exact (claim4_operation_definition_rendering _
      (by intro n hn; injection hn with h; subst h; decide)).2 (by simp)

/-- C8 (counterexample): for a `SelectionSet` node with an empty selections
list the code's `wrap` produces the empty string, not the claimed
`'{' + join(selections, ',') + '}'` (which would be the brace pair). -/
theorem claim8_counterexample :
    printSelectionSet (GSelectionSet.mk []) = "" ∧
    printSelectionSet (GSelectionSet.mk []) ≠
      "\x7b" ++ join ([].map printSelection) "," ++ "\x7d" := by
  exact ⟨rfl, by decide⟩

/-- The pointwise selection rendering agrees with List.map. -/
theorem printSelectionList_eq_map (sels : List GSelection) :
    printSelectionList sels = sels.map printSelection := by
  induction sels with
  | nil => rfl
  | cons s ss ih => simp [printSelectionList, ih]

/-- C8 (amended): a `SelectionSet` node renders as
`wrap('{', join(selections, ','), '}')`: when the selections list is
non-empty (and each selection renders non-empty, as every parser-produced
selection does), that is exactly `'{' + join(selections, ',') + '}'`; when
the list is empty the braces are suppressed entirely and the result is the
empty string — the data-model's "empty sequence suppresses output" rule
overrides the table formula, which the claim takes the two to be
consistent. -/
theorem claim8_selection_set_rendering (sels : List GSelection) :
    (sels = [] → printSelectionSet (GSelectionSet.mk sels) = "") ∧
    ((∀ s ∈ sels, printSelection s ≠ "") → sels ≠ [] →
      printSelectionSet (GSelectionSet.mk sels) =
        "\x7b" ++ join (sels.map printSelection) "," ++ "\x7d") := by
  constructor
  · intro h
    subst h
    rfl
  · intro hne hnil
    show wrap "\x7b" (join (printSelectionList sels) ",") "\x7d" = _
    rw [printSelectionList_eq_map]
    have hj : join (sels.map printSelection) "," ≠ "" := by
      rw [ne_eq, join_eq_empty_iff]
      · simpa using hnil
      · intro x hx
        obtain ⟨d, hd, rfl⟩ := List.mem_map.mp hx
        exact hne d hd
    unfold wrap
    rw [if_pos (by simpa using hj)]

/-- Witness for C8 (amended) at a one-field selection set. -/
theorem claim8_witness :
    printSelectionSet (GSelectionSet.mk [GSelection.field none ⟨"a"⟩ [] [] none]) =
      "\x7b" ++ join ([GSelection.field none ⟨"a"⟩ [] [] none].map printSelection) "," ++ "\x7d" :=
  (claim8_selection_set_rendering _).2 (by decide) (List.cons_ne_nil _ _)

/-- C6: printer failure on an unknown kind.  For every node whose kind is
not one of the kinds in `printDocASTReducer`'s table, the (spec-modelled)
dispatch raises the unknown-kind error and never returns any string — in
particular never an empty or partial one. -/
theorem claim6_unknown_kind_raises (node : KindedNode)
    (h : node.kind ∉ printDocASTReducerKinds) :
    printKinded node = Except.error (PrintFailure.unknownNodeKind node.kind) ∧
    ∀ s, printKinded node ≠ Except.ok s := by
  unfold printKinded
  rw [if_neg h]
  exact ⟨rfl, fun s hc => Except.noConfusion hc⟩

/-- Witness for C6 at a concrete unknown kind. -/
theorem claim6_witness :
    printKinded ⟨"NotAKind", "txt"⟩ =
      Except.error (PrintFailure.unknownNodeKind "NotAKind") ∧
    ∀ s, printKinded ⟨"NotAKind", "txt"⟩ ≠ Except.ok s :=
  claim6_unknown_kind_raises ⟨"NotAKind", "txt"⟩ (by decide)

/-- C9: all-or-nothing atomicity.  If any slot's resolution fails, the whole
transformation is that error; if the reconstructed text fails to parse, the
whole transformation is the parse error — in both cases no string is
produced and the visitor propagates the error without replacing the
template.  Conversely, a produced string presupposes that every slot
resolved and the wrapped text parsed. -/
theorem claim9_all_or_nothing (quasis : List String) (expressions : List BabelExpr)
    (scope : Scope) :
    (∀ err, expressions.mapM (fun e => getStringLiteral e scope) = Except.error err →
      transformTemplate quasis expressions scope = Except.error err ∧
      visitTaggedTemplateExpression (BabelExpr.identifier "gql") quasis expressions scope =
        Except.error err) ∧
    (∀ resolved, expressions.mapM (fun e => getStringLiteral e scope) = Except.ok resolved →
      parse ("\x7b" ++ reconstructQuery quasis resolved ++ "\x7d") = none →
      transformTemplate quasis expressions scope = Except.error PluginError.parseError ∧
      visitTaggedTemplateExpression (BabelExpr.identifier "gql") quasis expressions scope =
        Except.error PluginError.parseError) ∧
    (∀ out, transformTemplate quasis expressions scope = Except.ok out →
      ∃ resolved, expressions.mapM (fun e => getStringLiteral e scope) = Except.ok resolved ∧
        ∃ ast, parse ("\x7b" ++ reconstructQuery quasis resolved ++ "\x7d") = some ast ∧
          out = minify (print ast)) := by
  refine ⟨?_, ?_, ?_⟩
  · intro err h
    have ht : transformTemplate quasis expressions scope = Except.error err := by
      unfold transformTemplate
      rw [h]
    refine ⟨ht, ?_⟩
    unfold visitTaggedTemplateExpression
    rw [if_pos (show isGqlString (BabelExpr.identifier "gql") = true from rfl), ht]
    rfl
  · intro resolved hres hparse
    have ht : transformTemplate quasis expressions scope = Except.error PluginError.parseError := by
      unfold transformTemplate
      rw [hres]
      simp only [hparse]
    refine ⟨ht, ?_⟩
    unfold visitTaggedTemplateExpression
    rw [if_pos (show isGqlString (BabelExpr.identifier "gql") = true from rfl), ht]
    rfl
  · intro out hout
    unfold transformTemplate at hout
    cases hres : expressions.mapM (fun e => getStringLiteral e scope) with
    | error err => rw [hres] at hout; exact Except.noConfusion hout
    | ok resolved =>
      rw [hres] at hout
      cases hparse : parse ("\x7b" ++ reconstructQuery quasis resolved ++ "\x7d") with
      | none =>
        simp only [hparse] at hout
        exact Except.noConfusion hout
      | some ast =>
        simp only [hparse] at hout
        refine ⟨resolved, rfl, ast, hparse, ?_⟩
        injection hout with h
        exact h.symm

/-- Witness for C9: a failing slot aborts the transformation with its error,
and an unparsable reconstruction aborts with the parse error. -/
theorem claim9_witness :
    transformTemplate ["q"] [BabelExpr.callExpression "f"] ⟨[]⟩ =
      Except.error PluginError.interpolationError ∧
    transformTemplate ["((("] [] ⟨[]⟩ = Except.error PluginError.parseError := by
  constructor
  · exact ((claim9_all_or_nothing ["q"] [BabelExpr.callExpression "f"] ⟨[]⟩).1
      PluginError.interpolationError (by rfl)).1
  · exact (((claim9_all_or_nothing ["((("] [] ⟨[]⟩).2.1
      [] (by rfl)) (by rfl)).1

/-- C10: tag gating.  The transformation applies exactly to tagged templates
whose tag is the bare identifier `gql` (the `isGqlString` test); with any
other tag the visitor returns no replacement and the template is left
completely unchanged. -/
theorem claim10_tag_gating (tag : BabelExpr) (quasis : List String)
    (expressions : List BabelExpr) (scope : Scope) :
    (isGqlString tag = true ↔ tag = BabelExpr.identifier "gql") ∧
    (isGqlString tag = false →
      visitTaggedTemplateExpression tag quasis expressions scope = Except.ok none) ∧
    (isGqlString tag = true →
      visitTaggedTemplateExpression tag quasis expressions scope =
        Except.map some (transformTemplate quasis expressions scope)) ∧
    (visitTaggedTemplateExpression tag quasis expressions scope = Except.ok none ↔
      isGqlString tag = false) := by
  refine ⟨?_, ?_, ?_, ?_⟩
  · cases tag <;> simp [isGqlString]
  · intro h
    unfold visitTaggedTemplateExpression
    rw [h]
    rfl
  · intro h
    unfold visitTaggedTemplateExpression
    rw [h]
    rfl
  · by_cases h : isGqlString tag
    · unfold visitTaggedTemplateExpression
      rw [if_pos h, h]
      apply iff_of_false
      · intro hc
        cases ht : transformTemplate quasis expressions scope with
        | error err => rw [ht] at hc; exact Except.noConfusion hc
        | ok s =>
          rw [ht] at hc
          injection hc with h2
          exact Option.noConfusion h2
      · exact fun hc => Bool.noConfusion hc
    · unfold visitTaggedTemplateExpression
      rw [if_neg h]
      simp only [Bool.not_eq_true] at h
      exact iff_of_true rfl h

/-- Witness for C10: a `css`-tagged template is untouched; a `gql`-tagged
template is transformed. -/
theorem claim10_witness :
    visitTaggedTemplateExpression (BabelExpr.identifier "css") ["x"] [] ⟨[]⟩ =
      Except.ok none ∧
    visitTaggedTemplateExpression (BabelExpr.identifier "gql") ["a"] [] ⟨[]⟩ =
      Except.map some (transformTemplate ["a"] [] ⟨[]⟩) := by
  constructor
  · exact (claim10_tag_gating (BabelExpr.identifier "css") ["x"] [] ⟨[]⟩).2.1 (by decide)
  · exact (claim10_tag_gating (BabelExpr.identifier "gql") ["a"] [] ⟨[]⟩).2.2.1 (by decide)

/-- C7 (counterexample): the Document rule appends a newline, so the
printer's output for `query { a }` is the four-character string
`{a}\n`, not `{a}`. -/
theorem claim7_counterexample :
    (parse "query \x7b a \x7d").map print = some "\x7ba\x7d\n" ∧
    some "\x7ba\x7d\n" ≠ some "\x7ba\x7d" := by
  exact ⟨by decide, by decide⟩

/-- C7 (amended): for the input text `query { a }` the printer elides the
shorthand-eligible operation and renders exactly `{a}` followed by the
newline the Document rule appends: the output is exactly `"{a}\n"`.
(The spec's bare `{a}` is the pipeline result after the orchestrator's
trim.) -/
theorem claim7_shorthand_elision :
    (parse "query \x7b a \x7d").map print = some "\x7ba\x7d\n" := by decide

/-! ### The lexer produces well-formed tokens -/

theorem tokensWF_cons (t : Token) (ts : List Token) :
    tokensWF (t :: ts) = (tokenWF t && tokensWF ts) := by
  simp [tokensWF]

theorem punctToken_tokenWF (c : Char) (t : Token) (h : punctToken? c = some t) :
    tokenWF t = true := by
  unfold punctToken? at h
  obtain ⟨e, he, ht⟩ := Option.map_eq_some'.mp h
  subst ht
  have hmem := List.mem_of_find?_eq_some he
  fin_cases hmem <;> rfl

theorem classifyChar_ignored_inv {c : Char} (h : classifyChar c = CharClass.ignored) :
    isIgnoredChar c = true := by
  unfold classifyChar at h
  split at h
  · assumption
  · split at h
    · exact CharClass.noConfusion h
    · split at h
      · exact CharClass.noConfusion h
      · split at h
        · exact CharClass.noConfusion h
        · split at h
          · exact CharClass.noConfusion h
          · split at h <;> exact CharClass.noConfusion h

theorem classifyChar_punct_inv {c : Char} {t : Token}
    (h : classifyChar c = CharClass.punct t) : punctToken? c = some t := by
  unfold classifyChar at h
  split at h
  · exact CharClass.noConfusion h
  · split at h
    · rename_i t' hp
      injection h with h2
      subst h2
      exact hp
    · split at h
      · exact CharClass.noConfusion h
      · split at h
        · exact CharClass.noConfusion h
        · split at h
          · exact CharClass.noConfusion h
          · split at h <;> exact CharClass.noConfusion h

theorem classifyChar_nameStart_inv {c : Char}
    (h : classifyChar c = CharClass.nameStart) : isNameStartChar c = true := by
  unfold classifyChar at h
  split at h
  · exact CharClass.noConfusion h
  · split at h
    · exact CharClass.noConfusion h
    · split at h
      · exact CharClass.noConfusion h
      · split at h
        · assumption
        · split at h
          · exact CharClass.noConfusion h
          · split at h <;> exact CharClass.noConfusion h

theorem lexMain_tokensWF (fuel : Nat) : ∀ cs toks, lexMain fuel cs = some toks →
    tokensWF toks = true := by
  induction fuel with
  | zero => intro cs toks h; simp [lexMain] at h
  | succ f ih =>
    intro cs toks h
    match cs with
    | [] =>
      simp only [lexMain, lexStep, Option.some.injEq] at h
      subst h
      rfl
    | c :: cs' =>
      cases hcl : classifyChar c with
      | ignored =>
        simp only [lexMain, lexStep, hcl] at h
        exact ih _ _ h
      | punct t =>
        simp only [lexMain, lexStep, hcl] at h
        obtain ⟨ts, hts, hb⟩ := Option.map_eq_some'.mp h
        subst hb
        rw [tokensWF_cons, Bool.and_eq_true]
        exact ⟨punctToken_tokenWF c t (classifyChar_punct_inv hcl), ih _ _ hts⟩
      | dot =>
        simp only [lexMain, lexStep, hcl] at h
        split at h
        · split_ifs at h
          obtain ⟨ts, hts, hb⟩ := Option.map_eq_some'.mp h
          subst hb
          rw [tokensWF_cons]
          simp only [tokenWF, Bool.true_and]
          exact ih _ _ hts
        · exact absurd h (by simp)
      | nameStart =>
        simp only [lexMain, lexStep, hcl] at h
        obtain ⟨ts, hts, hb⟩ := Option.map_eq_some'.mp h
        subst hb
        rw [tokensWF_cons, Bool.and_eq_true]
        refine ⟨?_, ih _ _ hts⟩
        simp only [tokenWF, wfNameString]
        rw [Bool.and_eq_true]
        refine ⟨classifyChar_nameStart_inv hcl, ?_⟩
        rw [List.all_eq_true]
        intro x hx
        exact List.mem_takeWhile_imp hx
      | numStart =>
        simp only [lexMain, lexStep, hcl] at h
        split_ifs at h with hwf
        obtain ⟨ts, hts, hb⟩ := Option.map_eq_some'.mp h
        subst hb
        rw [tokensWF_cons, Bool.and_eq_true]
        refine ⟨?_, ih _ _ hts⟩
        simp only [tokenWF]
        exact ((Bool.and_eq_true _ _).mp hwf).1
      | quote =>
        simp only [lexMain, lexStep, hcl] at h
        split at h
        · split_ifs at h with hpl
          obtain ⟨ts, hts, hb⟩ := Option.map_eq_some'.mp h
          subst hb
          rw [tokensWF_cons, Bool.and_eq_true]
          refine ⟨?_, ih _ _ hts⟩
          simpa [tokenWF, wfPlainString] using hpl.1
        · exact absurd h (by simp)
      | other =>
        simp only [lexMain, lexStep, hcl] at h
        exact absurd h (by simp)

theorem lexTokens_tokensWF (cs : List Char) (toks : List Token)
    (h : lexTokens cs = some toks) : tokensWF toks = true :=
  lexMain_tokensWF _ _ _ h

/-! ### The parser produces well-formed trees -/

theorem tokensWF_cons_inv {t : Token} {ts : List Token}
    (h : tokensWF (t :: ts) = true) : tokenWF t = true ∧ tokensWF ts = true := by
  rw [tokensWF_cons, Bool.and_eq_true] at h
  exact h

theorem parseValue_nil (f : Nat) : parseValue f [] = none := by
  cases f <;> rfl

theorem parseValueList_cons_ne_rbrack (f : Nat) (t : Token) (ht : ¬t = Token.rbrack)
    (ts : List Token) :
    parseValueList (f + 1) (t :: ts) =
      match parseValue f (t :: ts) with
      | some (v, r) => (parseValueList f r).map (fun p => (v :: p.1, p.2))
      | none => none := by
  cases t <;> first
    | exact absurd rfl ht
    | rfl

theorem valueParsers_wf (fuel : Nat) :
    (∀ toks v rest, tokensWF toks = true → parseValue fuel toks = some (v, rest) →
      wfValue v = true ∧ tokensWF rest = true) ∧
    (∀ toks vs rest, tokensWF toks = true → parseValueList fuel toks = some (vs, rest) →
      wfValueList vs = true ∧ tokensWF rest = true) ∧
    (∀ toks fs rest, tokensWF toks = true → parseObjectFieldList fuel toks = some (fs, rest) →
      wfObjectFieldList fs = true ∧ tokensWF rest = true) := by
  induction fuel with
  | zero =>
    refine ⟨?_, ?_, ?_⟩ <;>
      (intro toks x rest _ h;
       simp [parseValue, parseValueList, parseObjectFieldList] at h)
  | succ f ih =>
    obtain ⟨ihv, ihl, iho⟩ := ih
    refine ⟨?_, ?_, ?_⟩
    · intro toks v rest hwf h
      cases toks with
      | nil => simp [parseValue] at h
      | cons t1 rest1 =>
        obtain ⟨ht1, hrest1⟩ := tokensWF_cons_inv hwf
        cases t1 with
        | dollar =>
          cases rest1 with
          | nil => simp [parseValue] at h
          | cons t2 rest2 =>
            obtain ⟨ht2, hrest2⟩ := tokensWF_cons_inv hrest1
            cases t2 <;> simp only [parseValue, Option.some.injEq, Prod.mk.injEq,
              reduceCtorEq] at h
            obtain ⟨rfl, rfl⟩ := h
            refine ⟨?_, hrest2⟩
            simpa [wfValue, tokenWF] using ht2
        | intTok s =>
          simp only [parseValue, Option.some.injEq, Prod.mk.injEq] at h
          obtain ⟨rfl, rfl⟩ := h
          refine ⟨?_, hrest1⟩
          simpa [wfValue, tokenWF] using ht1
        | strTok s =>
          simp only [parseValue, Option.some.injEq, Prod.mk.injEq] at h
          obtain ⟨rfl, rfl⟩ := h
          refine ⟨?_, hrest1⟩
          simpa [wfValue, tokenWF] using ht1
        | nameTok s =>
          simp only [parseValue] at h
          split_ifs at h with h1 h2 h3 <;>
            (simp only [Option.some.injEq, Prod.mk.injEq] at h;
             obtain ⟨rfl, rfl⟩ := h)
          · exact ⟨rfl, hrest1⟩
          · exact ⟨rfl, hrest1⟩
          · exact ⟨rfl, hrest1⟩
          · refine ⟨?_, hrest1⟩
            have hn : wfNameString s = true := by simpa [tokenWF] using ht1
            simp [wfValue, hn, h1, h2, h3]
        | lbrack =>
          simp only [parseValue] at h
          cases hpl : parseValueList f rest1 with
          | none => rw [hpl] at h; simp at h
          | some p =>
            rw [hpl] at h
            simp only [Option.map_some', Option.some.injEq, Prod.mk.injEq] at h
            obtain ⟨rfl, rfl⟩ := h
            obtain ⟨h1, h2⟩ := ihl rest1 p.1 p.2 hrest1 hpl
            exact ⟨by simpa [wfValue] using h1, h2⟩
        | lbrace =>
          simp only [parseValue] at h
          cases hpl : parseObjectFieldList f rest1 with
          | none => rw [hpl] at h; simp at h
          | some p =>
            rw [hpl] at h
            simp only [Option.map_some', Option.some.injEq, Prod.mk.injEq] at h
            obtain ⟨rfl, rfl⟩ := h
            obtain ⟨h1, h2⟩ := iho rest1 p.1 p.2 hrest1 hpl
            exact ⟨by simpa [wfValue] using h1, h2⟩
        | rbrace => simp [parseValue] at h
        | lparen => simp [parseValue] at h
        | rparen => simp [parseValue] at h
        | rbrack => simp [parseValue] at h
        | colon => simp [parseValue] at h
        | eq => simp [parseValue] at h
        | atSign => simp [parseValue] at h
        | bang => simp [parseValue] at h
        | spread => simp [parseValue] at h
        | pipe => simp [parseValue] at h
    · intro toks vs rest hwf h
      cases toks with
      | nil => simp [parseValueList, parseValue_nil] at h
      | cons t1 rest1 =>
        by_cases hrb : t1 = Token.rbrack
        · subst hrb
          simp only [parseValueList, Option.some.injEq, Prod.mk.injEq] at h
          obtain ⟨rfl, rfl⟩ := h
          exact ⟨rfl, (tokensWF_cons_inv hwf).2⟩
        · rw [parseValueList_cons_ne_rbrack f t1 hrb rest1] at h
          cases hv : parseValue f (t1 :: rest1) with
          | none => simp only [hv] at h; exact Option.noConfusion h
          | some p =>
            obtain ⟨v1, r1⟩ := p
            simp only [hv] at h
            cases hl : parseValueList f r1 with
            | none => simp [hl] at h
            | some q =>
              rw [hl] at h
              simp only [Option.map_some', Option.some.injEq, Prod.mk.injEq] at h
              obtain ⟨rfl, rfl⟩ := h
              obtain ⟨hv1, hv2⟩ := ihv _ _ _ hwf hv
              obtain ⟨hl1, hl2⟩ := ihl _ _ _ hv2 hl
              exact ⟨by simp [wfValueList, hv1, hl1], hl2⟩
    · intro toks fs rest hwf h
      cases toks with
      | nil => simp [parseObjectFieldList] at h
      | cons t1 rest1 =>
        cases t1 with
        | rbrace =>
          simp only [parseObjectFieldList, Option.some.injEq, Prod.mk.injEq] at h
          obtain ⟨rfl, rfl⟩ := h
          exact ⟨rfl, (tokensWF_cons_inv hwf).2⟩
        | nameTok n =>
          obtain ⟨ht1, hrest1⟩ := tokensWF_cons_inv hwf
          cases rest1 with
          | nil => simp [parseObjectFieldList] at h
          | cons t2 rest2 =>
            obtain ⟨_, hrest2⟩ := tokensWF_cons_inv hrest1
            cases t2 <;> simp only [parseObjectFieldList, reduceCtorEq] at h
            case colon =>
              cases hv : parseValue f rest2 with
              | none => simp only [hv] at h; exact Option.noConfusion h
              | some p =>
                obtain ⟨v1, r1⟩ := p
                simp only [hv] at h
                cases hl : parseObjectFieldList f r1 with
                | none => simp [hl] at h
                | some q =>
                  rw [hl] at h
                  simp only [Option.map_some', Option.some.injEq, Prod.mk.injEq] at h
                  obtain ⟨rfl, rfl⟩ := h
                  obtain ⟨hv1, hv2⟩ := ihv _ _ _ hrest2 hv
                  obtain ⟨hl1, hl2⟩ := iho _ _ _ hv2 hl
                  have hn : wfNameString n = true := by simpa [tokenWF] using ht1
                  exact ⟨by simp [wfObjectFieldList, wfObjectField, hn, hv1, hl1], hl2⟩
        | lbrace => simp [parseObjectFieldList] at h
        | lbrack => simp [parseObjectFieldList] at h
        | lparen => simp [parseObjectFieldList] at h
        | rparen => simp [parseObjectFieldList] at h
        | rbrack => simp [parseObjectFieldList] at h
        | colon => simp [parseObjectFieldList] at h
        | eq => simp [parseObjectFieldList] at h
        | atSign => simp [parseObjectFieldList] at h
        | bang => simp [parseObjectFieldList] at h
        | dollar => simp [parseObjectFieldList] at h
        | spread => simp [parseObjectFieldList] at h
        | pipe => simp [parseObjectFieldList] at h
        | intTok s => simp [parseObjectFieldList] at h
        | strTok s => simp [parseObjectFieldList] at h

/-! ### Reduction equations for the parsers

Parsers whose arms overlap get explicit equations, conditioned on the shape
of the head token, so later proofs can rewrite without case explosions. -/

theorem parseArgumentList_nil (f : Nat) : parseArgumentList f [] = none := by
  cases f <;> rfl

theorem parseArgumentList_val_rparen (f : Nat) (n : String) (toks2 : List Token)
    (v : GValue) (rest2 : List Token)
    (hv : parseValue f toks2 = some (v, Token.rparen :: rest2)) :
    parseArgumentList (f + 1) (Token.nameTok n :: Token.colon :: toks2) =
      some ([⟨⟨n⟩, v⟩], rest2) := by
  simp only [parseArgumentList, hv]

theorem parseArgumentList_val_cont (f : Nat) (n : String) (toks2 : List Token)
    (v : GValue) (t : Token) (r2 : List Token)
    (hv : parseValue f toks2 = some (v, t :: r2)) (ht : ¬t = Token.rparen) :
    parseArgumentList (f + 1) (Token.nameTok n :: Token.colon :: toks2) =
      (parseArgumentList f (t :: r2)).map (fun p => (⟨⟨n⟩, v⟩ :: p.1, p.2)) := by
  cases t <;> first
    | exact absurd rfl ht
    | simp only [parseArgumentList, hv]

theorem parseArgumentList_val_nil (f : Nat) (n : String) (toks2 : List Token)
    (v : GValue) (hv : parseValue f toks2 = some (v, [])) :
    parseArgumentList (f + 1) (Token.nameTok n :: Token.colon :: toks2) = none := by
  simp only [parseArgumentList, hv, parseArgumentList_nil, Option.map_none']

theorem parseArgumentList_val_none (f : Nat) (n : String) (toks2 : List Token)
    (hv : parseValue f toks2 = none) :
    parseArgumentList (f + 1) (Token.nameTok n :: Token.colon :: toks2) = none := by
  simp only [parseArgumentList, hv]

/-! ### The parser's image is well-formed

On a well-formed token stream every parser returns a well-formed node and a
well-formed remainder: the modelled parser only builds trees that satisfy the
`wf...` predicates. -/

theorem parseArgumentList_wf (fuel : Nat) :
    ∀ toks args rest, tokensWF toks = true →
      parseArgumentList fuel toks = some (args, rest) →
      args.all wfArgument = true ∧ tokensWF rest = true := by
  induction fuel with
  | zero => intro toks args rest _ h; simp [parseArgumentList] at h
  | succ f ih =>
    intro toks args rest hwf h
    cases toks with
    | nil => simp [parseArgumentList] at h
    | cons t1 ts =>
      cases t1 <;> try (simp [parseArgumentList] at h; done)
      case nameTok n =>
      cases ts with
      | nil => simp [parseArgumentList] at h
      | cons t2 ts2 =>
        cases t2 <;> try (simp [parseArgumentList] at h; done)
        case colon =>
        obtain ⟨ht1, hts⟩ := tokensWF_cons_inv hwf
        obtain ⟨-, hts2⟩ := tokensWF_cons_inv hts
        have hn : wfNameString n = true := by simpa [tokenWF] using ht1
        simp only [parseArgumentList] at h
        split at h
        · rename_i v rest2 heq
          simp only [Option.some.injEq, Prod.mk.injEq] at h
          obtain ⟨rfl, rfl⟩ := h
          obtain ⟨hv, hr⟩ := (valueParsers_wf f).1 ts2 v (Token.rparen :: rest2) hts2 heq
          exact ⟨by simp [wfArgument, hn, hv], (tokensWF_cons_inv hr).2⟩
        · rename_i v r1 hneg heq
          cases hrec : parseArgumentList f r1 with
          | none => rw [hrec] at h; exact Option.noConfusion h
          | some q =>
            rw [hrec] at h
            simp only [Option.map_some', Option.some.injEq, Prod.mk.injEq] at h
            obtain ⟨rfl, rfl⟩ := h
            obtain ⟨hv, hr⟩ := (valueParsers_wf f).1 ts2 v r1 hts2 heq
            obtain ⟨ha, hr2⟩ := ih r1 q.1 q.2 hr hrec
            exact ⟨by simp [wfArgument, hn, hv, ha], hr2⟩
        · exact Option.noConfusion h

theorem parseOptArguments_ne_lparen (f : Nat) (t : Token) (ht : ¬t = Token.lparen)
    (ts : List Token) : parseOptArguments (f + 1) (t :: ts) = some ([], t :: ts) := by
  cases t <;> first | exact absurd rfl ht | rfl

theorem parseOptArguments_wf (fuel : Nat) :
    ∀ toks args rest, tokensWF toks = true →
      parseOptArguments fuel toks = some (args, rest) →
      args.all wfArgument = true ∧ tokensWF rest = true := by
  intro toks args rest hwf h
  cases fuel with
  | zero => simp [parseOptArguments] at h
  | succ f =>
    cases toks with
    | nil =>
      simp only [parseOptArguments, Option.some.injEq, Prod.mk.injEq] at h
      obtain ⟨rfl, rfl⟩ := h
      exact ⟨rfl, hwf⟩
    | cons t ts =>
      by_cases ht : t = Token.lparen
      · subst ht
        simp only [parseOptArguments] at h
        exact parseArgumentList_wf f ts args rest (tokensWF_cons_inv hwf).2 h
      · rw [parseOptArguments_ne_lparen f t ht ts] at h
        simp only [Option.some.injEq, Prod.mk.injEq] at h
        obtain ⟨rfl, rfl⟩ := h
        exact ⟨rfl, hwf⟩

theorem parseDirectives_wf (fuel : Nat) :
    ∀ toks dirs rest, tokensWF toks = true →
      parseDirectives fuel toks = some (dirs, rest) →
      dirs.all wfDirective = true ∧ tokensWF rest = true := by
  induction fuel with
  | zero => intro toks dirs rest _ h; simp [parseDirectives] at h
  | succ f ih =>
    intro toks dirs rest hwf h
    cases toks with
    | nil =>
      simp only [parseDirectives, Option.some.injEq, Prod.mk.injEq] at h
      obtain ⟨rfl, rfl⟩ := h
      exact ⟨rfl, hwf⟩
    | cons t1 ts =>
      by_cases ht : t1 = Token.atSign
      · subst ht
        cases ts with
        | nil =>
          have he : parseDirectives (f + 1) [Token.atSign] =
              some ([], [Token.atSign]) := rfl
          rw [he] at h
          simp only [Option.some.injEq, Prod.mk.injEq] at h
          obtain ⟨rfl, rfl⟩ := h
          exact ⟨rfl, hwf⟩
        | cons t2 ts2 =>
          cases t2 <;> try
            (simp only [parseDirectives, Option.some.injEq, Prod.mk.injEq] at h;
             obtain ⟨rfl, rfl⟩ := h; exact ⟨rfl, hwf⟩)
          rename_i n
          obtain ⟨-, hts⟩ := tokensWF_cons_inv hwf
          obtain ⟨ht2, hts2⟩ := tokensWF_cons_inv hts
          have hn : wfNameString n = true := by simpa [tokenWF] using ht2
          simp only [parseDirectives] at h
          split at h
          · rename_i args r0 heq
            obtain ⟨ha, hr0⟩ := parseOptArguments_wf f ts2 args r0 hts2 heq
            cases hrec : parseDirectives f r0 with
            | none => rw [hrec] at h; exact Option.noConfusion h
            | some q =>
              rw [hrec] at h
              simp only [Option.map_some', Option.some.injEq, Prod.mk.injEq] at h
              obtain ⟨rfl, rfl⟩ := h
              obtain ⟨hd, hr⟩ := ih r0 q.1 q.2 hr0 hrec
              exact ⟨by simp [wfDirective, hn, ha, hd], hr⟩
          · exact Option.noConfusion h
      · have he : parseDirectives (f + 1) (t1 :: ts) = some ([], t1 :: ts) := by
          cases t1 <;> first | exact absurd rfl ht | rfl
        rw [he] at h
        simp only [Option.some.injEq, Prod.mk.injEq] at h
        obtain ⟨rfl, rfl⟩ := h
        exact ⟨rfl, hwf⟩

theorem parseType_wf (fuel : Nat) :
    ∀ toks ty rest, tokensWF toks = true →
      parseType fuel toks = some (ty, rest) →
      wfType ty = true ∧ tokensWF rest = true := by
  induction fuel with
  | zero => intro toks ty rest _ h; simp [parseType] at h
  | succ f ih =>
    intro toks ty rest hwf h
    cases toks with
    | nil => simp [parseType] at h
    | cons t1 ts =>
      cases t1 <;> try (simp [parseType] at h; done)
      case lbrack =>
        simp only [parseType] at h
        split at h
        · rename_i ty1 rest2 heq
          simp only [Option.some.injEq, Prod.mk.injEq] at h
          obtain ⟨rfl, rfl⟩ := h
          obtain ⟨hty1, hr⟩ := ih ts ty1 _ (tokensWF_cons_inv hwf).2 heq
          refine ⟨by simpa [wfType] using hty1, ?_⟩
          exact (tokensWF_cons_inv (tokensWF_cons_inv hr).2).2
        · rename_i ty1 r1 hneg heq
          simp only [Option.some.injEq, Prod.mk.injEq] at h
          obtain ⟨rfl, rfl⟩ := h
          obtain ⟨hty1, hr⟩ := ih ts ty1 _ (tokensWF_cons_inv hwf).2 heq
          exact ⟨by simpa [wfType] using hty1, (tokensWF_cons_inv hr).2⟩
        · exact Option.noConfusion h
      case nameTok n =>
        obtain ⟨ht1, hts⟩ := tokensWF_cons_inv hwf
        have hn : wfNameString n = true := by simpa [tokenWF] using ht1
        cases ts with
        | nil =>
          simp only [parseType, Option.some.injEq, Prod.mk.injEq] at h
          obtain ⟨rfl, rfl⟩ := h
          exact ⟨by simpa [wfType] using hn, hts⟩
        | cons t2 ts2 =>
          by_cases hb : t2 = Token.bang
          · subst hb
            simp only [parseType, Option.some.injEq, Prod.mk.injEq] at h
            obtain ⟨rfl, rfl⟩ := h
            exact ⟨by simpa [wfType] using hn, (tokensWF_cons_inv hts).2⟩
          · have he : parseType (f + 1) (Token.nameTok n :: t2 :: ts2) =
                some (GType.namedType ⟨⟨n⟩⟩, t2 :: ts2) := by
              cases t2 <;> first | exact absurd rfl hb | rfl
            rw [he] at h
            simp only [Option.some.injEq, Prod.mk.injEq] at h
            obtain ⟨rfl, rfl⟩ := h
            exact ⟨by simpa [wfType] using hn, hts⟩

theorem parseVariableDefinitionList_nil (f : Nat) :
    parseVariableDefinitionList f [] = none := by
  cases f <;> rfl

theorem parseVariableDefinitionList_wf (fuel : Nat) :
    ∀ toks vds rest, tokensWF toks = true →
      parseVariableDefinitionList fuel toks = some (vds, rest) →
      vds.all wfVariableDefinition = true ∧ tokensWF rest = true := by
  induction fuel with
  | zero => intro toks vds rest _ h; simp [parseVariableDefinitionList] at h
  | succ f ih =>
    intro toks vds rest hwf h
    cases toks with
    | nil => simp [parseVariableDefinitionList] at h
    | cons t1 ts =>
      cases t1 <;> try (simp [parseVariableDefinitionList] at h; done)
      case dollar =>
      cases ts with
      | nil => simp [parseVariableDefinitionList] at h
      | cons t2 ts2 =>
        cases t2 <;> try (simp [parseVariableDefinitionList] at h; done)
        case nameTok n =>
        cases ts2 with
        | nil => simp [parseVariableDefinitionList] at h
        | cons t3 ts3 =>
          cases t3 <;> try (simp [parseVariableDefinitionList] at h; done)
          case colon =>
          obtain ⟨-, hts⟩ := tokensWF_cons_inv hwf
          obtain ⟨ht2, hts2⟩ := tokensWF_cons_inv hts
          obtain ⟨-, hts3⟩ := tokensWF_cons_inv hts2
          have hn : wfNameString n = true := by simpa [tokenWF] using ht2
          simp only [parseVariableDefinitionList] at h
          split at h
          · rename_i ty rest2 heq
            obtain ⟨hty, hr2⟩ := parseType_wf f ts3 ty _ hts3 heq
            have hr2' : tokensWF rest2 = true := (tokensWF_cons_inv hr2).2
            split at h
            · rename_i dv rest3 heqv
              simp only [Option.some.injEq, Prod.mk.injEq] at h
              obtain ⟨rfl, rfl⟩ := h
              obtain ⟨hdv, hr3⟩ := (valueParsers_wf f).1 rest2 dv _ hr2' heqv
              refine ⟨by simp [wfVariableDefinition, hn, hty, hdv], ?_⟩
              exact (tokensWF_cons_inv hr3).2
            · rename_i dv rest3 hneg heqv
              obtain ⟨hdv, hr3⟩ := (valueParsers_wf f).1 rest2 dv _ hr2' heqv
              cases hrec : parseVariableDefinitionList f rest3 with
              | none => rw [hrec] at h; exact Option.noConfusion h
              | some q =>
                rw [hrec] at h
                simp only [Option.map_some', Option.some.injEq, Prod.mk.injEq] at h
                obtain ⟨rfl, rfl⟩ := h
                obtain ⟨hq, hr⟩ := ih rest3 q.1 q.2 hr3 hrec
                exact ⟨by simp [wfVariableDefinition, hn, hty, hdv, hq], hr⟩
            · exact Option.noConfusion h
          · rename_i ty rest2 heq
            obtain ⟨hty, hr2⟩ := parseType_wf f ts3 ty _ hts3 heq
            simp only [Option.some.injEq, Prod.mk.injEq] at h
            obtain ⟨rfl, rfl⟩ := h
            refine ⟨by simp [wfVariableDefinition, hn, hty], ?_⟩
            exact (tokensWF_cons_inv hr2).2
          · rename_i ty rest2 hneg1 hneg2 heq
            obtain ⟨hty, hr2⟩ := parseType_wf f ts3 ty _ hts3 heq
            cases hrec : parseVariableDefinitionList f rest2 with
            | none => rw [hrec] at h; exact Option.noConfusion h
            | some q =>
              rw [hrec] at h
              simp only [Option.map_some', Option.some.injEq, Prod.mk.injEq] at h
              obtain ⟨rfl, rfl⟩ := h
              obtain ⟨hq, hr⟩ := ih rest2 q.1 q.2 hr2 hrec
              exact ⟨by simp [wfVariableDefinition, hn, hty, hq], hr⟩
          · exact Option.noConfusion h

theorem parseOptVariableDefinitions_ne_lparen (f : Nat) (t : Token)
    (ht : ¬t = Token.lparen) (ts : List Token) :
    parseOptVariableDefinitions (f + 1) (t :: ts) = some ([], t :: ts) := by
  cases t <;> first | exact absurd rfl ht | rfl

theorem parseOptVariableDefinitions_wf (fuel : Nat) :
    ∀ toks vds rest, tokensWF toks = true →
      parseOptVariableDefinitions fuel toks = some (vds, rest) →
      vds.all wfVariableDefinition = true ∧ tokensWF rest = true := by
  intro toks vds rest hwf h
  cases fuel with
  | zero => simp [parseOptVariableDefinitions] at h
  | succ f =>
    cases toks with
    | nil =>
      simp only [parseOptVariableDefinitions, Option.some.injEq, Prod.mk.injEq] at h
      obtain ⟨rfl, rfl⟩ := h
      exact ⟨rfl, hwf⟩
    | cons t ts =>
      by_cases ht : t = Token.lparen
      · subst ht
        simp only [parseOptVariableDefinitions] at h
        exact parseVariableDefinitionList_wf f ts vds rest (tokensWF_cons_inv hwf).2 h
      · rw [parseOptVariableDefinitions_ne_lparen f t ht ts] at h
        simp only [Option.some.injEq, Prod.mk.injEq] at h
        obtain ⟨rfl, rfl⟩ := h
        exact ⟨rfl, hwf⟩

theorem parseFieldArgsDirs_wf (fuel : Nat) (toks : List Token)
    (args : List GArgument) (dirs : List GDirective) (rest : List Token)
    (hwf : tokensWF toks = true)
    (h : parseFieldArgsDirs fuel toks = some ((args, dirs), rest)) :
    args.all wfArgument = true ∧ dirs.all wfDirective = true ∧
      tokensWF rest = true := by
  simp only [parseFieldArgsDirs] at h
  split at h
  · rename_i args0 r0 heq
    split at h
    · rename_i dirs0 r1 heqd
      simp only [Option.some.injEq, Prod.mk.injEq] at h
      obtain ⟨⟨rfl, rfl⟩, rfl⟩ := h
      obtain ⟨ha, hr0⟩ := parseOptArguments_wf fuel toks args0 r0 hwf heq
      obtain ⟨hd, hr1⟩ := parseDirectives_wf fuel r0 dirs0 r1 hr0 heqd
      exact ⟨ha, hd, hr1⟩
    · exact Option.noConfusion h
  · exact Option.noConfusion h

theorem parseSelection_nil (f : Nat) : parseSelection f [] = none := by
  cases f <;> rfl

theorem selectionParsers_wf (fuel : Nat) :
    (∀ toks ss rest, tokensWF toks = true →
      parseSelectionSet fuel toks = some (ss, rest) →
      wfSelectionSet ss = true ∧ tokensWF rest = true) ∧
    (∀ toks sels rest, tokensWF toks = true →
      parseSelectionList fuel toks = some (sels, rest) →
      (wfSelectionList sels = true ∧ sels ≠ []) ∧ tokensWF rest = true) ∧
    (∀ toks s rest, tokensWF toks = true →
      parseSelection fuel toks = some (s, rest) →
      wfSelection s = true ∧ tokensWF rest = true) := by
  induction fuel with
  | zero =>
    refine ⟨?_, ?_, ?_⟩ <;>
      (intro toks x rest _ h;
       simp [parseSelectionSet, parseSelectionList, parseSelection] at h)
  | succ f ih =>
    obtain ⟨ihset, ihlist, ihsel⟩ := ih
    refine ⟨?_, ?_, ?_⟩
    · intro toks ss rest hwf h
      cases toks with
      | nil => simp [parseSelectionSet] at h
      | cons t1 ts =>
        cases t1 <;> try (simp [parseSelectionSet] at h; done)
        case lbrace =>
        simp only [parseSelectionSet] at h
        cases hl : parseSelectionList f ts with
        | none => rw [hl] at h; exact Option.noConfusion h
        | some p =>
          rw [hl] at h
          simp only [Option.map_some', Option.some.injEq, Prod.mk.injEq] at h
          obtain ⟨rfl, rfl⟩ := h
          obtain ⟨⟨hsl, hne⟩, hr⟩ := ihlist ts p.1 p.2 (tokensWF_cons_inv hwf).2 hl
          refine ⟨?_, hr⟩
          have : p.1.isEmpty = false := by
            cases hp : p.1 with
            | nil => exact absurd hp hne
            | cons a l => rfl
          simp [wfSelectionSet, this, hsl]
    · intro toks sels rest hwf h
      simp only [parseSelectionList] at h
      split at h
      · rename_i s r0 heq
        simp only [Option.some.injEq, Prod.mk.injEq] at h
        obtain ⟨rfl, rfl⟩ := h
        obtain ⟨hs, hr⟩ := ihsel toks s _ hwf heq
        exact ⟨⟨by simp [wfSelectionList, hs], by simp⟩, (tokensWF_cons_inv hr).2⟩
      · rename_i s r0 hneg heq
        cases hrec : parseSelectionList f r0 with
        | none => rw [hrec] at h; exact Option.noConfusion h
        | some q =>
          rw [hrec] at h
          simp only [Option.map_some', Option.some.injEq, Prod.mk.injEq] at h
          obtain ⟨rfl, rfl⟩ := h
          obtain ⟨hs, hr0⟩ := ihsel toks s r0 hwf heq
          obtain ⟨⟨hq, -⟩, hr⟩ := ihlist r0 q.1 q.2 hr0 hrec
          exact ⟨⟨by simp [wfSelectionList, hs, hq], by simp⟩, hr⟩
      · exact Option.noConfusion h
    · intro toks s rest hwf h
      cases toks with
      | nil => simp [parseSelection] at h
      | cons t1 ts =>
        cases t1 <;> try (simp [parseSelection] at h; done)
        case spread =>
          obtain ⟨-, hts⟩ := tokensWF_cons_inv hwf
          simp only [parseSelection] at h
          split at h
          · -- ts = nameTok n :: rest1
            rename_i n rest1
            obtain ⟨htn, hr1⟩ := tokensWF_cons_inv hts
            have hn : wfNameString n = true := by simpa [tokenWF] using htn
            by_cases hon : n = "on"
            · rw [if_pos hon] at h
              split at h
              · rename_i t2 rest2
                obtain ⟨htt, hr2⟩ := tokensWF_cons_inv hr1
                have ht2 : wfNameString t2 = true := by simpa [tokenWF] using htt
                split at h
                · rename_i dirs0 rest3 heqd
                  obtain ⟨hd, hr3⟩ := parseDirectives_wf f rest2 dirs0 rest3 hr2 heqd
                  cases hss : parseSelectionSet f rest3 with
                  | none => rw [hss] at h; exact Option.noConfusion h
                  | some q =>
                    rw [hss] at h
                    simp only [Option.map_some', Option.some.injEq,
                      Prod.mk.injEq] at h
                    obtain ⟨rfl, rfl⟩ := h
                    obtain ⟨hq, hr⟩ := ihset rest3 q.1 q.2 hr3 hss
                    exact ⟨by simp [wfSelection, ht2, hd, hq], hr⟩
                · exact Option.noConfusion h
              · exact Option.noConfusion h
            · rw [if_neg hon] at h
              cases hd : parseDirectives f rest1 with
              | none => rw [hd] at h; exact Option.noConfusion h
              | some q =>
                rw [hd] at h
                simp only [Option.map_some', Option.some.injEq, Prod.mk.injEq] at h
                obtain ⟨rfl, rfl⟩ := h
                obtain ⟨hdq, hr⟩ := parseDirectives_wf f rest1 q.1 q.2 hr1 hd
                refine ⟨?_, hr⟩
                have hon' : (n != "on") = true := by
                  simpa using hon
                simp [wfSelection, hn, hon', hdq]
          · -- ts does not start with a name token
            rename_i hneg
            split at h
            · rename_i dirs0 rest2 heqd
              obtain ⟨hd, hr2⟩ := parseDirectives_wf f ts dirs0 rest2 hts heqd
              cases hss : parseSelectionSet f rest2 with
              | none => rw [hss] at h; exact Option.noConfusion h
              | some q =>
                rw [hss] at h
                simp only [Option.map_some', Option.some.injEq, Prod.mk.injEq] at h
                obtain ⟨rfl, rfl⟩ := h
                obtain ⟨hq, hr⟩ := ihset rest2 q.1 q.2 hr2 hss
                exact ⟨by simp [wfSelection, hd, hq], hr⟩
            · exact Option.noConfusion h
        case nameTok n =>
          obtain ⟨htn, hts⟩ := tokensWF_cons_inv hwf
          have hn : wfNameString n = true := by simpa [tokenWF] using htn
          simp only [parseSelection] at h
          split at h
          · -- ts = colon :: nameTok n2 :: rest1 : aliased field
            rename_i n2 rest1
            obtain ⟨-, hts1⟩ := tokensWF_cons_inv hts
            obtain ⟨htn2, hr1⟩ := tokensWF_cons_inv hts1
            have hn2 : wfNameString n2 = true := by simpa [tokenWF] using htn2
            split at h
            · rename_i args0 dirs0 rest2 heqfd
              obtain ⟨ha, hd, hr2⟩ :=
                parseFieldArgsDirs_wf f rest1 args0 dirs0 rest2 hr1 heqfd
              split at h
              · -- rest2 starts with lbrace: a sub-selection set
                rename_i tail0
                cases hss : parseSelectionSet f (Token.lbrace :: tail0) with
                | none => rw [hss] at h; exact Option.noConfusion h
                | some q =>
                  rw [hss] at h
                  simp only [Option.map_some', Option.some.injEq, Prod.mk.injEq] at h
                  obtain ⟨rfl, rfl⟩ := h
                  obtain ⟨hq, hr⟩ := ihset (Token.lbrace :: tail0) q.1 q.2 hr2 hss
                  exact ⟨by simp [wfSelection, wfOptSelectionSet, hn, hn2, ha, hd, hq],
                    hr⟩
              · simp only [Option.some.injEq, Prod.mk.injEq] at h
                obtain ⟨rfl, rfl⟩ := h
                exact ⟨by simp [wfSelection, wfOptSelectionSet, hn, hn2, ha, hd], hr2⟩
            · exact Option.noConfusion h
          · -- plain field without alias
            rename_i hneg
            split at h
            · rename_i args0 dirs0 rest2 heqfd
              obtain ⟨ha, hd, hr2⟩ :=
                parseFieldArgsDirs_wf f ts args0 dirs0 rest2 hts heqfd
              split at h
              · rename_i tail0
                cases hss : parseSelectionSet f (Token.lbrace :: tail0) with
                | none => rw [hss] at h; exact Option.noConfusion h
                | some q =>
                  rw [hss] at h
                  simp only [Option.map_some', Option.some.injEq, Prod.mk.injEq] at h
                  obtain ⟨rfl, rfl⟩ := h
                  obtain ⟨hq, hr⟩ := ihset (Token.lbrace :: tail0) q.1 q.2 hr2 hss
                  exact ⟨by simp [wfSelection, wfOptSelectionSet, hn, ha, hd, hq], hr⟩
              · simp only [Option.some.injEq, Prod.mk.injEq] at h
                obtain ⟨rfl, rfl⟩ := h
                exact ⟨by simp [wfSelection, wfOptSelectionSet, hn, ha, hd], hr2⟩
            · exact Option.noConfusion h

theorem parseOperationDefinitionFull_wf (fuel : Nat) (op : String)
    (name : Option GName)
    (hop : (op == "query" || op == "mutation" || op == "subscription") = true)
    (hname : (match name with
              | none => true
              | some n => wfNameString n.value) = true) :
    ∀ toks od rest, tokensWF toks = true →
      parseOperationDefinitionFull fuel op name toks = some (od, rest) →
      wfOperationDefinition od = true ∧ tokensWF rest = true := by
  intro toks od rest hwf h
  simp only [parseOperationDefinitionFull] at h
  split at h
  · rename_i vds r0 heqv
    obtain ⟨hv, hr0⟩ := parseOptVariableDefinitions_wf fuel toks vds r0 hwf heqv
    split at h
    · rename_i dirs r1 heqd
      obtain ⟨hd, hr1⟩ := parseDirectives_wf fuel r0 dirs r1 hr0 heqd
      cases hss : parseSelectionSet fuel r1 with
      | none => rw [hss] at h; exact Option.noConfusion h
      | some q =>
        rw [hss] at h
        simp only [Option.map_some', Option.some.injEq, Prod.mk.injEq] at h
        obtain ⟨rfl, rfl⟩ := h
        obtain ⟨hq, hr⟩ := (selectionParsers_wf fuel).1 r1 q.1 q.2 hr1 hss
        exact ⟨by simp [wfOperationDefinition, hop, hname, hv, hd, hq], hr⟩
    · exact Option.noConfusion h
  · exact Option.noConfusion h

theorem parseOperationDefinition_wf (fuel : Nat) :
    ∀ toks od rest, tokensWF toks = true →
      parseOperationDefinition fuel toks = some (od, rest) →
      wfOperationDefinition od = true ∧ tokensWF rest = true := by
  intro toks od rest hwf h
  simp only [parseOperationDefinition] at h
  split at h
  · -- shorthand: toks starts with a left brace
    rename_i ts0
    cases hss : parseSelectionSet fuel (Token.lbrace :: ts0) with
    | none => rw [hss] at h; exact Option.noConfusion h
    | some q =>
      rw [hss] at h
      simp only [Option.map_some', Option.some.injEq, Prod.mk.injEq] at h
      obtain ⟨rfl, rfl⟩ := h
      obtain ⟨hq, hr⟩ := (selectionParsers_wf fuel).1 (Token.lbrace :: ts0) q.1 q.2 hwf hss
      exact ⟨by simp [wfOperationDefinition, hq], hr⟩
  · -- keyword form
    rename_i op rest1
    split at h
    · rename_i hkw
      have hop : (op == "query" || op == "mutation" || op == "subscription") = true := by
        rcases hkw with h1 | h1 | h1 <;> simp [h1]
      obtain ⟨-, hr1⟩ := tokensWF_cons_inv hwf
      split at h
      · rename_i n rest2
        obtain ⟨htn, hr2⟩ := tokensWF_cons_inv hr1
        have hn : wfNameString n = true := by simpa [tokenWF] using htn
        exact parseOperationDefinitionFull_wf fuel op (some ⟨n⟩) hop (by simpa using hn)
          rest2 od rest hr2 h
      · rename_i hneg
        exact parseOperationDefinitionFull_wf fuel op none hop rfl rest1 od rest hr1 h
    · exact Option.noConfusion h
  · exact Option.noConfusion h

theorem parseFragmentDefinition_wf (fuel : Nat) :
    ∀ toks fd rest, tokensWF toks = true →
      parseFragmentDefinition fuel toks = some (fd, rest) →
      wfFragmentDefinition fd = true ∧ tokensWF rest = true := by
  intro toks fd rest hwf h
  simp only [parseFragmentDefinition] at h
  split at h
  · rename_i n o t rest1
    split at h
    · rename_i hcond
      obtain ⟨hon, hne⟩ := hcond
      obtain ⟨htn, hts⟩ := tokensWF_cons_inv hwf
      obtain ⟨-, hts2⟩ := tokensWF_cons_inv hts
      obtain ⟨htt, hr1⟩ := tokensWF_cons_inv hts2
      have hn : wfNameString n = true := by simpa [tokenWF] using htn
      have ht : wfNameString t = true := by simpa [tokenWF] using htt
      split at h
      · rename_i dirs r2 heqd
        obtain ⟨hd, hr2⟩ := parseDirectives_wf fuel rest1 dirs r2 hr1 heqd
        cases hss : parseSelectionSet fuel r2 with
        | none => rw [hss] at h; exact Option.noConfusion h
        | some q =>
          rw [hss] at h
          simp only [Option.map_some', Option.some.injEq, Prod.mk.injEq] at h
          obtain ⟨rfl, rfl⟩ := h
          obtain ⟨hq, hr⟩ := (selectionParsers_wf fuel).1 r2 q.1 q.2 hr2 hss
          have hne' : (n != "on") = true := by simpa using hne
          exact ⟨by simp [wfFragmentDefinition, hn, hne', ht, hd, hq], hr⟩
      · exact Option.noConfusion h
    · exact Option.noConfusion h
  · exact Option.noConfusion h

theorem parseDefinition_wf (fuel : Nat) :
    ∀ toks d rest, tokensWF toks = true →
      parseDefinition fuel toks = some (d, rest) →
      wfDefinition d = true ∧ tokensWF rest = true := by
  intro toks d rest hwf h
  simp only [parseDefinition] at h
  split at h
  · rename_i k rest1
    split at h
    · -- fragment keyword
      cases hf : parseFragmentDefinition fuel rest1 with
      | none => rw [hf] at h; exact Option.noConfusion h
      | some q =>
        rw [hf] at h
        simp only [Option.map_some', Option.some.injEq, Prod.mk.injEq] at h
        obtain ⟨rfl, rfl⟩ := h
        obtain ⟨hq, hr⟩ :=
          parseFragmentDefinition_wf fuel rest1 q.1 q.2 (tokensWF_cons_inv hwf).2 hf
        exact ⟨by simpa [wfDefinition] using hq, hr⟩
    · cases ho : parseOperationDefinition fuel (Token.nameTok k :: rest1) with
      | none => rw [ho] at h; exact Option.noConfusion h
      | some q =>
        rw [ho] at h
        simp only [Option.map_some', Option.some.injEq, Prod.mk.injEq] at h
        obtain ⟨rfl, rfl⟩ := h
        obtain ⟨hq, hr⟩ :=
          parseOperationDefinition_wf fuel (Token.nameTok k :: rest1) q.1 q.2 hwf ho
        exact ⟨by simpa [wfDefinition] using hq, hr⟩
  · cases ho : parseOperationDefinition fuel toks with
    | none => rw [ho] at h; exact Option.noConfusion h
    | some q =>
      rw [ho] at h
      simp only [Option.map_some', Option.some.injEq, Prod.mk.injEq] at h
      obtain ⟨rfl, rfl⟩ := h
      obtain ⟨hq, hr⟩ := parseOperationDefinition_wf fuel toks q.1 q.2 hwf ho
      exact ⟨by simpa [wfDefinition] using hq, hr⟩

theorem parseDefinitionList_wf (fuel : Nat) :
    ∀ toks defs rest, tokensWF toks = true →
      parseDefinitionList fuel toks = some (defs, rest) →
      (defs.all wfDefinition = true ∧ defs ≠ []) ∧ tokensWF rest = true := by
  induction fuel with
  | zero => intro toks defs rest _ h; simp [parseDefinitionList] at h
  | succ f ih =>
    intro toks defs rest hwf h
    simp only [parseDefinitionList] at h
    split at h
    · rename_i d heq
      simp only [Option.some.injEq, Prod.mk.injEq] at h
      obtain ⟨rfl, rfl⟩ := h
      obtain ⟨hd, -⟩ := parseDefinition_wf f toks d [] hwf heq
      exact ⟨⟨by simp [hd], by simp⟩, rfl⟩
    · rename_i d r0 hneg heq
      cases hrec : parseDefinitionList f r0 with
      | none => rw [hrec] at h; exact Option.noConfusion h
      | some q =>
        rw [hrec] at h
        simp only [Option.map_some', Option.some.injEq, Prod.mk.injEq] at h
        obtain ⟨rfl, rfl⟩ := h
        obtain ⟨hd, hr0⟩ := parseDefinition_wf f toks d r0 hwf heq
        obtain ⟨⟨hq, -⟩, hr⟩ := ih r0 q.1 q.2 hr0 hrec
        exact ⟨⟨by simp [hd, hq], by simp⟩, hr⟩
    · exact Option.noConfusion h

theorem parseTokens_wf (toks : List Token) (doc : GDocument)
    (hwf : tokensWF toks = true) (h : parseTokens toks = some doc) :
    wfDocument doc = true := by
  simp only [parseTokens] at h
  split at h
  · rename_i defs heq
    simp only [Option.some.injEq] at h
    subst h
    obtain ⟨⟨hd, hne⟩, -⟩ := parseDefinitionList_wf (toks.length + 2) toks defs [] hwf heq
    have : defs.isEmpty = false := by
      cases hp : defs with
      | nil => exact absurd hp hne
      | cons a l => rfl
    simp [wfDocument, this, hd]
  · exact Option.noConfusion h

theorem parse_wf (text : String) (doc : GDocument) (h : parse text = some doc) :
    wfDocument doc = true := by
  simp only [parse] at h
  split at h
  · rename_i toks heq
    exact parseTokens_wf toks doc (lexTokens_tokensWF text.data toks heq) h
  · exact Option.noConfusion h

/-! ### Shape of printed documents

A well-formed document prints as `{`-headed text ending in `}` before the
final newline: the facts the orchestrator's trim/strip normalization relies
on. -/

theorem wfNameString_ne_empty (s : String) (h : wfNameString s = true) : s ≠ "" := by
  intro he
  rw [he] at h
  exact absurd h (by decide)

theorem join_cons_ne_empty (x : String) (xs : List String) (sep : String)
    (h : x ≠ "") : join (x :: xs) sep ≠ "" := by
  unfold join
  rw [List.filter_cons_of_pos (by simpa using h)]
  exact intercalate_cons_ne_empty sep x _ h

theorem printName_ne_empty (n : GName) (h : wfNameString n.value = true) :
    printName n ≠ "" := wfNameString_ne_empty _ h

theorem printSelection_ne_empty (s : GSelection) (h : wfSelection s = true) :
    printSelection s ≠ "" := by
  cases s with
  | field a n args dirs ss =>
    simp only [wfSelection, Bool.and_eq_true] at h
    show join _ "" ≠ ""
    apply join_cons_ne_empty
    apply append_ne_empty_left
    apply append_ne_empty_right
    exact printName_ne_empty n h.1.1.1.2
  | fragmentSpread n dirs =>
    show "..." ++ printName n ++ _ ≠ ""
    exact append_ne_empty_left _ _ (append_ne_empty_left _ _ (by decide))
  | inlineFragment tc dirs ss =>
    show join ("..." :: _) "" ≠ ""
    exact join_cons_ne_empty _ _ _ (by decide)

theorem printSelectionSet_mk_eq (sels : List GSelection)
    (h : wfSelectionSet (.mk sels) = true) :
    printSelectionSet (.mk sels) =
      "\x7b" ++ join (printSelectionList sels) "," ++ "\x7d" ∧
    join (printSelectionList sels) "," ≠ "" := by
  simp only [wfSelectionSet, Bool.and_eq_true] at h
  obtain ⟨hne, hsl⟩ := h
  cases sels with
  | nil => simp [List.isEmpty] at hne
  | cons s0 rest =>
    simp only [wfSelectionList, Bool.and_eq_true] at hsl
    have hJ : join (printSelectionList (s0 :: rest)) "," ≠ "" := by
      rw [show printSelectionList (s0 :: rest) =
          printSelection s0 :: printSelectionList rest from rfl]
      exact join_cons_ne_empty _ _ _ (printSelection_ne_empty s0 hsl.1)
    refine ⟨?_, hJ⟩
    show wrap "\x7b" (join (printSelectionList (s0 :: rest)) ",") "\x7d" = _
    unfold wrap
    rw [if_pos (by simpa using hJ)]

theorem printSelectionSet_ne_empty (ss : GSelectionSet)
    (h : wfSelectionSet ss = true) : printSelectionSet ss ≠ "" := by
  cases ss with
  | mk sels =>
    rw [(printSelectionSet_mk_eq sels h).1]
    exact append_ne_empty_left _ _ (append_ne_empty_left _ _ (by decide))

theorem printSelectionSet_data (ss : GSelectionSet)
    (h : wfSelectionSet ss = true) :
    ∃ mid, (printSelectionSet ss).data = '\x7b' :: mid ++ ['\x7d'] := by
  cases ss with
  | mk sels =>
    obtain ⟨he, -⟩ := printSelectionSet_mk_eq sels h
    refine ⟨(join (printSelectionList sels) ",").data, ?_⟩
    rw [he, String.data_append, String.data_append]
    have hb : ("\x7b" : String).data = ['\x7b'] := rfl
    have hd : ("\x7d" : String).data = ['\x7d'] := rfl
    rw [hb, hd]
    simp

theorem printOperationDefinition_shorthand (ss : GSelectionSet) :
    printOperationDefinition ⟨"query", none, [], [], ss⟩ = printSelectionSet ss := rfl

theorem printOperationDefinition_ne_empty (od : GOperationDefinition)
    (h : wfOperationDefinition od = true) : printOperationDefinition od ≠ "" := by
  obtain ⟨op, name, vds, dirs, ss⟩ := od
  simp only [wfOperationDefinition, Bool.and_eq_true] at h
  obtain ⟨⟨⟨⟨hop, hname⟩, hvds⟩, hdirs⟩, hss⟩ := h
  simp only [printOperationDefinition]
  split
  · exact printSelectionSet_ne_empty ss hss
  · apply join_cons_ne_empty
    simp only [beq_iff_eq, Bool.or_eq_true] at hop
    obtain (rfl | rfl) | rfl := hop <;> decide

theorem printFragmentDefinition_ne_empty (fd : GFragmentDefinition) :
    printFragmentDefinition fd ≠ "" := by
  unfold printFragmentDefinition
  exact append_ne_empty_left _ _ (append_ne_empty_left _ _ (append_ne_empty_left _ _
    (append_ne_empty_left _ _ (append_ne_empty_left _ _
      (append_ne_empty_left _ _ (by decide))))))

theorem printDefinition_ne_empty (d : GDefinition) (h : wfDefinition d = true) :
    printDefinition d ≠ "" := by
  cases d with
  | operationDefinition od =>
    exact printOperationDefinition_ne_empty od (by simpa [wfDefinition] using h)
  | fragmentDefinition fd => exact printFragmentDefinition_ne_empty fd

theorem intercalate_singleton (sep x : String) : String.intercalate sep [x] = x := rfl

theorem intercalate_concat_ends (sep : String) (xs : List String) (x : String) :
    ∃ p, (String.intercalate sep (xs ++ [x])).data = p ++ x.data := by
  induction xs with
  | nil => exact ⟨[], by simp [intercalate_singleton]⟩
  | cons y ys ih =>
    obtain ⟨p, hp⟩ := ih
    obtain ⟨z, zs, hzs⟩ : ∃ z zs, ys ++ [x] = z :: zs := by
      cases hys : ys ++ [x] with
      | nil => exact absurd hys (by simp)
      | cons z zs => exact ⟨z, zs, rfl⟩
    refine ⟨(y ++ sep).data ++ p, ?_⟩
    rw [List.cons_append, hzs, intercalate_cons_cons, ← hzs, String.data_append, hp,
      List.append_assoc]

theorem intercalate_ends_rbrace (sep : String) (xs : List String) (hne : xs ≠ [])
    (h : ∀ x ∈ xs, ∃ p, x.data = p ++ ['\x7d']) :
    ∃ p, (String.intercalate sep xs).data = p ++ ['\x7d'] := by
  induction xs with
  | nil => exact absurd rfl hne
  | cons x xs ih =>
    cases xs with
    | nil =>
      obtain ⟨p, hp⟩ := h x (by simp)
      exact ⟨p, by rw [intercalate_singleton]; exact hp⟩
    | cons y ys =>
      obtain ⟨p, hp⟩ := ih (by simp) (fun z hz => h z (List.mem_cons_of_mem x hz))
      refine ⟨(x ++ sep).data ++ p, ?_⟩
      rw [intercalate_cons_cons, String.data_append, hp, List.append_assoc]

theorem intercalate_head (sep x : String) (xs : List String) :
    ∃ t, (String.intercalate sep (x :: xs)).data = x.data ++ t := by
  cases xs with
  | nil => exact ⟨[], by rw [intercalate_singleton]; simp⟩
  | cons y ys =>
    refine ⟨sep.data ++ (String.intercalate sep (y :: ys)).data, ?_⟩
    rw [intercalate_cons_cons, String.data_append, String.data_append,
      List.append_assoc]

theorem join_ends_of_last (l3 : List String) (x : String) (sep : String)
    (hx : x ≠ "") (hex : ∃ m, x.data = m ++ ['\x7d']) :
    ∃ p, (join (l3 ++ [x]) sep).data = p ++ ['\x7d'] := by
  unfold join
  rw [List.filter_append]
  have hone : List.filter (fun s => s != "") [x] = [x] := by simp [hx]
  rw [hone]
  obtain ⟨m, hm⟩ := hex
  obtain ⟨p, hp⟩ := intercalate_concat_ends sep (List.filter (fun s => s != "") l3) x
  exact ⟨p ++ m, by rw [hp, hm, List.append_assoc]⟩

theorem join4_ends (a b c x : String) (hx : x ≠ "")
    (hex : ∃ m, x.data = m ++ ['\x7d']) :
    ∃ p, (join [a, b, c, x] " ").data = p ++ ['\x7d'] := by
  have hsplit : ([a, b, c, x] : List String) = [a, b, c] ++ [x] := rfl
  rw [hsplit]
  exact join_ends_of_last [a, b, c] x " " hx hex

theorem printDefinition_ends (d : GDefinition) (h : wfDefinition d = true) :
    ∃ p, (printDefinition d).data = p ++ ['\x7d'] := by
  cases d with
  | operationDefinition od =>
    obtain ⟨op, name, vds, dirs, ss⟩ := od
    have hwf : wfOperationDefinition ⟨op, name, vds, dirs, ss⟩ = true := by
      simpa [wfDefinition] using h
    simp only [wfOperationDefinition, Bool.and_eq_true] at hwf
    have hss := hwf.2
    obtain ⟨mid, hmid⟩ := printSelectionSet_data ss hss
    show ∃ p, (printOperationDefinition ⟨op, name, vds, dirs, ss⟩).data = p ++ _
    simp only [printOperationDefinition]
    split
    · exact ⟨'\x7b' :: mid, by rw [hmid]⟩
    · have hsne : printSelectionSet ss ≠ "" := printSelectionSet_ne_empty ss hss
      exact join4_ends _ _ _ _ hsne ⟨'\x7b' :: mid, hmid⟩
  | fragmentDefinition fd =>
    have hwf : wfFragmentDefinition fd = true := by simpa [wfDefinition] using h
    simp only [wfFragmentDefinition, Bool.and_eq_true] at hwf
    obtain ⟨mid, hmid⟩ := printSelectionSet_data fd.selectionSet hwf.2
    simp only [printDefinition, printFragmentDefinition]
    refine ⟨("fragment " ++ printName fd.name ++ " on " ++
      printNamedType fd.typeCondition ++ " " ++
      wrap "" (join (fd.directives.map printDirective) " ") " ").data ++
      ('\x7b' :: mid), ?_⟩
    rw [String.data_append, hmid]
    simp

theorem printDocument_shape (doc : GDocument) (ss : GSelectionSet)
    (rest : List GDefinition)
    (hdefs : doc.definitions =
      GDefinition.operationDefinition ⟨"query", none, [], [], ss⟩ :: rest)
    (hwf : wfDocument doc = true) :
    ∃ mid, (print doc).data = '\x7b' :: (mid ++ ['\x7d', '\n']) := by
  simp only [wfDocument, Bool.and_eq_true] at hwf
  obtain ⟨-, hall⟩ := hwf
  rw [hdefs] at hall
  rw [List.all_eq_true] at hall
  have hd0 : wfDefinition
      (GDefinition.operationDefinition ⟨"query", none, [], [], ss⟩) = true :=
    hall _ (by simp)
  have hsswf : wfSelectionSet ss = true := by
    have : wfOperationDefinition ⟨"query", none, [], [], ss⟩ = true := by
      simpa [wfDefinition] using hd0
    simp only [wfOperationDefinition, Bool.and_eq_true] at this
    exact this.2
  -- the printed document body
  have hprint : print doc =
      join ((GDefinition.operationDefinition ⟨"query", none, [], [], ss⟩ :: rest).map
        printDefinition) " " ++ "\n" := by
    show printDocument doc = _
    unfold printDocument
    rw [hdefs]
  have hnonempty : ∀ x ∈ (GDefinition.operationDefinition
      ⟨"query", none, [], [], ss⟩ :: rest).map printDefinition, x ≠ "" := by
    intro x hx
    obtain ⟨d, hd, rfl⟩ := List.mem_map.mp hx
    exact printDefinition_ne_empty d (hall d hd)
  have hJ : join ((GDefinition.operationDefinition
      ⟨"query", none, [], [], ss⟩ :: rest).map printDefinition) " " =
      String.intercalate " " ((GDefinition.operationDefinition
      ⟨"query", none, [], [], ss⟩ :: rest).map printDefinition) :=
    join_filter_all_kept _ _ hnonempty
  obtain ⟨mid0, hmid0⟩ := printSelectionSet_data ss hsswf
  have hhead0 : (printDefinition (GDefinition.operationDefinition
      ⟨"query", none, [], [], ss⟩)).data = '\x7b' :: mid0 ++ ['\x7d'] := by
    show (printOperationDefinition ⟨"query", none, [], [], ss⟩).data = _
    rw [printOperationDefinition_shorthand]
    exact hmid0
  obtain ⟨t, ht⟩ := intercalate_head " "
    (printDefinition (GDefinition.operationDefinition ⟨"query", none, [], [], ss⟩))
    (rest.map printDefinition)
  obtain ⟨p, hp⟩ := intercalate_ends_rbrace " " ((GDefinition.operationDefinition
      ⟨"query", none, [], [], ss⟩ :: rest).map printDefinition) (by simp)
    (by
      intro x hx
      obtain ⟨d, hd, rfl⟩ := List.mem_map.mp hx
      exact printDefinition_ends d (hall d hd))
  have hhead : ∃ t', (String.intercalate " " ((GDefinition.operationDefinition
      ⟨"query", none, [], [], ss⟩ :: rest).map printDefinition)).data =
      '\x7b' :: t' := by
    rw [List.map_cons, ht, hhead0]
    exact ⟨mid0 ++ ['\x7d'] ++ t, by simp⟩
  obtain ⟨t', ht'⟩ := hhead
  rw [ht'] at hp
  -- '{' :: t' = p ++ ['}'] forces p = '{' :: p'
  cases p with
  | nil => simp at hp
  | cons c p' =>
    rw [List.cons_append] at hp
    obtain ⟨rfl, ht'p⟩ : c = '\x7b' ∧ t' = p' ++ ['\x7d'] := by
      have h1 := List.head_eq_of_cons_eq hp
      have h2 := List.tail_eq_of_cons_eq hp
      exact ⟨h1.symm, h2⟩
    refine ⟨p', ?_⟩
    rw [hprint, String.data_append, hJ, ht', ht'p]
    have hn : ("\n" : String).data = ['\n'] := rfl
    rw [hn]
    simp

theorem jsTrim_brace_shape (mid : List Char) :
    jsTrim ⟨'\x7b' :: (mid ++ ['\x7d', '\n'])⟩ = ⟨'\x7b' :: (mid ++ ['\x7d'])⟩ := by
  unfold jsTrim
  have h1 : isTrimmedChar '\x7b' = false := by decide
  have h2 : isTrimmedChar '\x7d' = false := by decide
  have h3 : isTrimmedChar '\n' = true := by decide
  congr 1
  show ((('\x7b' :: (mid ++ ['\x7d', '\n'])).dropWhile
      isTrimmedChar).reverse.dropWhile isTrimmedChar).reverse = _
  rw [List.dropWhile_cons_of_neg (by simp [h1])]
  rw [show ('\x7b' :: (mid ++ ['\x7d', '\n'])).reverse =
      '\n' :: '\x7d' :: (mid.reverse ++ ['\x7b']) by simp]
  rw [List.dropWhile_cons_of_pos (by simp [h3]),
    List.dropWhile_cons_of_neg (by simp [h2])]
  simp

theorem stripLeadingBrace_mk (l : List Char) :
    stripLeadingBrace ⟨'\x7b' :: l⟩ = ⟨l⟩ := rfl

theorem stripTrailingBrace_mk (l : List Char) :
    stripTrailingBrace ⟨l ++ ['\x7d']⟩ = ⟨l⟩ := by
  unfold stripTrailingBrace
  rw [if_pos]
  · congr 1
    exact List.dropLast_concat
  · show (l ++ ['\x7d']).getLast? = some '\x7d'
    exact List.getLast?_concat l

theorem lexTokens_lbrace (cs : List Char) :
    lexTokens ('\x7b' :: cs) = (lexTokens cs).map (fun ts => Token.lbrace :: ts) := by
  have hc : classifyChar '\x7b' = CharClass.punct Token.lbrace := by decide
  show lexStep (lexMain (cs.length + 1)) ('\x7b' :: cs) = _
  simp only [lexStep, hc]
  rfl

theorem parseDefinitionList_succ (f : Nat) (toks : List Token) :
    parseDefinitionList (f + 1) toks =
      match parseDefinition f toks with
      | some (d, []) => some ([d], [])
      | some (d, rest) => (parseDefinitionList f rest).map (fun p => (d :: p.1, p.2))
      | none => none := rfl

theorem parseDefinition_lbrace (f : Nat) (ts : List Token) :
    parseDefinition f (Token.lbrace :: ts) =
      (parseSelectionSet f (Token.lbrace :: ts)).map
        (fun p => (GDefinition.operationDefinition ⟨"query", none, [], [], p.1⟩,
          p.2)) := by
  simp only [parseDefinition, parseOperationDefinition, Option.map_map]
  rfl

theorem parse_braced_first_definition (Q : String) (doc : GDocument)
    (h : parse ("\x7b" ++ Q ++ "\x7d") = some doc) :
    ∃ ss rest, doc.definitions =
      GDefinition.operationDefinition ⟨"query", none, [], [], ss⟩ :: rest := by
  have htext : ("\x7b" ++ Q ++ "\x7d").data = '\x7b' :: (Q.data ++ ['\x7d']) := by
    rw [String.data_append, String.data_append]
    rfl
  simp only [parse] at h
  rw [htext, lexTokens_lbrace] at h
  cases hlx : lexTokens (Q.data ++ ['\x7d']) with
  | none => rw [hlx] at h; exact Option.noConfusion h
  | some toks =>
    rw [hlx] at h
    simp only [Option.map_some'] at h
    simp only [parseTokens] at h
    split at h
    · rename_i defs heq
      simp only [Option.some.injEq] at h
      subst h
      have hlen : (Token.lbrace :: toks).length + 2 = (toks.length + 2) + 1 := by
        simp [List.length_cons]
      rw [hlen, parseDefinitionList_succ, parseDefinition_lbrace] at heq
      cases hss : parseSelectionSet (toks.length + 2) (Token.lbrace :: toks) with
      | none => rw [hss] at heq; exact Option.noConfusion heq
      | some p =>
        rw [hss] at heq
        simp only [Option.map_some'] at heq
        split at heq
        · rename_i d0 heq2
          injection heq2 with hpair
          have hd0 : GDefinition.operationDefinition
              ⟨"query", none, [], [], p.1⟩ = d0 := congrArg Prod.fst hpair
          simp only [Option.some.injEq, Prod.mk.injEq] at heq
          obtain ⟨rfl, -⟩ := heq
          exact ⟨p.1, [], by rw [← hd0]⟩
        · rename_i d0 r0 hneg heq2
          injection heq2 with hpair
          have hd0 : GDefinition.operationDefinition
              ⟨"query", none, [], [], p.1⟩ = d0 := congrArg Prod.fst hpair
          cases hrec : parseDefinitionList (toks.length + 2) r0 with
          | none => rw [hrec] at heq; exact Option.noConfusion heq
          | some q =>
            rw [hrec] at heq
            simp only [Option.map_some', Option.some.injEq, Prod.mk.injEq] at heq
            obtain ⟨rfl, -⟩ := heq
            exact ⟨p.1, q.1, by rw [← hd0]⟩
        · exact Option.noConfusion heq
    · exact Option.noConfusion h

/-- C5: orchestrator brace normalization.  For every reconstructed text `Q`
such that the wrapped text `{Q}` parses, (i) the parsed document's first
definition is the anonymous shorthand query the synthetic braces created, and
(ii) re-wrapping the orchestrator's returned string
(`minify (print doc)`, i.e. `.trim().replace(/^{/,'').replace(/}$/,'')`) in
`{` `}` reproduces the trimmed printed document exactly — so the trim/strip
steps removed precisely one leading `{` and one trailing `}` and nothing
else. -/
theorem claim5_brace_normalization (Q : String) (doc : GDocument)
    (h : parse ("\x7b" ++ Q ++ "\x7d") = some doc) :
    (∃ ss rest, doc.definitions =
        GDefinition.operationDefinition ⟨"query", none, [], [], ss⟩ :: rest) ∧
    "\x7b" ++ minify (print doc) ++ "\x7d" = jsTrim (print doc) := by
  have hshape := parse_braced_first_definition Q doc h
  refine ⟨hshape, ?_⟩
  obtain ⟨ss, rest, hdefs⟩ := hshape
  obtain ⟨mid, hmid⟩ := printDocument_shape doc ss rest hdefs (parse_wf _ _ h)
  have hpd : print doc = ⟨'\x7b' :: (mid ++ ['\x7d', '\n'])⟩ := by
    apply String.ext
    exact hmid
  rw [hpd]
  unfold minify
  rw [jsTrim_brace_shape]
  rw [show (⟨'\x7b' :: (mid ++ ['\x7d'])⟩ : String) = ⟨'\x7b' :: (mid ++ ['\x7d'])⟩
    from rfl]
  rw [stripLeadingBrace_mk, stripTrailingBrace_mk]
  apply String.ext
  show ("\x7b" ++ (⟨mid⟩ : String) ++ "\x7d").data = '\x7b' :: (mid ++ ['\x7d'])
  rw [String.data_append, String.data_append]
  rfl

/-- Witness for C5 at the concrete input `Q = "a"`. -/
theorem claim5_witness :
    (∃ ss rest, (GDocument.mk [GDefinition.operationDefinition
        ⟨"query", none, [], [],
          GSelectionSet.mk [GSelection.field none ⟨"a"⟩ [] [] none]⟩]).definitions =
        GDefinition.operationDefinition ⟨"query", none, [], [], ss⟩ :: rest) ∧
    "\x7b" ++ minify (print (GDocument.mk [GDefinition.operationDefinition
        ⟨"query", none, [], [],
          GSelectionSet.mk [GSelection.field none ⟨"a"⟩ [] [] none]⟩])) ++ "\x7d" =
      jsTrim (print (GDocument.mk [GDefinition.operationDefinition
        ⟨"query", none, [], [],
          GSelectionSet.mk [GSelection.field none ⟨"a"⟩ [] [] none]⟩])) :=
  claim5_brace_normalization "a" _ (by rfl)

/-! ### Fuel irrelevance of the lexer -/

theorem lexStep_congr (next next' : List Char → Option (List Token))
    (cs : List Char)
    (h : ∀ cs' : List Char, cs'.length < cs.length → next cs' = next' cs') :
    lexStep next cs = lexStep next' cs := by
  cases cs with
  | nil => rfl
  | cons c cs =>
    have hlt : cs.length < (c :: cs).length := by simp
    have hdwn : (cs.dropWhile isNameChar).length < (c :: cs).length :=
      lt_of_le_of_lt (List.IsSuffix.length_le (List.dropWhile_suffix _)) hlt
    have hdwd : (cs.dropWhile isDigitChar).length < (c :: cs).length :=
      lt_of_le_of_lt (List.IsSuffix.length_le (List.dropWhile_suffix _)) hlt
    cases hcl : classifyChar c with
    | ignored => simp only [lexStep, hcl]; exact h cs hlt
    | punct t => simp only [lexStep, hcl]; rw [h cs hlt]
    | dot =>
      cases cs with
      | nil => simp only [lexStep, hcl]
      | cons d1 cs2 =>
        cases cs2 with
        | nil => simp only [lexStep, hcl]
        | cons d2 rest =>
          simp only [lexStep, hcl]
          split
          · rw [h rest (by simp only [List.length_cons]; omega)]
          · rfl
    | nameStart =>
      simp only [lexStep, hcl]
      rw [h (cs.dropWhile isNameChar) hdwn]
    | numStart =>
      simp only [lexStep, hcl]
      split
      · rw [h (cs.dropWhile isDigitChar) hdwd]
      · rfl
    | quote =>
      simp only [lexStep, hcl]
      cases hdw : cs.dropWhile (fun d => decide (d.toNat ≠ 34)) with
      | nil => simp only [hdw]
      | cons q rest =>
        simp only [hdw]
        have hr : rest.length < (c :: cs).length := by
          have h1 : (q :: rest).length ≤ cs.length := by
            rw [← hdw]
            exact List.IsSuffix.length_le (List.dropWhile_suffix _)
          simp only [List.length_cons] at h1 ⊢
          omega
        split
        · rw [h rest hr]
        · rfl
    | other => simp only [lexStep, hcl]

theorem lexMain_fuel_irrel : ∀ n : Nat, ∀ cs : List Char, cs.length ≤ n →
    ∀ f1 f2 : Nat, cs.length < f1 → cs.length < f2 →
      lexMain f1 cs = lexMain f2 cs := by
  intro n
  induction n with
  | zero =>
    intro cs hc f1 f2 h1 h2
    have hnil : cs = [] := List.eq_nil_of_length_eq_zero (Nat.le_zero.mp hc)
    subst hnil
    cases f1 with
    | zero => omega
    | succ g1 =>
      cases f2 with
      | zero => omega
      | succ g2 => rfl
  | succ n ih =>
    intro cs hc f1 f2 h1 h2
    cases f1 with
    | zero => omega
    | succ g1 =>
      cases f2 with
      | zero => omega
      | succ g2 =>
        show lexStep (lexMain g1) cs = lexStep (lexMain g2) cs
        apply lexStep_congr
        intro cs' hlen
        exact ih cs' (by omega) g1 g2 (by omega) (by omega)

theorem lexMain_eq_lexTokens (f : Nat) (cs : List Char) (h : cs.length < f) :
    lexMain f cs = lexTokens cs :=
  lexMain_fuel_irrel cs.length cs le_rfl f (cs.length + 1) h (Nat.lt_succ_self _)

/-! ### Splitting the lexer along token boundaries -/

theorem takeWhile_append_all (p : Char → Bool) (l r : List Char)
    (hl : l.all p = true) (hr : headNone p r = true) :
    (l ++ r).takeWhile p = l := by
  induction l with
  | nil =>
    cases r with
    | nil => rfl
    | cons x xs =>
      have hx : p x = false := by simpa [headNone] using hr
      simp [List.takeWhile_cons, hx]
  | cons a l ih =>
    simp only [List.all_cons, Bool.and_eq_true] at hl
    simp [List.takeWhile_cons, hl.1, ih hl.2]

theorem dropWhile_append_all (p : Char → Bool) (l r : List Char)
    (hl : l.all p = true) (hr : headNone p r = true) :
    (l ++ r).dropWhile p = r := by
  induction l with
  | nil =>
    cases r with
    | nil => rfl
    | cons x xs =>
      have hx : p x = false := by simpa [headNone] using hr
      simp [List.dropWhile_cons, hx]
  | cons a l ih =>
    simp only [List.all_cons, Bool.and_eq_true] at hl
    simp [List.dropWhile_cons, hl.1, ih hl.2]

theorem safeChar_cases (c : Char) (h : safeChar c = true) :
    c.toNat = 32 ∨ c.toNat = 10 ∨ c.toNat = 44 ∨ c.toNat = 123 ∨ c.toNat = 125 ∨
    c.toNat = 40 ∨ c.toNat = 41 ∨ c.toNat = 91 ∨ c.toNat = 93 ∨ c.toNat = 58 ∨
    c.toNat = 61 ∨ c.toNat = 64 ∨ c.toNat = 33 ∨ c.toNat = 36 ∨ c.toNat = 124 ∨
    c.toNat = 34 := by
  simp only [safeChar, List.contains_cons, List.contains_nil, Bool.or_eq_true,
    beq_iff_eq, Bool.false_eq_true, or_false] at h
  omega

theorem safeChar_not_nameChar (c : Char) (h : safeChar c = true) :
    isNameChar c = false := by
  have hc := safeChar_cases c h
  simp only [isNameChar, isNameStartChar, Bool.or_eq_false_iff,
    Bool.and_eq_false_iff, decide_eq_false_iff_not]
  omega

theorem safeChar_not_digit (c : Char) (h : safeChar c = true) :
    isDigitChar c = false := by
  have hc := safeChar_cases c h
  simp only [isDigitChar, Bool.and_eq_false_iff, decide_eq_false_iff_not]
  omega

theorem safeBoundary_headNone_name (rest : List Char)
    (h : safeBoundary rest = true) : headNone isNameChar rest = true := by
  cases rest with
  | nil => rfl
  | cons c cs =>
    have hc : safeChar c = true := by simpa [safeBoundary] using h
    simp [headNone, safeChar_not_nameChar c hc]

theorem safeBoundary_headNone_digit (rest : List Char)
    (h : safeBoundary rest = true) : headNone isDigitChar rest = true := by
  cases rest with
  | nil => rfl
  | cons c cs =>
    have hc : safeChar c = true := by simpa [safeBoundary] using h
    simp [headNone, safeChar_not_digit c hc]

theorem safeBoundary_numberFollowOk (rest : List Char)
    (h : safeBoundary rest = true) : numberFollowOk rest = true := by
  cases rest with
  | nil => rfl
  | cons c cs =>
    have hc := safeChar_cases c (by simpa [safeBoundary] using h)
    simp only [numberFollowOk, isNameStartChar, Bool.not_eq_true',
      Bool.or_eq_false_iff, Bool.and_eq_false_iff, decide_eq_false_iff_not]
    omega

theorem classifyChar_of_nameStart (c : Char) (h : isNameStartChar c = true) :
    classifyChar c = CharClass.nameStart := by
  have hn : c.toNat = 95 ∨ (65 ≤ c.toNat ∧ c.toNat ≤ 90) ∨
      (97 ≤ c.toNat ∧ c.toNat ≤ 122) := by
    have h' := h
    simp only [isNameStartChar, Bool.or_eq_true, Bool.and_eq_true,
      decide_eq_true_eq] at h'
    omega
  have hig : isIgnoredChar c = false := by
    simp only [isIgnoredChar, Bool.or_eq_false_iff, decide_eq_false_iff_not]
    omega
  have hpt : punctToken? c = none := by
    unfold punctToken?
    rw [List.find?_eq_none.mpr]
    · rfl
    · intro x hx
      fin_cases hx <;> (simp only [beq_iff_eq]; omega)
  unfold classifyChar
  rw [if_neg (by simp [hig]), hpt]
  rw [if_neg (by omega), if_pos h]

theorem classifyChar_of_numStart (c : Char)
    (h : c.toNat = 45 ∨ isDigitChar c = true) :
    classifyChar c = CharClass.numStart := by
  have hn : c.toNat = 45 ∨ (48 ≤ c.toNat ∧ c.toNat ≤ 57) := by
    rcases h with h | h
    · exact Or.inl h
    · exact Or.inr (by simpa [isDigitChar, Bool.and_eq_true, decide_eq_true_eq] using h)
  have hig : isIgnoredChar c = false := by
    simp only [isIgnoredChar, Bool.or_eq_false_iff, decide_eq_false_iff_not]
    omega
  have hpt : punctToken? c = none := by
    unfold punctToken?
    rw [List.find?_eq_none.mpr]
    · rfl
    · intro x hx
      fin_cases hx <;> (simp only [beq_iff_eq]; omega)
  have hns : isNameStartChar c = false := by
    simp only [isNameStartChar, Bool.or_eq_false_iff, Bool.and_eq_false_iff,
      decide_eq_false_iff_not]
    omega
  unfold classifyChar
  rw [if_neg (by simp [hig]), hpt]
  rw [if_neg (by omega), if_neg (by simp [hns]), if_pos]
  rcases hn with h | h
  · simp [h]
  · simp only [isDigitChar, Bool.or_eq_true, Bool.and_eq_true, decide_eq_true_eq]
    omega

theorem lexTokens_cons_ignored (c : Char) (cs : List Char)
    (h : isIgnoredChar c = true) : lexTokens (c :: cs) = lexTokens cs := by
  have hcl : classifyChar c = CharClass.ignored := by simp [classifyChar, h]
  show lexStep (lexMain (cs.length + 1)) (c :: cs) = _
  simp only [lexStep, hcl]
  rfl

theorem lexTokens_cons_punct (c : Char) (t : Token) (cs : List Char)
    (h : classifyChar c = CharClass.punct t) :
    lexTokens (c :: cs) = (lexTokens cs).map (fun ts => t :: ts) := by
  show lexStep (lexMain (cs.length + 1)) (c :: cs) = _
  simp only [lexStep, h]
  rfl

theorem lexTokens_spread_chunk (cs : List Char) :
    lexTokens ('.' :: '.' :: '.' :: cs) =
      (lexTokens cs).map (fun ts => Token.spread :: ts) := by
  have hcl : classifyChar '.' = CharClass.dot := by decide
  show lexStep (lexMain (cs.length + 1 + 1 + 1)) ('.' :: '.' :: '.' :: cs) = _
  simp only [lexStep, hcl]
  rw [if_pos (by decide)]
  rw [lexMain_eq_lexTokens _ _ (by omega)]

theorem lexTokens_name_chunk (c : Char) (tail rest : List Char)
    (hc : isNameStartChar c = true) (htail : tail.all isNameChar = true)
    (hrest : headNone isNameChar rest = true) :
    lexTokens (c :: (tail ++ rest)) =
      (lexTokens rest).map (fun ts => Token.nameTok ⟨c :: tail⟩ :: ts) := by
  have hcl := classifyChar_of_nameStart c hc
  show lexStep (lexMain ((tail ++ rest).length + 1)) (c :: (tail ++ rest)) = _
  simp only [lexStep, hcl]
  rw [takeWhile_append_all _ _ _ htail hrest, dropWhile_append_all _ _ _ htail hrest]
  rw [lexMain_eq_lexTokens _ _ (by simp [List.length_append]; omega)]

theorem lexTokens_int_chunk (c : Char) (tail rest : List Char)
    (hc : classifyChar c = CharClass.numStart)
    (htail : tail.all isDigitChar = true)
    (hrest : headNone isDigitChar rest = true)
    (hwf : wfIntChars (c :: tail) = true) (hfo : numberFollowOk rest = true) :
    lexTokens (c :: (tail ++ rest)) =
      (lexTokens rest).map (fun ts => Token.intTok ⟨c :: tail⟩ :: ts) := by
  show lexStep (lexMain ((tail ++ rest).length + 1)) (c :: (tail ++ rest)) = _
  simp only [lexStep, hc]
  rw [takeWhile_append_all _ _ _ htail hrest, dropWhile_append_all _ _ _ htail hrest]
  rw [if_pos (by simp [hwf, hfo])]
  rw [lexMain_eq_lexTokens _ _ (by simp [List.length_append]; omega)]

theorem isPlainStringChar_ne_quote (c : Char) (h : isPlainStringChar c = true) :
    (decide (c.toNat ≠ 34)) = true := by
  simp only [isPlainStringChar, Bool.and_eq_true, decide_eq_true_eq] at h
  simpa using h.1.1

theorem lexTokens_str_chunk (content rest : List Char)
    (hplain : content.all isPlainStringChar = true) :
    lexTokens ('"' :: (content ++ '"' :: rest)) =
      (lexTokens rest).map (fun ts => Token.strTok ⟨content⟩ :: ts) := by
  have hcl : classifyChar '"' = CharClass.quote := by decide
  have hne : content.all (fun d => decide (d.toNat ≠ 34)) = true := by
    rw [List.all_eq_true] at hplain ⊢
    intro x hx
    exact isPlainStringChar_ne_quote x (hplain x hx)
  have hquote : headNone (fun d => decide (d.toNat ≠ 34)) ('"' :: rest) = true := by
    simp [headNone]
  show lexStep (lexMain ((content ++ '"' :: rest).length + 1))
    ('"' :: (content ++ '"' :: rest)) = _
  simp only [lexStep, hcl, takeWhile_append_all _ _ _ hne hquote,
    dropWhile_append_all _ _ _ hne hquote]
  rw [if_pos ⟨hplain, by decide⟩]
  rw [lexMain_eq_lexTokens _ _ (by simp [List.length_append]; omega)]

/-! ### Lexing printed text, chunk by chunk -/

theorem LexAll.toSafe {s : String} {ts : List Token} (h : LexAll s ts) :
    LexSafe s ts := fun rest _ => h rest

theorem lexAll_empty : LexAll "" [] := by
  intro rest
  show lexTokens rest = _
  cases lexTokens rest <;> simp

theorem LexAll.appendA {s1 s2 : String} {t1 t2 : List Token}
    (h1 : LexAll s1 t1) (h2 : LexAll s2 t2) : LexAll (s1 ++ s2) (t1 ++ t2) := by
  intro rest
  rw [String.data_append, List.append_assoc, h1, h2]
  cases lexTokens rest <;> simp

theorem LexAll.append_safe {s1 s2 : String} {t1 t2 : List Token}
    (h1 : LexAll s1 t1) (h2 : LexSafe s2 t2) : LexSafe (s1 ++ s2) (t1 ++ t2) := by
  intro rest hrest
  rw [String.data_append, List.append_assoc, h1, h2 rest hrest]
  cases lexTokens rest <;> simp

theorem LexSafe.append_all {s1 s2 : String} {t1 t2 : List Token}
    (h1 : LexSafe s1 t1) (h2 : LexAll s2 t2) (hne : s2.data ≠ [])
    (hs : safeBoundary s2.data = true) : LexAll (s1 ++ s2) (t1 ++ t2) := by
  intro rest
  rw [String.data_append, List.append_assoc]
  have hb : safeBoundary (s2.data ++ rest) = true := by
    cases hd : s2.data with
    | nil => exact absurd hd hne
    | cons c cs => rw [hd] at hs; simpa [safeBoundary] using hs
  rw [h1 _ hb, h2]
  cases lexTokens rest <;> simp

theorem LexSafe.appendS {s1 s2 : String} {t1 t2 : List Token}
    (h1 : LexSafe s1 t1) (h2 : LexSafe s2 t2) (hs : safeBoundary s2.data = true) :
    LexSafe (s1 ++ s2) (t1 ++ t2) := by
  intro rest hrest
  rw [String.data_append, List.append_assoc]
  have hb : safeBoundary (s2.data ++ rest) = true := by
    cases hd : s2.data with
    | nil => simpa [hd] using hrest
    | cons c cs => rw [hd] at hs; simpa [safeBoundary] using hs
  rw [h1 _ hb, h2 _ hrest]
  cases lexTokens rest <;> simp

theorem lexAll_single_punct (s : String) (c : Char) (t : Token)
    (hd : s.data = [c]) (h : classifyChar c = CharClass.punct t) :
    LexAll s [t] := by
  intro rest
  rw [hd]
  exact lexTokens_cons_punct c t rest h

theorem lexAll_single_ignored (s : String) (c : Char) (hd : s.data = [c])
    (h : isIgnoredChar c = true) : LexAll s [] := by
  intro rest
  rw [hd]
  rw [show ([c] ++ rest : List Char) = c :: rest from rfl]
  rw [lexTokens_cons_ignored c rest h]
  cases lexTokens rest <;> simp

theorem lexAll_spread : LexAll "..." [Token.spread] := by
  intro rest
  rw [show ("..." : String).data = ['.', '.', '.'] from rfl]
  exact lexTokens_spread_chunk rest

theorem lexSafe_name (s : String) (h : wfNameString s = true) :
    LexSafe s [Token.nameTok s] := by
  obtain ⟨d⟩ := s
  cases d with
  | nil => exact absurd h (by decide)
  | cons c cs =>
    have hc : isNameStartChar c = true ∧ cs.all isNameChar = true := by
      simpa [wfNameString, Bool.and_eq_true] using h
    intro rest hrest
    show lexTokens (c :: cs ++ rest) = _
    rw [List.cons_append]
    exact lexTokens_name_chunk c cs rest hc.1 hc.2
      (safeBoundary_headNone_name rest hrest)

theorem wfNatChars_all_digits (l : List Char) (h : wfNatChars l = true) :
    l.all isDigitChar = true := by
  cases l with
  | nil => exact absurd h (by decide)
  | cons d ds =>
    simp only [wfNatChars] at h
    split at h
    · rename_i h48
      have hds : ds = [] := by simpa using h
      subst hds
      have hd : isDigitChar d = true := by
        simp only [isDigitChar, Bool.and_eq_true, decide_eq_true_eq]
        omega
      simp [hd]
    · rename_i h48
      rw [Bool.and_eq_true] at h
      simp [List.all_cons, h.1, h.2]

theorem wfIntChars_parts (c : Char) (cs : List Char)
    (h : wfIntChars (c :: cs) = true) :
    (c.toNat = 45 ∨ isDigitChar c = true) ∧ cs.all isDigitChar = true := by
  simp only [wfIntChars] at h
  split at h
  · rename_i h45
    exact ⟨Or.inl h45, wfNatChars_all_digits cs h⟩
  · rename_i h45
    have hall := wfNatChars_all_digits (c :: cs) h
    rw [List.all_cons, Bool.and_eq_true] at hall
    exact ⟨Or.inr hall.1, hall.2⟩

theorem lexSafe_int (s : String) (h : wfIntChars s.data = true) :
    LexSafe s [Token.intTok s] := by
  obtain ⟨d⟩ := s
  cases d with
  | nil => exact absurd h (by decide)
  | cons c cs =>
    obtain ⟨hc, hcs⟩ := wfIntChars_parts c cs h
    intro rest hrest
    show lexTokens (c :: cs ++ rest) = _
    rw [List.cons_append]
    exact lexTokens_int_chunk c cs rest (classifyChar_of_numStart c hc) hcs
      (safeBoundary_headNone_digit rest hrest) h
      (safeBoundary_numberFollowOk rest hrest)

theorem jsonEscapeChar_plain (c : Char) (h : isPlainStringChar c = true) :
    jsonEscapeChar c = String.singleton c := by
  simp only [isPlainStringChar, Bool.and_eq_true, decide_eq_true_eq] at h
  obtain ⟨⟨h34, h92⟩, h32⟩ := h
  unfold jsonEscapeChar
  rw [if_neg h34, if_neg h92, if_neg (by omega), if_neg (by omega),
    if_neg (by omega), if_neg (by omega), if_neg (by omega), if_neg (by omega)]

theorem stringJoin_singletons (l : List Char) (h : l.all isPlainStringChar = true) :
    String.join (l.map jsonEscapeChar) = ⟨l⟩ := by
  induction l with
  | nil => rfl
  | cons c l ih =>
    simp only [List.all_cons, Bool.and_eq_true] at h
    rw [List.map_cons, stringJoin_cons, ih h.2, jsonEscapeChar_plain c h.1]
    apply String.ext
    rw [String.data_append]
    rfl

theorem jsonStringify_plain (s : String) (h : wfPlainString s = true) :
    (jsonStringify s).data = '"' :: (s.data ++ ['"']) := by
  unfold jsonStringify
  rw [stringJoin_singletons s.data h]
  rw [String.data_append, String.data_append]
  rfl

theorem lexAll_string (s : String) (h : wfPlainString s = true) :
    LexAll (jsonStringify s) [Token.strTok s] := by
  intro rest
  rw [jsonStringify_plain s h]
  rw [show ('"' :: (s.data ++ ['"'])) ++ rest = '"' :: (s.data ++ '"' :: rest) by
    simp]
  have := lexTokens_str_chunk s.data rest h
  rw [this]
  obtain ⟨d⟩ := s
  rfl

/-! ### Lexing the printer's output, node by node -/

theorem LexSafe.castS {s s' : String} {ts ts' : List Token} (h : LexSafe s ts)
    (h1 : s = s') (h2 : ts = ts') : LexSafe s' ts' := by
  subst h1; subst h2; exact h

theorem LexAll.castA {s s' : String} {ts ts' : List Token} (h : LexAll s ts)
    (h1 : s = s') (h2 : ts = ts') : LexAll s' ts' := by
  subst h1; subst h2; exact h

theorem lexAll_lbrace : LexAll "\x7b" [Token.lbrace] :=
  lexAll_single_punct _ '\x7b' _ rfl (by decide)

theorem lexAll_rbrace : LexAll "\x7d" [Token.rbrace] :=
  lexAll_single_punct _ '\x7d' _ rfl (by decide)

theorem lexAll_lparen : LexAll "(" [Token.lparen] :=
  lexAll_single_punct _ '(' _ rfl (by decide)

theorem lexAll_rparen : LexAll ")" [Token.rparen] :=
  lexAll_single_punct _ ')' _ rfl (by decide)

theorem lexAll_lbrack : LexAll "[" [Token.lbrack] :=
  lexAll_single_punct _ '[' _ rfl (by decide)

theorem lexAll_rbrack : LexAll "]" [Token.rbrack] :=
  lexAll_single_punct _ ']' _ rfl (by decide)

theorem lexAll_colon : LexAll ":" [Token.colon] :=
  lexAll_single_punct _ ':' _ rfl (by decide)

theorem lexAll_eqSign : LexAll "=" [Token.eq] :=
  lexAll_single_punct _ '=' _ rfl (by decide)

theorem lexAll_at : LexAll "@" [Token.atSign] :=
  lexAll_single_punct _ '@' _ rfl (by decide)

theorem lexAll_bang : LexAll "!" [Token.bang] :=
  lexAll_single_punct _ '!' _ rfl (by decide)

theorem lexAll_dollar : LexAll "$" [Token.dollar] :=
  lexAll_single_punct _ '$' _ rfl (by decide)

theorem lexAll_space : LexAll " " [] :=
  lexAll_single_ignored _ ' ' rfl (by decide)

theorem lexAll_newline : LexAll "\n" [] :=
  lexAll_single_ignored _ '\n' rfl (by decide)

theorem lexAll_comma_space : LexAll ", " [] :=
  ((lexAll_single_ignored "," ',' rfl (by decide)).appendA lexAll_space).castA rfl rfl

theorem lexAll_colon_space : LexAll ": " [Token.colon] :=
  (lexAll_colon.appendA lexAll_space).castA rfl (by simp)

theorem lexAll_on_space : LexAll "on " [Token.nameTok "on"] :=
  (((lexSafe_name "on" (by decide)).append_all lexAll_space (by decide)
    (by decide))).castA rfl (by simp)

theorem lexAll_fragment_space : LexAll "fragment " [Token.nameTok "fragment"] :=
  (((lexSafe_name "fragment" (by decide)).append_all lexAll_space (by decide)
    (by decide))).castA rfl (by simp)

theorem lexAll_sp_on_sp : LexAll " on " [Token.nameTok "on"] :=
  (lexAll_space.appendA lexAll_on_space).castA rfl rfl

/-! Equations for `join` over non-empty entries. -/

theorem join_nil (sep : String) : join [] sep = "" := rfl

theorem join_singleton (x sep : String) (hx : x ≠ "") : join [x] sep = x := by
  unfold join
  rw [List.filter_cons_of_pos (by simpa using hx)]
  rfl

theorem join_cons₂ (x sep : String) (xs : List String) (hx : x ≠ "")
    (hxs : xs ≠ []) (hall : ∀ y ∈ xs, y ≠ "") :
    join (x :: xs) sep = x ++ sep ++ join xs sep := by
  unfold join
  rw [List.filter_cons_of_pos (by simpa using hx)]
  rw [List.filter_eq_self.mpr (by intro a ha; simpa using hall a ha)]
  cases xs with
  | nil => exact absurd rfl hxs
  | cons y ys => exact intercalate_cons_cons sep x y ys

theorem join_empty_sep_cons (x : String) (xs : List String) :
    join (x :: xs) "" = x ++ join xs "" := by
  unfold join
  by_cases hx : x = ""
  · subst hx
    rw [List.filter_cons_of_neg (by simp)]
    rw [String.empty_append]
  · rw [List.filter_cons_of_pos (by simpa using hx)]
    cases hf : List.filter (fun s => s != "") xs with
    | nil =>
      show String.intercalate "" [x] = _
      rw [intercalate_singleton]
      show x = x ++ String.intercalate "" []
      rw [show String.intercalate "" [] = "" from rfl, String.append_empty]
    | cons y ys =>
      rw [intercalate_cons_cons]
      rw [String.append_empty]

/-! Non-emptiness of printed values and arguments. -/

theorem printValue_ne_empty (v : GValue) (h : wfValue v = true) :
    printValue v ≠ "" := by
  cases v with
  | variableValue x => exact printVariable_ne_empty x
  | intValue s =>
    intro he
    simp only [printValue] at he
    rw [he] at h
    exact absurd h (by decide)
  | floatValue s => exact absurd h (by simp [wfValue])
  | stringValue s =>
    intro he
    simp only [printValue] at he
    have := congrArg String.data he
    rw [jsonStringify_plain s (by simpa [wfValue] using h)] at this
    exact List.noConfusion this
  | booleanValue b => cases b <;> decide
  | nullValue => decide
  | enumValue s =>
    simp only [wfValue, Bool.and_eq_true] at h
    exact wfNameString_ne_empty s h.1.1.1
  | listValue vs =>
    show "[" ++ _ ++ "]" ≠ ""
    exact append_ne_empty_left _ _ (append_ne_empty_left _ _ (by decide))
  | objectValue fs =>
    show "\x7b" ++ _ ++ "\x7d" ≠ ""
    exact append_ne_empty_left _ _ (append_ne_empty_left _ _ (by decide))

theorem printObjectField_ne_empty (f : GObjectField) (h : wfObjectField f = true) :
    printObjectField f ≠ "" := by
  cases f with
  | mk nm v =>
    simp only [wfObjectField, Bool.and_eq_true] at h
    show printName nm ++ ": " ++ printValue v ≠ ""
    exact append_ne_empty_left _ _
      (append_ne_empty_left _ _ (printName_ne_empty nm h.1))

theorem printArgument_ne_empty (a : GArgument) (h : wfArgument a = true) :
    printArgument a ≠ "" := by
  simp only [wfArgument, Bool.and_eq_true] at h
  unfold printArgument
  exact append_ne_empty_left _ _
    (append_ne_empty_left _ _ (printName_ne_empty a.name h.1))

/-! Safe heads of printed fragments. -/

theorem safeBoundary_of_head (s : String) (c : Char) (cs : List Char)
    (hd : s.data = c :: cs) (hc : safeChar c = true) :
    safeBoundary s.data = true := by
  rw [hd]
  simpa [safeBoundary] using hc

theorem safeBoundary_wrap_safe_start (start m endStr : String) (c : Char)
    (cs : List Char) (hd : start.data = c :: cs) (hc : safeChar c = true) :
    safeBoundary (wrap start m endStr).data = true := by
  unfold wrap
  split
  · rw [String.data_append, String.data_append, hd]
    simpa [safeBoundary] using hc
  · rfl

theorem safeBoundary_empty (s : String) (h : s = "") :
    safeBoundary s.data = true := by
  subst h; rfl

/-! Generic joined-chunk lexing. -/

theorem lexSafe_join_pairs (sep : String) (hsepAll : LexAll sep [])
    (hsepNe : sep.data ≠ []) (hsepSafe : safeBoundary sep.data = true) :
    ∀ l : List (String × List Token),
      (∀ p ∈ l, LexSafe p.1 p.2) → (∀ p ∈ l, p.1 = "" → p.2 = []) →
      LexSafe (join (l.map Prod.fst) sep) (l.flatMap Prod.snd) := by
  intro l
  induction l with
  | nil => intro _ _; exact lexAll_empty.toSafe
  | cons p ps ih =>
    intro hlex hemp
    by_cases hp : p.1 = ""
    · have ht : p.2 = [] := hemp p (by simp) hp
      have : join ((p :: ps).map Prod.fst) sep = join (ps.map Prod.fst) sep := by
        rw [List.map_cons]
        unfold join
        rw [List.filter_cons_of_neg (by simp [hp])]
      rw [this, List.flatMap_cons, ht, List.nil_append]
      exact ih (fun q hq => hlex q (List.mem_cons_of_mem p hq))
        (fun q hq => hemp q (List.mem_cons_of_mem p hq))
    · have hx := hlex p (by simp)
      have hrest := ih (fun q hq => hlex q (List.mem_cons_of_mem p hq))
        (fun q hq => hemp q (List.mem_cons_of_mem p hq))
      rw [List.map_cons, List.flatMap_cons]
      cases hf : List.filter (fun s => s != "") (ps.map Prod.fst) with
      | nil =>
        have htt : ps.flatMap Prod.snd = [] := by
          rw [List.flatMap_eq_nil_iff]
          intro q hq
          apply hemp q (List.mem_cons_of_mem p hq)
          by_contra hne
          have hmem : q.1 ∈ List.filter (fun s => s != "") (ps.map Prod.fst) :=
            List.mem_filter.mpr ⟨List.mem_map_of_mem _ hq, by simpa using hne⟩
          rw [hf] at hmem
          exact absurd hmem (List.not_mem_nil _)
        have hjoin : join (p.1 :: ps.map Prod.fst) sep = p.1 := by
          unfold join
          rw [List.filter_cons_of_pos (by simpa using hp), hf]
          exact intercalate_singleton sep p.1
        rw [hjoin, htt, List.append_nil]
        exact hx
      | cons y ys =>
        have hjoin : join (p.1 :: ps.map Prod.fst) sep =
            (p.1 ++ sep) ++ join (ps.map Prod.fst) sep := by
          unfold join
          rw [List.filter_cons_of_pos (by simpa using hp), hf]
          exact intercalate_cons_cons sep p.1 y ys
        rw [hjoin]
        exact ((hx.append_all hsepAll hsepNe hsepSafe).append_safe hrest).castS rfl
          (by simp)

theorem lexSafe_join_map {α : Type} (pr : α → String) (tk : α → List Token)
    (sep : String) (hA : LexAll sep []) (hne : sep.data ≠ [])
    (hsafe : safeBoundary sep.data = true) (l : List α)
    (h : ∀ x ∈ l, LexSafe (pr x) (tk x)) (hnec : ∀ x ∈ l, pr x ≠ "") :
    LexSafe (join (l.map pr) sep) (l.flatMap tk) := by
  have hmain := lexSafe_join_pairs sep hA hne hsafe (l.map (fun x => (pr x, tk x)))
    (by
      intro p hp
      obtain ⟨a, ha, rfl⟩ := List.mem_map.mp hp
      exact h a ha)
    (by
      intro p hp
      obtain ⟨a, ha, rfl⟩ := List.mem_map.mp hp
      intro he
      exact absurd he (hnec a ha))
  refine hmain.castS ?_ ?_
  · congr 1
    rw [List.map_map]
    rfl
  · rw [List.flatMap_map]

theorem wrap_paren_data (J : String) (hJ : J ≠ "") :
    (wrap "(" J ")").data = '(' :: (J.data ++ [')']) := by
  unfold wrap
  rw [if_pos (by simpa using hJ)]
  rw [String.data_append, String.data_append]
  rfl

theorem lexAll_paren_wrap (J : String) (ts : List Token) (hJ : LexSafe J ts)
    (hne : J ≠ "") :
    LexAll (wrap "(" J ")") (Token.lparen :: (ts ++ [Token.rparen])) := by
  refine ((lexAll_lparen.append_safe hJ).append_all lexAll_rparen (by decide)
    (by decide)).castA ?_ ?_
  · unfold wrap
    rw [if_pos (by simpa using hne)]
  · simp

theorem join_nested_pair (x sep : String) (xs : List String) :
    join [x, join xs sep] sep = join (x :: xs) sep := by
  have hfilter : join xs sep =
      String.intercalate sep (List.filter (fun s => s != "") xs) := rfl
  generalize hJ : join xs sep = J
  rw [hJ] at hfilter
  by_cases hx : x = ""
  · subst hx
    have h1 : join ["", J] sep = join [J] sep := by
      unfold join
      rw [List.filter_cons_of_neg (by simp)]
    have h2 : join ("" :: xs) sep = join xs sep := by
      unfold join
      rw [List.filter_cons_of_neg (by simp)]
    rw [h1, h2, hJ]
    by_cases hJe : J = ""
    · rw [hJe]; rfl
    · exact join_singleton _ _ hJe
  · by_cases hJe : J = ""
    · have hf : List.filter (fun s => s != "") xs = [] := by
        cases hfc : List.filter (fun s => s != "") xs with
        | nil => rfl
        | cons y ys =>
          exfalso
          rw [hfc] at hfilter
          have hy : y ≠ "" := by
            have hmem : y ∈ List.filter (fun s => s != "") xs := by
              rw [hfc]; simp
            simpa using (List.mem_filter.mp hmem).2
          exact intercalate_cons_ne_empty sep y ys hy (hJe ▸ hfilter.symm)
      have h1 : join [x, J] sep = x := by
        unfold join
        rw [List.filter_cons_of_pos (by simpa using hx),
          List.filter_cons_of_neg (by simp [hJe])]
        exact intercalate_singleton sep x
      have h2 : join (x :: xs) sep = x := by
        unfold join
        rw [List.filter_cons_of_pos (by simpa using hx), hf]
        exact intercalate_singleton sep x
      rw [h1, h2]
    · obtain ⟨y, ys, hfc⟩ : ∃ y ys,
          List.filter (fun s => s != "") xs = y :: ys := by
        cases hfc : List.filter (fun s => s != "") xs with
        | nil =>
          rw [hfc] at hfilter
          exact absurd hfilter hJe
        | cons y ys => exact ⟨y, ys, rfl⟩
      rw [hfc] at hfilter
      have h1 : join [x, J] sep = (x ++ sep) ++ J := by
        unfold join
        rw [List.filter_cons_of_pos (by simpa using hx),
          List.filter_cons_of_pos (by simpa using hJe), List.filter_nil]
        rw [intercalate_cons_cons]
        rw [intercalate_singleton]
      have h2 : join (x :: xs) sep = (x ++ sep) ++ J := by
        unfold join
        rw [List.filter_cons_of_pos (by simpa using hx), hfc]
        rw [intercalate_cons_cons, ← hfilter]
      rw [h1, h2]

theorem joinTokensEmpty (vs : List GValue) (h : wfValueList vs = true)
    (he : join (printValueList vs) ", " = "") : tokensOfValueList vs = [] := by
  cases vs with
  | nil => rfl
  | cons v vs' =>
    exfalso
    rw [show printValueList (v :: vs') =
        printValue v :: printValueList vs' from rfl] at he
    simp only [wfValueList, Bool.and_eq_true] at h
    exact join_cons_ne_empty _ _ _ (printValue_ne_empty v h.1) he

theorem joinFieldTokensEmpty (fs : List GObjectField)
    (h : wfObjectFieldList fs = true)
    (he : join (printObjectFieldList fs) ", " = "") :
    tokensOfObjectFieldList fs = [] := by
  cases fs with
  | nil => rfl
  | cons f fs' =>
    exfalso
    rw [show printObjectFieldList (f :: fs') =
        printObjectField f :: printObjectFieldList fs' from rfl] at he
    simp only [wfObjectFieldList, Bool.and_eq_true] at h
    exact join_cons_ne_empty _ _ _ (printObjectField_ne_empty f h.1) he

/-! The value printers lex back to their token streams (strong induction on
the tree size, covering the mutual value/object-field structure). -/

theorem lexValue_aux (n : Nat) :
    (∀ v : GValue, sizeOf v ≤ n → wfValue v = true →
      LexSafe (printValue v) (tokensOfValue v)) ∧
    (∀ f : GObjectField, sizeOf f ≤ n → wfObjectField f = true →
      LexSafe (printObjectField f) (tokensOfObjectField f)) ∧
    (∀ vs : List GValue, sizeOf vs ≤ n → wfValueList vs = true →
      LexSafe (join (printValueList vs) ", ") (tokensOfValueList vs)) ∧
    (∀ fs : List GObjectField, sizeOf fs ≤ n → wfObjectFieldList fs = true →
      LexSafe (join (printObjectFieldList fs) ", ") (tokensOfObjectFieldList fs)) := by
  induction n with
  | zero =>
    refine ⟨?_, ?_, ?_, ?_⟩ <;> intro x hx _ <;> exfalso <;> cases x <;>
      simp at hx
  | succ n ih =>
    obtain ⟨ihv, ihf, ihvs, ihfs⟩ := ih
    refine ⟨?_, ?_, ?_, ?_⟩
    · intro v hv hwf
      cases v with
      | variableValue x =>
        have hn : wfNameString x.name.value = true := by simpa [wfValue] using hwf
        simp only [printValue, printVariable, tokensOfValue]
        exact (lexAll_dollar.append_safe (lexSafe_name _ hn)).castS rfl rfl
      | intValue s =>
        simp only [printValue, tokensOfValue]
        exact lexSafe_int s (by simpa [wfValue] using hwf)
      | floatValue s => exact absurd hwf (by simp [wfValue])
      | stringValue s =>
        simp only [printValue, tokensOfValue]
        exact (lexAll_string s (by simpa [wfValue] using hwf)).toSafe
      | booleanValue b =>
        cases b <;>
          (simp only [printValue, tokensOfValue, jsonStringifyBool];
           exact lexSafe_name _ (by decide))
      | nullValue =>
        simp only [printValue, tokensOfValue]
        exact lexSafe_name _ (by decide)
      | enumValue s =>
        simp only [wfValue, Bool.and_eq_true] at hwf
        simp only [printValue, tokensOfValue]
        exact lexSafe_name _ hwf.1.1.1
      | listValue vs =>
        have hvs : sizeOf vs ≤ n := by
          simp only [GValue.listValue.sizeOf_spec] at hv
          omega
        have hwfl : wfValueList vs = true := by simpa [wfValue] using hwf
        simp only [printValue, tokensOfValue]
        refine (((lexAll_lbrack.append_safe (ihvs vs hvs hwfl)).append_all
          lexAll_rbrack (by decide) (by decide)).castA rfl ?_).toSafe
        simp
      | objectValue fs =>
        have hfs : sizeOf fs ≤ n := by
          simp only [GValue.objectValue.sizeOf_spec] at hv
          omega
        have hwfl : wfObjectFieldList fs = true := by simpa [wfValue] using hwf
        simp only [printValue, tokensOfValue]
        refine (((lexAll_lbrace.append_safe (ihfs fs hfs hwfl)).append_all
          lexAll_rbrace (by decide) (by decide)).castA rfl ?_).toSafe
        simp
    · intro f hf hwf
      obtain ⟨nm, v⟩ := f
      simp only [wfObjectField, Bool.and_eq_true] at hwf
      have hv : sizeOf v ≤ n := by
        simp only [GObjectField.mk.sizeOf_spec] at hf
        omega
      simp only [printObjectField, tokensOfObjectField]
      exact (((lexSafe_name _ hwf.1).append_all lexAll_colon_space (by decide)
        (by decide)).append_safe (ihv v hv hwf.2)).castS rfl rfl
    · intro vs hvs hwf
      cases vs with
      | nil => exact lexAll_empty.toSafe
      | cons v vs' =>
        simp only [wfValueList, Bool.and_eq_true] at hwf
        have hsv : sizeOf v ≤ n := by
          simp only [List.cons.sizeOf_spec] at hvs
          omega
        have hsvs : sizeOf vs' ≤ n := by
          simp only [List.cons.sizeOf_spec] at hvs
          omega
        have hxlex := ihv v hsv hwf.1
        have hrest := ihvs vs' hsvs hwf.2
        have hpairs := lexSafe_join_pairs ", " lexAll_comma_space (by decide)
          (by decide) ((printValue v, tokensOfValue v) ::
            [(join (printValueList vs') ", ", tokensOfValueList vs')])
          (by
            intro p hp
            rcases List.mem_cons.mp hp with rfl | hp2
            · exact hxlex
            · rcases List.mem_cons.mp hp2 with rfl | hp3
              · exact hrest
              · exact absurd hp3 (List.not_mem_nil _))
          (by
            intro p hp
            rcases List.mem_cons.mp hp with rfl | hp2
            · intro he; exact absurd he (printValue_ne_empty v hwf.1)
            · rcases List.mem_cons.mp hp2 with rfl | hp3
              · intro he
                exact joinTokensEmpty vs' hwf.2 he
              · exact absurd hp3 (List.not_mem_nil _))
        refine hpairs.castS ?_ ?_
        · show join [printValue v, join (printValueList vs') ", "] ", " = _
          rw [join_nested_pair]
          rfl
        · simp [tokensOfValueList]
    · intro fs hfs hwf
      cases fs with
      | nil => exact lexAll_empty.toSafe
      | cons f fs' =>
        simp only [wfObjectFieldList, Bool.and_eq_true] at hwf
        have hsf : sizeOf f ≤ n := by
          simp only [List.cons.sizeOf_spec] at hfs
          omega
        have hsfs : sizeOf fs' ≤ n := by
          simp only [List.cons.sizeOf_spec] at hfs
          omega
        have hxlex := ihf f hsf hwf.1
        have hrest := ihfs fs' hsfs hwf.2
        have hpairs := lexSafe_join_pairs ", " lexAll_comma_space (by decide)
          (by decide) ((printObjectField f, tokensOfObjectField f) ::
            [(join (printObjectFieldList fs') ", ", tokensOfObjectFieldList fs')])
          (by
            intro p hp
            rcases List.mem_cons.mp hp with rfl | hp2
            · exact hxlex
            · rcases List.mem_cons.mp hp2 with rfl | hp3
              · exact hrest
              · exact absurd hp3 (List.not_mem_nil _))
          (by
            intro p hp
            rcases List.mem_cons.mp hp with rfl | hp2
            · intro he; exact absurd he (printObjectField_ne_empty f hwf.1)
            · rcases List.mem_cons.mp hp2 with rfl | hp3
              · intro he
                exact joinFieldTokensEmpty fs' hwf.2 he
              · exact absurd hp3 (List.not_mem_nil _))
        refine hpairs.castS ?_ ?_
        · show join [printObjectField f, join (printObjectFieldList fs') ", "] ", " = _
          rw [join_nested_pair]
          rfl
        · simp [tokensOfObjectFieldList]

theorem lexSafe_value (v : GValue) (h : wfValue v = true) :
    LexSafe (printValue v) (tokensOfValue v) :=
  (lexValue_aux (sizeOf v)).1 v le_rfl h

theorem lexSafe_argument (a : GArgument) (h : wfArgument a = true) :
    LexSafe (printArgument a) (tokensOfArgument a) := by
  simp only [wfArgument, Bool.and_eq_true] at h
  simp only [printArgument, tokensOfArgument]
  exact (((lexSafe_name _ h.1).append_all lexAll_colon (by decide)
    (by decide)).append_safe (lexSafe_value a.value h.2)).castS rfl rfl

theorem lexSafe_args_join (sep : String) (hA : LexAll sep [])
    (hne : sep.data ≠ []) (hsafe : safeBoundary sep.data = true)
    (args : List GArgument) (h : args.all wfArgument = true) :
    LexSafe (join (args.map printArgument) sep)
      (args.flatMap tokensOfArgument) := by
  rw [List.all_eq_true] at h
  exact lexSafe_join_map printArgument tokensOfArgument sep hA hne hsafe args
    (fun a ha => lexSafe_argument a (h a ha))
    (fun a ha => printArgument_ne_empty a (h a ha))

theorem lexSafe_directive (d : GDirective) (h : wfDirective d = true) :
    LexSafe (printDirective d) (tokensOfDirective d) := by
  obtain ⟨nm, args⟩ := d
  simp only [wfDirective, Bool.and_eq_true] at h
  simp only [printDirective, tokensOfDirective]
  cases args with
  | nil =>
    refine ((lexAll_at.append_safe (lexSafe_name _ h.1))).castS ?_ ?_
    · rw [show wrap "(" (join (List.map printArgument ([] : List GArgument)) ", ")
        ")" = "" from rfl, String.append_empty]
      rfl
    · rfl
  | cons a as =>
    have hwfa : (a :: as).all wfArgument = true := h.2
    have haw : wfArgument a = true := by
      rw [List.all_eq_true] at hwfa
      exact hwfa a (by simp)
    have hJne : join ((a :: as).map printArgument) ", " ≠ "" := by
      rw [List.map_cons]
      exact join_cons_ne_empty _ _ _ (printArgument_ne_empty a haw)
    have hwrap := lexAll_paren_wrap _ _
      (lexSafe_args_join ", " lexAll_comma_space (by decide) (by decide)
        (a :: as) hwfa) hJne
    refine (((lexAll_at.append_safe (lexSafe_name _ h.1))).appendS hwrap.toSafe
      ?_).castS rfl ?_
    · rw [wrap_paren_data _ hJne]
      rfl
    · simp [tokensOfArguments]

theorem lexSafe_dirs_join (dirs : List GDirective)
    (h : dirs.all wfDirective = true) :
    LexSafe (join (dirs.map printDirective) " ")
      (dirs.flatMap tokensOfDirective) := by
  rw [List.all_eq_true] at h
  exact lexSafe_join_map printDirective tokensOfDirective " " lexAll_space
    (by decide) (by decide) dirs
    (fun d hd => lexSafe_directive d (h d hd))
    (fun d _ => printDirective_ne_empty d)

theorem join_head_data (x sep : String) (xs : List String) (hx : x ≠ "") :
    ∃ t, (join (x :: xs) sep).data = x.data ++ t := by
  unfold join
  rw [List.filter_cons_of_pos (by simpa using hx)]
  exact intercalate_head sep x _

theorem printDirective_data_head (d : GDirective) :
    ∃ t, (printDirective d).data = '@' :: t := by
  unfold printDirective
  refine ⟨(printName d.name).data ++
    (wrap "(" (join (d.arguments.map printArgument) ", ") ")").data, ?_⟩
  rw [String.data_append, String.data_append]
  rfl

theorem safeBoundary_dirsJoin (dirs : List GDirective) :
    safeBoundary (join (dirs.map printDirective) " ").data = true := by
  cases dirs with
  | nil => rfl
  | cons d ds =>
    rw [List.map_cons]
    obtain ⟨t, ht⟩ := join_head_data (printDirective d) " "
      (ds.map printDirective) (printDirective_ne_empty d)
    rw [ht]
    obtain ⟨t2, ht2⟩ := printDirective_data_head d
    rw [ht2]
    rfl

theorem lexSafe_type (ty : GType) (h : wfType ty = true) :
    LexSafe (printType ty) (tokensOfType ty) := by
  induction ty with
  | namedType t =>
    simp only [printType, printNamedType, tokensOfType]
    exact lexSafe_name _ (by simpa [wfType] using h)
  | listType ty ih =>
    simp only [printType, tokensOfType]
    refine (((lexAll_lbrack.append_safe (ih (by simpa [wfType] using h))).append_all
      lexAll_rbrack (by decide) (by decide)).castA rfl ?_).toSafe
    simp
  | nonNullType ty ih =>
    have hty : wfType ty = true := by
      cases ty <;> simpa [wfType] using h
    simp only [printType, tokensOfType]
    exact ((ih hty).appendS lexAll_bang.toSafe (by decide)).castS rfl rfl

theorem lexSafe_variableDefinition (vd : GVariableDefinition)
    (h : wfVariableDefinition vd = true) :
    LexSafe (printVariableDefinition vd) (tokensOfVariableDefinition vd) := by
  obtain ⟨x, ty, dv⟩ := vd
  simp only [wfVariableDefinition, Bool.and_eq_true] at h
  obtain ⟨⟨hn, hty⟩, hdv⟩ := h
  have hbase := ((lexAll_dollar.append_safe (lexSafe_name _ hn)).append_all
    lexAll_colon (by decide) (by decide)).append_safe (lexSafe_type ty hty)
  simp only [printVariableDefinition, printVariable, printName,
    tokensOfVariableDefinition]
  cases dv with
  | none =>
    refine (hbase.appendS lexAll_empty.toSafe rfl).castS ?_ ?_
    · rfl
    · simp
  | some v =>
    have hv : wfValue v = true := by simpa using hdv
    have hvne : printValue v ≠ "" := printValue_ne_empty v hv
    have hwrapLex : LexSafe (wrap "=" (printValue v) "")
        (Token.eq :: tokensOfValue v) := by
      refine ((lexAll_eqSign.append_safe (lexSafe_value v hv)).castS ?_ ?_)
      · unfold wrap
        rw [if_pos (by simpa using hvne), String.append_empty]
      · rfl
    refine (hbase.appendS hwrapLex ?_).castS ?_ ?_
    · unfold wrap
      rw [if_pos (by simpa using hvne), String.append_empty]
      rw [String.data_append]
      rfl
    · rfl
    · simp

theorem lexSafe_vardefs_join (vds : List GVariableDefinition)
    (h : vds.all wfVariableDefinition = true) :
    LexSafe (join (vds.map printVariableDefinition) ",")
      (vds.flatMap tokensOfVariableDefinition) := by
  rw [List.all_eq_true] at h
  exact lexSafe_join_map printVariableDefinition tokensOfVariableDefinition ","
    (lexAll_single_ignored "," ',' rfl (by decide)) (by decide) (by decide) vds
    (fun v hv => lexSafe_variableDefinition v (h v hv))
    (fun v _ => printVariableDefinition_ne_empty v)

theorem lexAll_comma : LexAll "," [] :=
  lexAll_single_ignored "," ',' rfl (by decide)

theorem join_singleton_empty_sep (x : String) : join [x] "" = x := by
  by_cases hx : x = ""
  · subst hx; rfl
  · exact join_singleton x "" hx

theorem joinSelTokensEmpty (sels : List GSelection)
    (h : wfSelectionList sels = true)
    (he : join (printSelectionList sels) "," = "") :
    tokensOfSelectionList sels = [] := by
  cases sels with
  | nil => rfl
  | cons s sels' =>
    exfalso
    rw [show printSelectionList (s :: sels') =
        printSelection s :: printSelectionList sels' from rfl] at he
    simp only [wfSelectionList, Bool.and_eq_true] at h
    exact join_cons_ne_empty _ _ _ (printSelection_ne_empty s h.1) he

theorem safeBoundary_printSelectionSet (ss : GSelectionSet) :
    safeBoundary (printSelectionSet ss).data = true := by
  cases ss with
  | mk sels =>
    exact safeBoundary_wrap_safe_start "\x7b" _ "\x7d" '\x7b' [] rfl (by decide)

theorem safeBoundary_printOptSelectionSet (ss : Option GSelectionSet) :
    safeBoundary (printOptSelectionSet ss).data = true := by
  cases ss with
  | none => rfl
  | some s => exact safeBoundary_printSelectionSet s

theorem safeBoundary_dirsJoin_append (dirs : List GDirective) (s2 : String)
    (h2 : safeBoundary s2.data = true) :
    safeBoundary ((join (dirs.map printDirective) " ") ++ s2).data = true := by
  cases dirs with
  | nil =>
    rw [String.data_append]
    exact h2
  | cons d ds =>
    rw [String.data_append, List.map_cons]
    obtain ⟨t, ht⟩ := join_head_data (printDirective d) " " _
      (printDirective_ne_empty d)
    rw [ht]
    obtain ⟨t2, ht2⟩ := printDirective_data_head d
    rw [ht2]
    rfl

theorem lexSafe_wrapArgsField (args : List GArgument)
    (h : args.all wfArgument = true) :
    LexSafe (wrap "(" (join (args.map printArgument) ",") ")")
      (tokensOfArguments args) ∧
    safeBoundary (wrap "(" (join (args.map printArgument) ",") ")").data =
      true := by
  cases args with
  | nil => exact ⟨lexAll_empty.toSafe, rfl⟩
  | cons a as =>
    have haw : wfArgument a = true := by
      rw [List.all_eq_true] at h
      exact h a (by simp)
    have hJne : join ((a :: as).map printArgument) "," ≠ "" := by
      rw [List.map_cons]
      exact join_cons_ne_empty _ _ _ (printArgument_ne_empty a haw)
    refine ⟨((lexAll_paren_wrap _ _
      (lexSafe_args_join "," lexAll_comma (by decide) (by decide) (a :: as) h)
      hJne).castA rfl ?_).toSafe, ?_⟩
    · simp [tokensOfArguments]
    · rw [wrap_paren_data _ hJne]
      rfl

theorem lexSafe_wrapVarDefs (vds : List GVariableDefinition)
    (h : vds.all wfVariableDefinition = true) :
    LexSafe (wrap "(" (join (vds.map printVariableDefinition) ",") ")")
      (tokensOfVariableDefinitions vds) ∧
    safeBoundary
      (wrap "(" (join (vds.map printVariableDefinition) ",") ")").data = true := by
  cases vds with
  | nil => exact ⟨lexAll_empty.toSafe, rfl⟩
  | cons v vs =>
    have hJne : join ((v :: vs).map printVariableDefinition) "," ≠ "" := by
      rw [List.map_cons]
      exact join_cons_ne_empty _ _ _ (printVariableDefinition_ne_empty v)
    refine ⟨((lexAll_paren_wrap _ _ (lexSafe_vardefs_join (v :: vs) h)
      hJne).castA rfl ?_).toSafe, ?_⟩
    · simp [tokensOfVariableDefinitions]
    · rw [wrap_paren_data _ hJne]
      rfl

theorem lexAll_aliasPart (a : Option GName)
    (h : (match a with | none => true | some al => wfNameString al.value) = true) :
    LexAll (wrap "" (printOptName a) ":")
      (match a with
       | none => []
       | some al => [Token.nameTok al.value, Token.colon]) := by
  cases a with
  | none => exact lexAll_empty
  | some al =>
    have hal : wfNameString al.value = true := by simpa using h
    have hne : printOptName (some al) ≠ "" := wfNameString_ne_empty _ hal
    refine ((lexSafe_name _ hal).append_all lexAll_colon (by decide)
      (by decide)).castA ?_ ?_
    · unfold wrap
      rw [if_pos (by simpa using hne)]
      rfl
    · rfl

theorem lexSelection_aux (n : Nat) :
    (∀ ss : GSelectionSet, sizeOf ss ≤ n → wfSelectionSet ss = true →
      LexSafe (printSelectionSet ss) (tokensOfSelectionSet ss)) ∧
    (∀ sels : List GSelection, sizeOf sels ≤ n → wfSelectionList sels = true →
      LexSafe (join (printSelectionList sels) ",") (tokensOfSelectionList sels)) ∧
    (∀ s : GSelection, sizeOf s ≤ n → wfSelection s = true →
      LexSafe (printSelection s) (tokensOfSelection s)) := by
  induction n with
  | zero =>
    refine ⟨?_, ?_, ?_⟩ <;> intro x hx _ <;> exfalso <;> cases x <;> simp at hx
  | succ n ih =>
    obtain ⟨ihset, ihlist, ihsel⟩ := ih
    refine ⟨?_, ?_, ?_⟩
    · intro ss hsz hwf
      cases ss with
      | mk sels =>
        obtain ⟨heq, hJne⟩ := printSelectionSet_mk_eq sels hwf
        have hsels : sizeOf sels ≤ n := by
          simp only [GSelectionSet.mk.sizeOf_spec] at hsz
          omega
        have hwfl : wfSelectionList sels = true := by
          simp only [wfSelectionSet, Bool.and_eq_true] at hwf
          exact hwf.2
        refine (((lexAll_lbrace.append_safe (ihlist sels hsels hwfl)).append_all
          lexAll_rbrace (by decide) (by decide)).castA heq.symm ?_).toSafe
        simp [tokensOfSelectionSet]
    · intro sels hsz hwf
      cases sels with
      | nil => exact lexAll_empty.toSafe
      | cons s sels' =>
        simp only [wfSelectionList, Bool.and_eq_true] at hwf
        have hs1 : sizeOf s ≤ n := by
          simp only [List.cons.sizeOf_spec] at hsz
          omega
        have hs2 : sizeOf sels' ≤ n := by
          simp only [List.cons.sizeOf_spec] at hsz
          omega
        have hxlex := ihsel s hs1 hwf.1
        have hrest := ihlist sels' hs2 hwf.2
        have hpairs := lexSafe_join_pairs "," lexAll_comma (by decide)
          (by decide) ((printSelection s, tokensOfSelection s) ::
            [(join (printSelectionList sels') ",", tokensOfSelectionList sels')])
          (by
            intro p hp
            rcases List.mem_cons.mp hp with rfl | hp2
            · exact hxlex
            · rcases List.mem_cons.mp hp2 with rfl | hp3
              · exact hrest
              · exact absurd hp3 (List.not_mem_nil _))
          (by
            intro p hp
            rcases List.mem_cons.mp hp with rfl | hp2
            · intro he; exact absurd he (printSelection_ne_empty s hwf.1)
            · rcases List.mem_cons.mp hp2 with rfl | hp3
              · intro he
                exact joinSelTokensEmpty sels' hwf.2 he
              · exact absurd hp3 (List.not_mem_nil _))
        refine hpairs.castS ?_ ?_
        · show join [printSelection s, join (printSelectionList sels') ","] "," = _
          rw [join_nested_pair]
          rfl
        · simp [tokensOfSelectionList]
    · intro s hsz hwf
      cases s with
      | field a nm args dirs ss =>
        simp only [wfSelection, Bool.and_eq_true] at hwf
        obtain ⟨⟨⟨⟨ha, hn⟩, hargs⟩, hdirs⟩, hss⟩ := hwf
        obtain ⟨hwrapArgs, hwrapArgsSafe⟩ := lexSafe_wrapArgsField args hargs
        have hssLex : LexSafe (printOptSelectionSet ss)
            (tokensOfOptSelectionSet ss) := by
          cases ss with
          | none => exact lexAll_empty.toSafe
          | some st =>
            have hstz : sizeOf st ≤ n := by
              simp only [GSelection.field.sizeOf_spec, Option.some.sizeOf_spec]
                at hsz
              omega
            exact ihset st hstz (by simpa [wfOptSelectionSet] using hss)
        have hdirsLex := lexSafe_dirs_join dirs hdirs
        have hE1 := ((lexAll_aliasPart a ha).append_safe
          (lexSafe_name _ hn)).appendS hwrapArgs hwrapArgsSafe
        have htail : LexSafe
            (join (dirs.map printDirective) " " ++ printOptSelectionSet ss)
            (dirs.flatMap tokensOfDirective ++ tokensOfOptSelectionSet ss) :=
          hdirsLex.appendS hssLex (safeBoundary_printOptSelectionSet ss)
        have hwhole := hE1.appendS htail
          (safeBoundary_dirsJoin_append dirs _
            (safeBoundary_printOptSelectionSet ss))
        refine hwhole.castS ?_ ?_
        · show _ = printSelection (GSelection.field a nm args dirs ss)
          simp only [printSelection]
          rw [join_empty_sep_cons, join_empty_sep_cons, join_singleton_empty_sep]
          rfl
        · cases a <;> simp [tokensOfSelection]
      | fragmentSpread nm dirs =>
        simp only [wfSelection, Bool.and_eq_true] at hwf
        obtain ⟨⟨hn, hon⟩, hdirs⟩ := hwf
        have hdirsLex := lexSafe_dirs_join dirs hdirs
        have hwrapDirs : LexSafe (wrap " " (join (dirs.map printDirective) " ") "")
            (dirs.flatMap tokensOfDirective) := by
          cases dirs with
          | nil => exact lexAll_empty.toSafe
          | cons d ds =>
            have hJne : join ((d :: ds).map printDirective) " " ≠ "" := by
              rw [List.map_cons]
              exact join_cons_ne_empty _ _ _ (printDirective_ne_empty d)
            refine ((lexAll_space.append_safe hdirsLex).appendS
              lexAll_empty.toSafe rfl).castS ?_ ?_
            · unfold wrap
              rw [if_pos (by simpa using hJne)]
            · simp
        have hwdSafe : safeBoundary
            (wrap " " (join (dirs.map printDirective) " ") "").data = true := by
          cases dirs with
          | nil => rfl
          | cons d ds =>
            have hJne : join ((d :: ds).map printDirective) " " ≠ "" := by
              rw [List.map_cons]
              exact join_cons_ne_empty _ _ _ (printDirective_ne_empty d)
            unfold wrap
            rw [if_pos (by simpa using hJne)]
            rfl
        have hwhole := lexAll_spread.append_safe
          ((lexSafe_name _ hn).appendS hwrapDirs hwdSafe)
        refine hwhole.castS ?_ ?_
        · show _ = printSelection (GSelection.fragmentSpread nm dirs)
          simp only [printSelection]
          rw [String.append_assoc]
          rfl
        · simp [tokensOfSelection]
      | inlineFragment tc dirs ss =>
        simp only [wfSelection, Bool.and_eq_true] at hwf
        obtain ⟨⟨htc, hdirs⟩, hss⟩ := hwf
        have hssz : sizeOf ss ≤ n := by
          simp only [GSelection.inlineFragment.sizeOf_spec] at hsz
          omega
        have hssLex := ihset ss hssz hss
        have hdirsLex := lexSafe_dirs_join dirs hdirs
        have hwrapOn : LexSafe (wrap "on " (printOptNamedType tc) "")
            (match tc with
             | none => []
             | some t => [Token.nameTok "on", Token.nameTok t.name.value]) := by
          cases tc with
          | none => exact lexAll_empty.toSafe
          | some t =>
            have htn : wfNameString t.name.value = true := by simpa using htc
            have hne : printOptNamedType (some t) ≠ "" :=
              wfNameString_ne_empty _ htn
            refine ((lexAll_on_space.append_safe (lexSafe_name _ htn)).appendS
              lexAll_empty.toSafe rfl).castS ?_ ?_
            · unfold wrap
              rw [if_pos (by simpa using hne)]
              rfl
            · simp
        have htail := hdirsLex.appendS hssLex (safeBoundary_printSelectionSet ss)
        have hwhole := lexAll_spread.append_safe (hwrapOn.appendS htail
          (safeBoundary_dirsJoin_append dirs _ (safeBoundary_printSelectionSet ss)))
        refine hwhole.castS ?_ ?_
        · show _ = printSelection (GSelection.inlineFragment tc dirs ss)
          simp only [printSelection]
          rw [join_empty_sep_cons, join_empty_sep_cons, join_empty_sep_cons,
            join_singleton_empty_sep]
        · cases tc <;> simp [tokensOfSelection]

theorem lexSafe_selectionSet (ss : GSelectionSet) (h : wfSelectionSet ss = true) :
    LexSafe (printSelectionSet ss) (tokensOfSelectionSet ss) :=
  (lexSelection_aux (sizeOf ss)).1 ss le_rfl h

theorem vardefsWrap_empty_tokens (vds : List GVariableDefinition)
    (h : wrap "(" (join (vds.map printVariableDefinition) ",") ")" = "") :
    tokensOfVariableDefinitions vds = [] := by
  cases vds with
  | nil => rfl
  | cons v vs =>
    exfalso
    have hJne : join ((v :: vs).map printVariableDefinition) "," ≠ "" := by
      rw [List.map_cons]
      exact join_cons_ne_empty _ _ _ (printVariableDefinition_ne_empty v)
    rw [show wrap "(" (join ((v :: vs).map printVariableDefinition) ",") ")" =
        "(" ++ join ((v :: vs).map printVariableDefinition) "," ++ ")" from by
      unfold wrap; rw [if_pos (by simpa using hJne)]] at h
    exact append_ne_empty_left _ _ (append_ne_empty_left _ _ (by decide)) h

theorem dirsJoin_empty_tokens (dirs : List GDirective)
    (h : join (dirs.map printDirective) " " = "") :
    dirs.flatMap tokensOfDirective = [] := by
  cases dirs with
  | nil => rfl
  | cons d ds =>
    exfalso
    rw [List.map_cons] at h
    exact join_cons_ne_empty _ _ _ (printDirective_ne_empty d) h

theorem lexSafe_nameVarDefs (name : Option GName)
    (vds : List GVariableDefinition)
    (hname : (match name with | none => true | some n => wfNameString n.value)
      = true)
    (hvds : vds.all wfVariableDefinition = true) :
    LexSafe (join [printOptName name,
        wrap "(" (join (vds.map printVariableDefinition) ",") ")"] "")
      (tokensOfOptName name ++ tokensOfVariableDefinitions vds) := by
  obtain ⟨hwrapLex, hwrapSafe⟩ := lexSafe_wrapVarDefs vds hvds
  cases name with
  | none =>
    refine hwrapLex.castS ?_ ?_
    · rw [join_empty_sep_cons, join_singleton_empty_sep]
      rfl
    · rfl
  | some nm =>
    have hn : wfNameString nm.value = true := by simpa using hname
    refine ((lexSafe_name _ hn).appendS hwrapLex hwrapSafe).castS ?_ ?_
    · rw [join_empty_sep_cons, join_singleton_empty_sep]
      rfl
    · rfl

theorem lexSafe_opdef_tail (op : String) (hop1 : wfNameString op = true)
    (hop2 : op ≠ "") (inner : String) (innerToks : List Token)
    (hinner : LexSafe inner innerToks)
    (hinnerEmp : inner = "" → innerToks = [])
    (dirs : List GDirective) (hdirs : dirs.all wfDirective = true)
    (ss : GSelectionSet) (hss : wfSelectionSet ss = true) :
    LexSafe (join [op, inner, join (dirs.map printDirective) " ",
        printSelectionSet ss] " ")
      (Token.nameTok op :: (innerToks ++ dirs.flatMap tokensOfDirective ++
        tokensOfSelectionSet ss)) := by
  have hpairs := lexSafe_join_pairs " " lexAll_space (by decide) (by decide)
    [(op, [Token.nameTok op]), (inner, innerToks),
     (join (dirs.map printDirective) " ", dirs.flatMap tokensOfDirective),
     (printSelectionSet ss, tokensOfSelectionSet ss)]
    (by
      intro p hp
      rcases List.mem_cons.mp hp with rfl | hp2
      · exact lexSafe_name op hop1
      · rcases List.mem_cons.mp hp2 with rfl | hp3
        · exact hinner
        · rcases List.mem_cons.mp hp3 with rfl | hp4
          · exact lexSafe_dirs_join dirs hdirs
          · rcases List.mem_cons.mp hp4 with rfl | hp5
            · exact lexSafe_selectionSet ss hss
            · exact absurd hp5 (List.not_mem_nil _))
    (by
      intro p hp
      rcases List.mem_cons.mp hp with rfl | hp2
      · intro he; exact absurd he hop2
      · rcases List.mem_cons.mp hp2 with rfl | hp3
        · exact hinnerEmp
        · rcases List.mem_cons.mp hp3 with rfl | hp4
          · intro he; exact dirsJoin_empty_tokens dirs he
          · rcases List.mem_cons.mp hp4 with rfl | hp5
            · intro he; exact absurd he (printSelectionSet_ne_empty ss hss)
            · exact absurd hp5 (List.not_mem_nil _))
  refine hpairs.castS rfl ?_
  simp

theorem lexSafe_operationDefinition (od : GOperationDefinition)
    (h : wfOperationDefinition od = true) :
    LexSafe (printOperationDefinition od) (tokensOfOperationDefinition od) := by
  obtain ⟨op, name, vds, dirs, ss⟩ := od
  simp only [wfOperationDefinition, Bool.and_eq_true] at h
  obtain ⟨⟨⟨⟨hop, hname⟩, hvds⟩, hdirs⟩, hss⟩ := h
  have hkw : wfNameString op = true ∧ op ≠ "" := by
    simp only [beq_iff_eq, Bool.or_eq_true] at hop
    obtain (rfl | rfl) | rfl := hop <;> exact ⟨by decide, by decide⟩
  simp only [printOperationDefinition, tokensOfOperationDefinition]
  by_cases hc : printOptName name = "" ∧ join (dirs.map printDirective) " " = "" ∧
      wrap "(" (join (vds.map printVariableDefinition) ",") ")" = "" ∧
      op = "query"
  · rw [if_pos hc, if_pos hc]
    exact lexSafe_selectionSet ss hss
  · rw [if_neg hc, if_neg hc]
    have hinnerEmp : join [printOptName name,
        wrap "(" (join (vds.map printVariableDefinition) ",") ")"] "" = "" →
        (tokensOfOptName name ++ tokensOfVariableDefinitions vds) = [] := by
      intro he
      rw [join_empty_sep_cons, join_singleton_empty_sep] at he
      cases name with
      | none =>
        have hw : wrap "(" (join (vds.map printVariableDefinition) ",") ")" = "" := he
        rw [vardefsWrap_empty_tokens vds hw]
        rfl
      | some nm =>
        exfalso
        have hn : wfNameString nm.value = true := by simpa using hname
        exact append_ne_empty_left _ _ (wfNameString_ne_empty _ hn) he
    refine (lexSafe_opdef_tail op hkw.1 hkw.2 _ _
      (lexSafe_nameVarDefs name vds hname hvds) hinnerEmp dirs hdirs ss
      hss).castS rfl ?_
    cases name <;> simp [tokensOfOptName]

theorem lexSafe_fragmentDefinition (fd : GFragmentDefinition)
    (h : wfFragmentDefinition fd = true) :
    LexSafe (printFragmentDefinition fd) (tokensOfFragmentDefinition fd) := by
  obtain ⟨nm, tc, dirs, ss⟩ := fd
  simp only [wfFragmentDefinition, Bool.and_eq_true] at h
  obtain ⟨⟨⟨⟨hn, hon⟩, ht⟩, hdirs⟩, hss⟩ := h
  have hdirsLex := lexSafe_dirs_join dirs hdirs
  have hwrapDirs : LexSafe (wrap "" (join (dirs.map printDirective) " ") " ")
      (dirs.flatMap tokensOfDirective) := by
    cases dirs with
    | nil => exact lexAll_empty.toSafe
    | cons d ds =>
      have hJne : join ((d :: ds).map printDirective) " " ≠ "" := by
        rw [List.map_cons]
        exact join_cons_ne_empty _ _ _ (printDirective_ne_empty d)
      refine ((hdirsLex.append_all lexAll_space (by decide) (by decide)).castA
        ?_ ?_).toSafe
      · unfold wrap
        rw [if_pos (by simpa using hJne)]
        rfl
      · simp
  have hwdSafe : safeBoundary
      (wrap "" (join (dirs.map printDirective) " ") " ").data = true := by
    cases dirs with
    | nil => rfl
    | cons d ds =>
      have hJne : join ((d :: ds).map printDirective) " " ≠ "" := by
        rw [List.map_cons]
        exact join_cons_ne_empty _ _ _ (printDirective_ne_empty d)
      unfold wrap
      rw [if_pos (by simpa using hJne)]
      rw [show ("" : String) ++ join ((d :: ds).map printDirective) " " ++ " " =
        join ((d :: ds).map printDirective) " " ++ " " from rfl]
      rw [String.data_append, List.map_cons]
      obtain ⟨t0, ht0⟩ := join_head_data (printDirective d) " "
        (ds.map printDirective) (printDirective_ne_empty d)
      rw [ht0]
      obtain ⟨t2, ht2⟩ := printDirective_data_head d
      rw [ht2]
      rfl
  have hwhole :=
    (((((lexAll_fragment_space.append_safe (lexSafe_name _ hn)).append_all
      lexAll_sp_on_sp (by decide) (by decide)).append_safe
      (lexSafe_name _ ht)).append_all lexAll_space (by decide)
      (by decide)).append_safe
      (hwrapDirs.appendS (lexSafe_selectionSet ss hss)
        (safeBoundary_printSelectionSet ss)))
  refine hwhole.castS ?_ ?_
  · show _ = printFragmentDefinition ⟨nm, tc, dirs, ss⟩
    simp only [printFragmentDefinition]
    rw [String.append_assoc ("fragment " ++ printName nm ++ " on " ++
      printNamedType tc ++ " ")]
    rfl
  · simp [tokensOfFragmentDefinition]

theorem lexSafe_definition (d : GDefinition) (h : wfDefinition d = true) :
    LexSafe (printDefinition d) (tokensOfDefinition d) := by
  cases d with
  | operationDefinition od =>
    exact lexSafe_operationDefinition od (by simpa [wfDefinition] using h)
  | fragmentDefinition fd =>
    exact lexSafe_fragmentDefinition fd (by simpa [wfDefinition] using h)

theorem lexSafe_document (doc : GDocument) (h : wfDocument doc = true) :
    LexSafe (join (doc.definitions.map printDefinition) " ")
      (tokensOfDocument doc) := by
  simp only [wfDocument, Bool.and_eq_true] at h
  obtain ⟨-, hall⟩ := h
  rw [List.all_eq_true] at hall
  exact lexSafe_join_map printDefinition tokensOfDefinition " " lexAll_space
    (by decide) (by decide) doc.definitions
    (fun d hd => lexSafe_definition d (hall d hd))
    (fun d hd => printDefinition_ne_empty d (hall d hd))

theorem lexTokens_print (doc : GDocument) (h : wfDocument doc = true) :
    lexTokens (print doc).data = some (tokensOfDocument doc) := by
  have hJ := lexSafe_document doc h
  have hmain := (hJ.appendS lexAll_newline.toSafe rfl) [] rfl
  rw [List.append_nil] at hmain
  show lexTokens (printDocument doc).data = _
  unfold printDocument
  rw [hmain]
  rw [show lexTokens ([] : List Char) = some [] from rfl]
  simp

/-! ### The token parsers recover printed nodes

For every well-formed node, running the parser on the node's token stream
(plus any remainder, with the appropriate follow conditions) returns exactly
that node. -/

theorem tokensOfValue_head (v : GValue) :
    ∃ t ts, tokensOfValue v = t :: ts ∧ ¬t = Token.rbrack ∧ ¬t = Token.rbrace ∧
      ¬t = Token.rparen := by
  cases v <;> exact ⟨_, _, rfl, by simp, by simp, by simp⟩

theorem tokensOfValue_length_pos (v : GValue) : 1 ≤ (tokensOfValue v).length := by
  obtain ⟨t, ts, hht, -⟩ := tokensOfValue_head v
  rw [hht]
  simp

theorem valueParsers_rt (fuel : Nat) :
    (∀ v rest, wfValue v = true → (tokensOfValue v).length < fuel →
      parseValue fuel (tokensOfValue v ++ rest) = some (v, rest)) ∧
    (∀ vs rest, wfValueList vs = true →
      (tokensOfValueList vs).length + 1 < fuel →
      parseValueList fuel (tokensOfValueList vs ++ Token.rbrack :: rest) =
        some (vs, rest)) ∧
    (∀ fs rest, wfObjectFieldList fs = true →
      (tokensOfObjectFieldList fs).length + 1 < fuel →
      parseObjectFieldList fuel
        (tokensOfObjectFieldList fs ++ Token.rbrace :: rest) =
        some (fs, rest)) := by
  induction fuel with
  | zero =>
    refine ⟨?_, ?_, ?_⟩ <;> (intro x rest _ hfuel; omega)
  | succ f ih =>
    obtain ⟨ihv, ihl, iho⟩ := ih
    refine ⟨?_, ?_, ?_⟩
    · intro v rest hwf hfuel
      cases v with
      | variableValue x =>
        show parseValue (f + 1)
          (Token.dollar :: Token.nameTok x.name.value :: rest) = _
        simp only [parseValue]
      | intValue s =>
        show parseValue (f + 1) (Token.intTok s :: rest) = _
        simp only [parseValue]
      | floatValue s => exact absurd hwf (by simp [wfValue])
      | stringValue s =>
        show parseValue (f + 1) (Token.strTok s :: rest) = _
        simp only [parseValue]
      | booleanValue b =>
        cases b with
        | true =>
          show parseValue (f + 1) (Token.nameTok "true" :: rest) = _
          rfl
        | false =>
          show parseValue (f + 1) (Token.nameTok "false" :: rest) = _
          rfl
      | nullValue =>
        show parseValue (f + 1) (Token.nameTok "null" :: rest) = _
        rfl
      | enumValue s =>
        simp only [wfValue, Bool.and_eq_true, bne_iff_ne, ne_eq] at hwf
        show parseValue (f + 1) (Token.nameTok s :: rest) = _
        simp only [parseValue]
        rw [if_neg hwf.1.1.2, if_neg hwf.1.2, if_neg hwf.2]
      | listValue vs =>
        have hwfl : wfValueList vs = true := by simpa [wfValue] using hwf
        have hfl : (tokensOfValueList vs).length + 1 < f := by
          simp only [tokensOfValue, List.length_cons, List.length_append,
            List.length_singleton] at hfuel
          omega
        have harr : tokensOfValue (GValue.listValue vs) ++ rest =
            Token.lbrack :: (tokensOfValueList vs ++ Token.rbrack :: rest) := by
          simp [tokensOfValue]
        rw [harr]
        simp only [parseValue, ihl vs rest hwfl hfl, Option.map_some']
      | objectValue fs =>
        have hwfl : wfObjectFieldList fs = true := by simpa [wfValue] using hwf
        have hfl : (tokensOfObjectFieldList fs).length + 1 < f := by
          simp only [tokensOfValue, List.length_cons, List.length_append,
            List.length_singleton] at hfuel
          omega
        have harr : tokensOfValue (GValue.objectValue fs) ++ rest =
            Token.lbrace :: (tokensOfObjectFieldList fs ++ Token.rbrace :: rest) := by
          simp [tokensOfValue]
        rw [harr]
        simp only [parseValue, iho fs rest hwfl hfl, Option.map_some']
    · intro vs rest hwf hfuel
      cases vs with
      | nil =>
        show parseValueList (f + 1) (Token.rbrack :: rest) = some ([], rest)
        rfl
      | cons v vs' =>
        simp only [wfValueList, Bool.and_eq_true] at hwf
        have hlenv := tokensOfValue_length_pos v
        have hfv : (tokensOfValue v).length < f := by
          simp only [tokensOfValueList, List.length_append] at hfuel
          omega
        have hfl : (tokensOfValueList vs').length + 1 < f := by
          simp only [tokensOfValueList, List.length_append] at hfuel
          omega
        obtain ⟨t, ts, hht, hne1, hne2, hne3⟩ := tokensOfValue_head v
        have harr : tokensOfValueList (v :: vs') ++ Token.rbrack :: rest =
            t :: (ts ++ (tokensOfValueList vs' ++ Token.rbrack :: rest)) := by
          simp [tokensOfValueList, hht]
        rw [harr, parseValueList_cons_ne_rbrack f t hne1]
        rw [show t :: (ts ++ (tokensOfValueList vs' ++ Token.rbrack :: rest)) =
          tokensOfValue v ++ (tokensOfValueList vs' ++ Token.rbrack :: rest) by
          rw [hht]; rfl]
        simp only [ihv v _ hwf.1 hfv, ihl vs' rest hwf.2 hfl, Option.map_some']
    · intro fs rest hwf hfuel
      cases fs with
      | nil =>
        show parseObjectFieldList (f + 1) (Token.rbrace :: rest) = some ([], rest)
        rfl
      | cons fld fs' =>
        obtain ⟨nm, v⟩ := fld
        simp only [wfObjectFieldList, Bool.and_eq_true, wfObjectField] at hwf
        have hlenv := tokensOfValue_length_pos v
        have hfv : (tokensOfValue v).length < f := by
          simp only [tokensOfObjectFieldList, tokensOfObjectField,
            List.length_append, List.length_cons] at hfuel
          omega
        have hfl : (tokensOfObjectFieldList fs').length + 1 < f := by
          simp only [tokensOfObjectFieldList, tokensOfObjectField,
            List.length_append, List.length_cons] at hfuel
          omega
        have harr : tokensOfObjectFieldList (GObjectField.mk nm v :: fs') ++
            Token.rbrace :: rest =
            Token.nameTok nm.value :: Token.colon ::
              (tokensOfValue v ++
                (tokensOfObjectFieldList fs' ++ Token.rbrace :: rest)) := by
          simp [tokensOfObjectFieldList, tokensOfObjectField]
        rw [harr]
        simp only [parseObjectFieldList, ihv v _ hwf.1.2 hfv,
          iho fs' rest hwf.2 hfl, Option.map_some']

theorem headNotTok_weaken {bad1 bad2 l : List Token}
    (hsub : ∀ t, bad2.contains t = true → bad1.contains t = true)
    (h : headNotTok bad1 l = true) : headNotTok bad2 l = true := by
  cases l with
  | nil => rfl
  | cons t ts =>
    simp only [headNotTok, Bool.not_eq_true'] at h ⊢
    cases hb : bad2.contains t with
    | false => rfl
    | true => exact absurd (hsub t hb) (by rw [h]; decide)

theorem parseArgumentList_rt (fuel : Nat) :
    ∀ args rest, ¬args = [] → args.all wfArgument = true →
      (args.flatMap tokensOfArgument).length < fuel →
      parseArgumentList fuel
        (args.flatMap tokensOfArgument ++ Token.rparen :: rest) =
        some (args, rest) := by
  induction fuel with
  | zero => intro args rest _ _ hfuel; omega
  | succ f ih =>
    intro args rest hne hwf hfuel
    cases args with
    | nil => exact absurd rfl hne
    | cons a args' =>
      obtain ⟨⟨n⟩, v⟩ := a
      simp only [List.all_cons, Bool.and_eq_true, wfArgument] at hwf
      simp only [List.flatMap_cons, tokensOfArgument, List.length_append,
        List.length_cons] at hfuel
      have hfv : (tokensOfValue v).length < f := by omega
      have harr : (GArgument.mk ⟨n⟩ v :: args').flatMap tokensOfArgument ++
          Token.rparen :: rest =
          Token.nameTok n :: Token.colon ::
            (tokensOfValue v ++
              (args'.flatMap tokensOfArgument ++ Token.rparen :: rest)) := by
        simp [tokensOfArgument]
      rw [harr]
      cases args' with
      | nil =>
        have hv := (valueParsers_rt f).1 v (Token.rparen :: rest) hwf.1.2 hfv
        rw [show tokensOfValue v ++ (([] : List GArgument).flatMap tokensOfArgument ++
          Token.rparen :: rest) = tokensOfValue v ++ Token.rparen :: rest by simp]
        rw [parseArgumentList_val_rparen f n _ v rest hv]
      | cons a2 args'' =>
        obtain ⟨⟨n2⟩, v2⟩ := a2
        have hv := (valueParsers_rt f).1 v
          ((GArgument.mk ⟨n2⟩ v2 :: args'').flatMap tokensOfArgument ++
            Token.rparen :: rest) hwf.1.2 hfv
        have hhd : (GArgument.mk ⟨n2⟩ v2 :: args'').flatMap tokensOfArgument ++
            Token.rparen :: rest =
            Token.nameTok n2 ::
              (Token.colon :: tokensOfValue v2 ++
                (args''.flatMap tokensOfArgument ++ Token.rparen :: rest)) := by
          simp [tokensOfArgument]
        rw [hhd] at hv
        rw [hhd]
        rw [parseArgumentList_val_cont f n _ v _ _ hv (by simp)]
        rw [← hhd]
        rw [ih (GArgument.mk ⟨n2⟩ v2 :: args'') rest (by simp) hwf.2 (by omega)]
        rfl

theorem parseOptArguments_rt (fuel : Nat) (args : List GArgument)
    (rest : List Token) (hwf : args.all wfArgument = true)
    (hfuel : (tokensOfArguments args).length < fuel)
    (hrest : headNotTok [Token.lparen] rest = true) :
    parseOptArguments fuel (tokensOfArguments args ++ rest) = some (args, rest) := by
  cases fuel with
  | zero => omega
  | succ f =>
    cases args with
    | nil =>
      show parseOptArguments (f + 1) rest = some ([], rest)
      cases rest with
      | nil => rfl
      | cons t ts =>
        refine parseOptArguments_ne_lparen f t ?_ ts
        intro ht
        rw [ht] at hrest
        exact absurd hrest Bool.false_ne_true
    | cons a args' =>
      have harr : tokensOfArguments (a :: args') ++ rest =
          Token.lparen ::
            ((a :: args').flatMap tokensOfArgument ++ Token.rparen :: rest) := by
        simp [tokensOfArguments]
      rw [harr]
      show parseArgumentList f _ = _
      refine parseArgumentList_rt f (a :: args') rest (by simp) hwf ?_
      simp only [tokensOfArguments, List.length_cons, List.length_append,
        List.length_singleton] at hfuel
      omega

theorem parseDirectives_rt (fuel : Nat) :
    ∀ dirs rest, dirs.all wfDirective = true →
      (dirs.flatMap tokensOfDirective).length < fuel →
      headNotTok [Token.atSign, Token.lparen] rest = true →
      parseDirectives fuel (dirs.flatMap tokensOfDirective ++ rest) =
        some (dirs, rest) := by
  induction fuel with
  | zero => intro dirs rest _ hfuel _; omega
  | succ f ih =>
    intro dirs rest hwf hfuel hrest
    cases dirs with
    | nil =>
      show parseDirectives (f + 1) rest = some ([], rest)
      cases rest with
      | nil => rfl
      | cons t ts =>
        cases t <;> first
          | rfl
          | exact absurd hrest Bool.false_ne_true
    | cons d dirs' =>
      obtain ⟨⟨n⟩, args⟩ := d
      simp only [List.all_cons, Bool.and_eq_true, wfDirective] at hwf
      simp only [List.flatMap_cons, tokensOfDirective, List.length_append,
        List.length_cons] at hfuel
      have harr : (GDirective.mk ⟨n⟩ args :: dirs').flatMap tokensOfDirective ++
          rest =
          Token.atSign :: Token.nameTok n ::
            (tokensOfArguments args ++ (dirs'.flatMap tokensOfDirective ++ rest)) := by
        simp [tokensOfDirective]
      rw [harr]
      have hafter : headNotTok [Token.lparen] (dirs'.flatMap tokensOfDirective ++ rest) =
          true := by
        cases dirs' with
        | nil =>
          simp only [List.flatMap_nil, List.nil_append]
          exact headNotTok_weaken (fun t h => by
            simp only [List.contains_cons, List.contains_nil, Bool.or_false,
              Bool.or_eq_true] at h ⊢
            exact Or.inr h) hrest
        | cons d2 dirs'' =>
          obtain ⟨⟨n2⟩, args2⟩ := d2
          rw [show (GDirective.mk ⟨n2⟩ args2 :: dirs'').flatMap tokensOfDirective ++
            rest = Token.atSign :: (Token.nameTok n2 :: tokensOfArguments args2 ++
              (dirs''.flatMap tokensOfDirective ++ rest)) by simp [tokensOfDirective]]
          rfl
      have hoa := parseOptArguments_rt f args
        (dirs'.flatMap tokensOfDirective ++ rest) hwf.1.2 (by omega) hafter
      simp only [parseDirectives, hoa]
      rw [ih dirs' rest hwf.2 (by omega) hrest]
      rfl

theorem parseType_name_notBang (f : Nat) (n : String) (toks : List Token)
    (h : headNotTok [Token.bang] toks = true) :
    parseType (f + 1) (Token.nameTok n :: toks) =
      some (GType.namedType ⟨⟨n⟩⟩, toks) := by
  cases toks with
  | nil => rfl
  | cons t ts => cases t <;> first | rfl | exact absurd h Bool.false_ne_true

theorem parseType_lbrack_eq (f : Nat) (toks : List Token) :
    parseType (f + 1) (Token.lbrack :: toks) =
      match parseType f toks with
      | some (t, Token.rbrack :: Token.bang :: rest2) =>
        some (GType.nonNullType (GType.listType t), rest2)
      | some (t, Token.rbrack :: rest) => some (GType.listType t, rest)
      | _ => none := rfl

theorem parseType_rt (fuel : Nat) :
    ∀ ty rest, wfType ty = true → (tokensOfType ty).length < fuel →
      headNotTok [Token.bang] rest = true →
      parseType fuel (tokensOfType ty ++ rest) = some (ty, rest) := by
  induction fuel with
  | zero => intro ty rest _ hfuel _; omega
  | succ f ih =>
    intro ty rest hwf hfuel hrest
    cases ty with
    | namedType t =>
      obtain ⟨⟨n⟩⟩ := t
      show parseType (f + 1) (Token.nameTok n :: rest) = _
      exact parseType_name_notBang f n rest hrest
    | listType ty' =>
      have hfl : (tokensOfType ty').length < f := by
        simp only [tokensOfType, List.length_cons, List.length_append,
          List.length_singleton] at hfuel
        omega
      have hih := ih ty' (Token.rbrack :: rest) (by simpa [wfType] using hwf) hfl rfl
      have harr : tokensOfType (GType.listType ty') ++ rest =
          Token.lbrack :: (tokensOfType ty' ++ Token.rbrack :: rest) := by
        simp [tokensOfType]
      rw [harr, parseType_lbrack_eq, hih]
      cases rest with
      | nil => rfl
      | cons t ts =>
        cases t <;> first | rfl | exact absurd hrest Bool.false_ne_true
    | nonNullType ty' =>
      cases ty' with
      | namedType t =>
        obtain ⟨⟨n⟩⟩ := t
        show parseType (f + 1) (Token.nameTok n :: Token.bang :: rest) = _
        rfl
      | listType ty'' =>
        have hwf' : wfType ty'' = true := by simpa [wfType] using hwf
        have hfl : (tokensOfType ty'').length < f := by
          simp only [tokensOfType, List.length_append, List.length_cons,
            List.length_singleton] at hfuel
          omega
        have hih := ih ty'' (Token.rbrack :: Token.bang :: rest) hwf' hfl rfl
        have harr : tokensOfType (GType.nonNullType (GType.listType ty'')) ++ rest =
            Token.lbrack ::
              (tokensOfType ty'' ++ Token.rbrack :: Token.bang :: rest) := by
          simp [tokensOfType]
        rw [harr, parseType_lbrack_eq, hih]
      | nonNullType ty'' => exact absurd hwf Bool.false_ne_true

theorem parseVDL_ty_eq_val_rparen (f : Nat) (n : String) (toks : List Token)
    (ty : GType) (rest2 : List Token) (dv : GValue) (rest3 : List Token)
    (hty : parseType f toks = some (ty, Token.eq :: rest2))
    (hdv : parseValue f rest2 = some (dv, Token.rparen :: rest3)) :
    parseVariableDefinitionList (f + 1)
      (Token.dollar :: Token.nameTok n :: Token.colon :: toks) =
      some ([⟨⟨⟨n⟩⟩, ty, some dv⟩], rest3) := by
  simp only [parseVariableDefinitionList, hty, hdv]

theorem parseVDL_ty_eq_val_cont (f : Nat) (n : String) (toks : List Token)
    (ty : GType) (rest2 : List Token) (dv : GValue) (t : Token) (r3 : List Token)
    (hty : parseType f toks = some (ty, Token.eq :: rest2))
    (hdv : parseValue f rest2 = some (dv, t :: r3)) (ht : ¬t = Token.rparen) :
    parseVariableDefinitionList (f + 1)
      (Token.dollar :: Token.nameTok n :: Token.colon :: toks) =
      (parseVariableDefinitionList f (t :: r3)).map
        (fun p => (⟨⟨⟨n⟩⟩, ty, some dv⟩ :: p.1, p.2)) := by
  cases t <;> first
    | exact absurd rfl ht
    | simp only [parseVariableDefinitionList, hty, hdv]

theorem parseVDL_ty_rparen (f : Nat) (n : String) (toks : List Token)
    (ty : GType) (rest2 : List Token)
    (hty : parseType f toks = some (ty, Token.rparen :: rest2)) :
    parseVariableDefinitionList (f + 1)
      (Token.dollar :: Token.nameTok n :: Token.colon :: toks) =
      some ([⟨⟨⟨n⟩⟩, ty, none⟩], rest2) := by
  simp only [parseVariableDefinitionList, hty]

theorem parseVDL_ty_cont (f : Nat) (n : String) (toks : List Token)
    (ty : GType) (t : Token) (r2 : List Token)
    (hty : parseType f toks = some (ty, t :: r2)) (ht1 : ¬t = Token.eq)
    (ht2 : ¬t = Token.rparen) :
    parseVariableDefinitionList (f + 1)
      (Token.dollar :: Token.nameTok n :: Token.colon :: toks) =
      (parseVariableDefinitionList f (t :: r2)).map
        (fun p => (⟨⟨⟨n⟩⟩, ty, none⟩ :: p.1, p.2)) := by
  cases t <;> first
    | exact absurd rfl ht1
    | exact absurd rfl ht2
    | simp only [parseVariableDefinitionList, hty]

theorem tokensOfVariableDefinition_eq (nm : String) (ty : GType)
    (dv : Option GValue) :
    tokensOfVariableDefinition ⟨⟨⟨nm⟩⟩, ty, dv⟩ =
      Token.dollar :: Token.nameTok nm :: Token.colon ::
        (tokensOfType ty ++ tokensOfOptDefault dv) := by
  cases dv <;> rfl

theorem parseVariableDefinitionList_rt (fuel : Nat) :
    ∀ vds rest, ¬vds = [] → vds.all wfVariableDefinition = true →
      (vds.flatMap tokensOfVariableDefinition).length < fuel →
      parseVariableDefinitionList fuel
        (vds.flatMap tokensOfVariableDefinition ++ Token.rparen :: rest) =
        some (vds, rest) := by
  induction fuel with
  | zero => intro vds rest _ _ hfuel; omega
  | succ f ih =>
    intro vds rest hne hwf hfuel
    cases vds with
    | nil => exact absurd rfl hne
    | cons vd vds' =>
      obtain ⟨⟨⟨n⟩⟩, ty, dv⟩ := vd
      simp only [List.all_cons, Bool.and_eq_true, wfVariableDefinition] at hwf
      cases dv with
      | none =>
        simp only [List.flatMap_cons, tokensOfVariableDefinition,
          List.length_cons, List.length_append, List.nil_append] at hfuel
        have hfty : (tokensOfType ty).length < f := by omega
        cases vds' with
        | nil =>
          have harr :
              (GVariableDefinition.mk ⟨⟨n⟩⟩ ty none :: ([] : List GVariableDefinition)).flatMap
                tokensOfVariableDefinition ++ Token.rparen :: rest =
              Token.dollar :: Token.nameTok n :: Token.colon ::
                (tokensOfType ty ++ Token.rparen :: rest) := by
            simp [tokensOfVariableDefinition]
          rw [harr]
          exact parseVDL_ty_rparen f n _ ty rest
            (parseType_rt f ty (Token.rparen :: rest) hwf.1.1.2 hfty rfl)
        | cons vd2 vds'' =>
          obtain ⟨⟨⟨n2⟩⟩, ty2, dv2⟩ := vd2
          have hhd : (GVariableDefinition.mk ⟨⟨n2⟩⟩ ty2 dv2 :: vds'').flatMap
              tokensOfVariableDefinition ++ Token.rparen :: rest =
              Token.dollar ::
                (Token.nameTok n2 :: Token.colon ::
                  (tokensOfType ty2 ++ tokensOfOptDefault dv2) ++
                  (vds''.flatMap tokensOfVariableDefinition ++
                    Token.rparen :: rest)) := by
            simp [tokensOfVariableDefinition_eq]
          have harr :
              (GVariableDefinition.mk ⟨⟨n⟩⟩ ty none ::
                GVariableDefinition.mk ⟨⟨n2⟩⟩ ty2 dv2 :: vds'').flatMap
                tokensOfVariableDefinition ++ Token.rparen :: rest =
              Token.dollar :: Token.nameTok n :: Token.colon ::
                (tokensOfType ty ++
                  ((GVariableDefinition.mk ⟨⟨n2⟩⟩ ty2 dv2 :: vds'').flatMap
                    tokensOfVariableDefinition ++ Token.rparen :: rest)) := by
            simp [tokensOfVariableDefinition]
          have hty := parseType_rt f ty
            ((GVariableDefinition.mk ⟨⟨n2⟩⟩ ty2 dv2 :: vds'').flatMap
              tokensOfVariableDefinition ++ Token.rparen :: rest)
            hwf.1.1.2 hfty (by rw [hhd]; rfl)
          rw [hhd] at hty
          rw [harr, hhd]
          rw [parseVDL_ty_cont f n _ ty _ _ hty (by simp) (by simp)]
          rw [← hhd]
          rw [ih (GVariableDefinition.mk ⟨⟨n2⟩⟩ ty2 dv2 :: vds'') rest (by simp)
            hwf.2 (by omega)]
          rfl
      | some v =>
        simp only [List.flatMap_cons, tokensOfVariableDefinition,
          List.length_cons, List.length_append] at hfuel
        have hfty : (tokensOfType ty).length < f := by omega
        have hfv : (tokensOfValue v).length < f := by omega
        cases vds' with
        | nil =>
          have harr :
              (GVariableDefinition.mk ⟨⟨n⟩⟩ ty (some v) ::
                ([] : List GVariableDefinition)).flatMap
                tokensOfVariableDefinition ++ Token.rparen :: rest =
              Token.dollar :: Token.nameTok n :: Token.colon ::
                (tokensOfType ty ++
                  Token.eq :: (tokensOfValue v ++ Token.rparen :: rest)) := by
            simp [tokensOfVariableDefinition]
          rw [harr]
          exact parseVDL_ty_eq_val_rparen f n _ ty _ v rest
            (parseType_rt f ty
              (Token.eq :: (tokensOfValue v ++ Token.rparen :: rest))
              hwf.1.1.2 hfty rfl)
            ((valueParsers_rt f).1 v (Token.rparen :: rest) hwf.1.2 hfv)
        | cons vd2 vds'' =>
          obtain ⟨⟨⟨n2⟩⟩, ty2, dv2⟩ := vd2
          have hhd : (GVariableDefinition.mk ⟨⟨n2⟩⟩ ty2 dv2 :: vds'').flatMap
              tokensOfVariableDefinition ++ Token.rparen :: rest =
              Token.dollar ::
                (Token.nameTok n2 :: Token.colon ::
                  (tokensOfType ty2 ++ tokensOfOptDefault dv2) ++
                  (vds''.flatMap tokensOfVariableDefinition ++
                    Token.rparen :: rest)) := by
            simp [tokensOfVariableDefinition_eq]
          have harr :
              (GVariableDefinition.mk ⟨⟨n⟩⟩ ty (some v) ::
                GVariableDefinition.mk ⟨⟨n2⟩⟩ ty2 dv2 :: vds'').flatMap
                tokensOfVariableDefinition ++ Token.rparen :: rest =
              Token.dollar :: Token.nameTok n :: Token.colon ::
                (tokensOfType ty ++
                  Token.eq ::
                    (tokensOfValue v ++
                      ((GVariableDefinition.mk ⟨⟨n2⟩⟩ ty2 dv2 :: vds'').flatMap
                        tokensOfVariableDefinition ++ Token.rparen :: rest))) := by
            simp [tokensOfVariableDefinition]
          have hty := parseType_rt f ty
            (Token.eq ::
              (tokensOfValue v ++
                ((GVariableDefinition.mk ⟨⟨n2⟩⟩ ty2 dv2 :: vds'').flatMap
                  tokensOfVariableDefinition ++ Token.rparen :: rest)))
            hwf.1.1.2 hfty rfl
          have hdv := (valueParsers_rt f).1 v
            ((GVariableDefinition.mk ⟨⟨n2⟩⟩ ty2 dv2 :: vds'').flatMap
              tokensOfVariableDefinition ++ Token.rparen :: rest) hwf.1.2 hfv
          rw [hhd] at hty hdv
          rw [harr, hhd]
          rw [parseVDL_ty_eq_val_cont f n _ ty _ v _ _ hty hdv (by simp)]
          rw [← hhd]
          rw [ih (GVariableDefinition.mk ⟨⟨n2⟩⟩ ty2 dv2 :: vds'') rest (by simp)
            hwf.2 (by omega)]
          rfl

theorem parseOptVariableDefinitions_rt (fuel : Nat)
    (vds : List GVariableDefinition) (rest : List Token)
    (hwf : vds.all wfVariableDefinition = true)
    (hfuel : (tokensOfVariableDefinitions vds).length < fuel)
    (hrest : headNotTok [Token.lparen] rest = true) :
    parseOptVariableDefinitions fuel (tokensOfVariableDefinitions vds ++ rest) =
      some (vds, rest) := by
  cases fuel with
  | zero => omega
  | succ f =>
    cases vds with
    | nil =>
      show parseOptVariableDefinitions (f + 1) rest = some ([], rest)
      cases rest with
      | nil => rfl
      | cons t ts =>
        refine parseOptVariableDefinitions_ne_lparen f t ?_ ts
        intro ht
        rw [ht] at hrest
        exact absurd hrest Bool.false_ne_true
    | cons vd vds' =>
      have harr : tokensOfVariableDefinitions (vd :: vds') ++ rest =
          Token.lparen ::
            ((vd :: vds').flatMap tokensOfVariableDefinition ++
              Token.rparen :: rest) := by
        simp [tokensOfVariableDefinitions]
      rw [harr]
      show parseVariableDefinitionList f _ = _
      refine parseVariableDefinitionList_rt f (vd :: vds') rest (by simp) hwf ?_
      simp only [tokensOfVariableDefinitions, List.length_cons,
        List.length_append, List.length_singleton] at hfuel
      omega

theorem parseFieldArgsDirs_rt (fuel : Nat) (args : List GArgument)
    (dirs : List GDirective) (rest : List Token)
    (hwfa : args.all wfArgument = true) (hwfd : dirs.all wfDirective = true)
    (hfa : (tokensOfArguments args).length < fuel)
    (hfd : (dirs.flatMap tokensOfDirective).length < fuel)
    (hrest : headNotTok [Token.lparen, Token.atSign] rest = true) :
    parseFieldArgsDirs fuel
      (tokensOfArguments args ++ (dirs.flatMap tokensOfDirective ++ rest)) =
      some ((args, dirs), rest) := by
  have hd : headNotTok [Token.lparen] (dirs.flatMap tokensOfDirective ++ rest) =
      true := by
    cases dirs with
    | nil =>
      simp only [List.flatMap_nil, List.nil_append]
      exact headNotTok_weaken (fun t h => by
        simp only [List.contains_cons, List.contains_nil, Bool.or_false,
          Bool.or_eq_true] at h ⊢
        exact Or.inl h) hrest
    | cons d dirs' =>
      obtain ⟨⟨n⟩, dargs⟩ := d
      rw [show (GDirective.mk ⟨n⟩ dargs :: dirs').flatMap tokensOfDirective ++
        rest = Token.atSign :: (Token.nameTok n :: tokensOfArguments dargs ++
          (dirs'.flatMap tokensOfDirective ++ rest)) by simp [tokensOfDirective]]
      rfl
  have hoa := parseOptArguments_rt fuel args
    (dirs.flatMap tokensOfDirective ++ rest) hwfa hfa hd
  have hpd := parseDirectives_rt fuel dirs rest hwfd hfd
    (headNotTok_weaken (fun t h => by
      simp only [List.contains_cons, List.contains_nil, Bool.or_false,
        Bool.or_eq_true] at h ⊢
      exact h.symm) hrest)
  simp only [parseFieldArgsDirs, hoa, hpd]

theorem tokensOfSelection_head (s : GSelection) :
    ∃ t ts, tokensOfSelection s = t :: ts ∧ ¬t = Token.rbrace ∧
      headNotTok [Token.colon, Token.lparen, Token.atSign, Token.lbrace]
        (t :: ts) = true := by
  cases s with
  | field a n args dirs ss =>
    cases a with
    | none => exact ⟨Token.nameTok n.value, _, rfl, by simp, rfl⟩
    | some al => exact ⟨Token.nameTok al.value, _, rfl, by simp, rfl⟩
  | fragmentSpread n dirs => exact ⟨Token.spread, _, rfl, by simp, rfl⟩
  | inlineFragment tc dirs ss => exact ⟨Token.spread, _, rfl, by simp, rfl⟩

theorem parseSelectionList_sel_rbrace (f : Nat) (toks : List Token)
    (s : GSelection) (rest : List Token)
    (hs : parseSelection f toks = some (s, Token.rbrace :: rest)) :
    parseSelectionList (f + 1) toks = some ([s], rest) := by
  simp only [parseSelectionList, hs]

theorem parseSelectionList_sel_cont (f : Nat) (toks : List Token)
    (s : GSelection) (t : Token) (r : List Token)
    (hs : parseSelection f toks = some (s, t :: r)) (ht : ¬t = Token.rbrace) :
    parseSelectionList (f + 1) toks =
      (parseSelectionList f (t :: r)).map (fun p => (s :: p.1, p.2)) := by
  cases t <;> first
    | exact absurd rfl ht
    | simp only [parseSelectionList, hs]

theorem parseSelection_name_notColon (f : Nat) (n : String) (toks : List Token)
    (h : headNotTok [Token.colon] toks = true) :
    parseSelection (f + 1) (Token.nameTok n :: toks) =
      match parseFieldArgsDirs f toks with
      | some ((args, dirs), rest2) =>
        match rest2 with
        | Token.lbrace :: _ =>
          (parseSelectionSet f rest2).map
            (fun p => (GSelection.field none ⟨n⟩ args dirs (some p.1), p.2))
        | _ => some (GSelection.field none ⟨n⟩ args dirs none, rest2)
      | none => none := by
  cases toks with
  | nil => rfl
  | cons t ts =>
    cases t <;> first | rfl | exact absurd h Bool.false_ne_true

theorem headNotTok_fieldTail (bad : List Token) (args : List GArgument)
    (dirs : List GDirective) (ss : Option GSelectionSet) (rest : List Token)
    (hblp : bad.contains Token.lparen = false)
    (hbat : bad.contains Token.atSign = false)
    (hblb : bad.contains Token.lbrace = false)
    (hrest : headNotTok bad rest = true) :
    headNotTok bad
      (tokensOfArguments args ++
        (dirs.flatMap tokensOfDirective ++
          (tokensOfOptSelectionSet ss ++ rest))) = true := by
  cases args with
  | cons a1 args2 =>
    rw [show tokensOfArguments (a1 :: args2) ++
      (dirs.flatMap tokensOfDirective ++ (tokensOfOptSelectionSet ss ++ rest)) =
      Token.lparen :: ((a1 :: args2).flatMap tokensOfArgument ++ [Token.rparen] ++
        (dirs.flatMap tokensOfDirective ++ (tokensOfOptSelectionSet ss ++ rest)))
      by simp [tokensOfArguments]]
    simp only [headNotTok, Bool.not_eq_true']
    exact hblp
  | nil =>
    rw [show tokensOfArguments [] = [] from rfl, List.nil_append]
    cases dirs with
    | cons d dirs2 =>
      obtain ⟨⟨dn⟩, da⟩ := d
      rw [show (GDirective.mk ⟨dn⟩ da :: dirs2).flatMap tokensOfDirective ++
        (tokensOfOptSelectionSet ss ++ rest) =
        Token.atSign :: (Token.nameTok dn :: tokensOfArguments da ++
          (dirs2.flatMap tokensOfDirective ++ (tokensOfOptSelectionSet ss ++ rest)))
        by simp [tokensOfDirective]]
      simp only [headNotTok, Bool.not_eq_true']
      exact hbat
    | nil =>
      simp only [List.flatMap_nil, List.nil_append]
      cases ss with
      | some sset =>
        obtain ⟨sels⟩ := sset
        rw [show tokensOfOptSelectionSet (some ⟨sels⟩) ++ rest =
          Token.lbrace :: (tokensOfSelectionList sels ++ [Token.rbrace] ++ rest)
          by simp [tokensOfOptSelectionSet, tokensOfSelectionSet]]
        simp only [headNotTok, Bool.not_eq_true']
        exact hblb
      | none => exact hrest

theorem headNotTok_sel_colon {l : List Token}
    (h : headNotTok [Token.colon, Token.lparen, Token.atSign, Token.lbrace] l =
      true) : headNotTok [Token.colon] l = true :=
  headNotTok_weaken (fun t ht => by
    simp only [List.contains_cons, List.contains_nil, Bool.or_false,
      Bool.or_eq_true] at ht ⊢
    exact Or.inl ht) h

theorem headNotTok_sel_dirs {l : List Token}
    (h : headNotTok [Token.colon, Token.lparen, Token.atSign, Token.lbrace] l =
      true) : headNotTok [Token.atSign, Token.lparen] l = true :=
  headNotTok_weaken (fun t ht => by
    simp only [List.contains_cons, List.contains_nil, Bool.or_false,
      Bool.or_eq_true] at ht ⊢
    rcases ht with h1 | h2
    · exact Or.inr (Or.inr (Or.inl h1))
    · exact Or.inr (Or.inl h2)) h

theorem headNotTok_sel_argsdirs {l : List Token}
    (h : headNotTok [Token.colon, Token.lparen, Token.atSign, Token.lbrace] l =
      true) : headNotTok [Token.lparen, Token.atSign] l = true :=
  headNotTok_weaken (fun t ht => by
    simp only [List.contains_cons, List.contains_nil, Bool.or_false,
      Bool.or_eq_true] at ht ⊢
    rcases ht with h1 | h2
    · exact Or.inr (Or.inl h1)
    · exact Or.inr (Or.inr (Or.inl h2))) h

theorem selectionParsers_rt (fuel : Nat) :
    (∀ ss rest, wfSelectionSet ss = true →
      (tokensOfSelectionSet ss).length < fuel →
      parseSelectionSet fuel (tokensOfSelectionSet ss ++ rest) =
        some (ss, rest)) ∧
    (∀ sels rest, ¬sels = [] → wfSelectionList sels = true →
      (tokensOfSelectionList sels).length + 1 < fuel →
      parseSelectionList fuel
        (tokensOfSelectionList sels ++ Token.rbrace :: rest) =
        some (sels, rest)) ∧
    (∀ s rest, wfSelection s = true → (tokensOfSelection s).length < fuel →
      headNotTok [Token.colon, Token.lparen, Token.atSign, Token.lbrace] rest =
        true →
      parseSelection fuel (tokensOfSelection s ++ rest) = some (s, rest)) := by
  induction fuel with
  | zero =>
    exact ⟨fun ss rest _ hf => absurd hf (Nat.not_lt_zero _),
      fun sels rest _ _ hf => absurd hf (Nat.not_lt_zero _),
      fun s rest _ hf _ => absurd hf (Nat.not_lt_zero _)⟩
  | succ f ih =>
    obtain ⟨ihss, ihsl, ihs⟩ := ih
    refine ⟨?_, ?_, ?_⟩
    · intro ss rest hwf hfuel
      obtain ⟨sels⟩ := ss
      simp only [wfSelectionSet, Bool.and_eq_true] at hwf
      have hne : ¬sels = [] := by
        cases sels with
        | nil => exact absurd hwf.1 Bool.false_ne_true
        | cons a b => simp
      have harr : tokensOfSelectionSet ⟨sels⟩ ++ rest =
          Token.lbrace :: (tokensOfSelectionList sels ++ Token.rbrace :: rest) := by
        simp [tokensOfSelectionSet]
      rw [harr]
      simp only [parseSelectionSet]
      rw [ihsl sels rest hne hwf.2
        (by simp only [tokensOfSelectionSet, List.length_cons, List.length_append,
          List.length_singleton] at hfuel; omega)]
      rfl
    · intro sels rest hne hwf hfuel
      cases sels with
      | nil => exact absurd rfl hne
      | cons s sels2 =>
        simp only [wfSelectionList, Bool.and_eq_true] at hwf
        simp only [tokensOfSelectionList, List.length_append] at hfuel
        obtain ⟨t, ts, hht, htne, hthead⟩ := tokensOfSelection_head s
        have hlen : 1 ≤ (tokensOfSelection s).length := by rw [hht]; simp
        cases sels2 with
        | nil =>
          have hs := ihs s (Token.rbrace :: rest) hwf.1 (by omega) rfl
          rw [show tokensOfSelectionList [s] ++ Token.rbrace :: rest =
            tokensOfSelection s ++ Token.rbrace :: rest by
            simp [tokensOfSelectionList]]
          exact parseSelectionList_sel_rbrace f _ s rest hs
        | cons s2 sels3 =>
          obtain ⟨t2, ts2, hht2, ht2ne, ht2head⟩ := tokensOfSelection_head s2
          have harr : tokensOfSelectionList (s :: s2 :: sels3) ++
              Token.rbrace :: rest =
              tokensOfSelection s ++
                (tokensOfSelectionList (s2 :: sels3) ++ Token.rbrace :: rest) := by
            simp [tokensOfSelectionList]
          have hhd2 : tokensOfSelectionList (s2 :: sels3) ++ Token.rbrace :: rest =
              t2 :: (ts2 ++ (tokensOfSelectionList sels3 ++
                Token.rbrace :: rest)) := by
            simp [tokensOfSelectionList, hht2]
          have hs := ihs s
            (tokensOfSelectionList (s2 :: sels3) ++ Token.rbrace :: rest)
            hwf.1 (by omega) (by rw [hhd2]; exact ht2head)
          rw [harr, hhd2]
          rw [hhd2] at hs
          rw [parseSelectionList_sel_cont f _ s t2 _ hs ht2ne]
          rw [← hhd2]
          rw [ihsl (s2 :: sels3) rest (by simp) hwf.2
            (by simp only [tokensOfSelectionList, List.length_append] at hfuel ⊢
                omega)]
          rfl
    · intro s rest hwf hfuel hrest
      cases s with
      | field a n args dirs ss =>
        obtain ⟨nv⟩ := n
        simp only [wfSelection, Bool.and_eq_true] at hwf
        obtain ⟨⟨⟨⟨hA, hN⟩, hArgs⟩, hDirs⟩, hSS⟩ := hwf
        have hafter : headNotTok [Token.lparen, Token.atSign]
            (tokensOfOptSelectionSet ss ++ rest) = true := by
          cases ss with
          | some sset =>
            obtain ⟨sels⟩ := sset
            rw [show tokensOfOptSelectionSet (some ⟨sels⟩) ++ rest =
              Token.lbrace :: (tokensOfSelectionList sels ++ [Token.rbrace] ++
                rest) by simp [tokensOfOptSelectionSet, tokensOfSelectionSet]]
            rfl
          | none => exact headNotTok_sel_argsdirs hrest
        cases a with
        | none =>
          have harr : tokensOfSelection
              (GSelection.field none ⟨nv⟩ args dirs ss) ++ rest =
              Token.nameTok nv ::
                (tokensOfArguments args ++
                  (dirs.flatMap tokensOfDirective ++
                    (tokensOfOptSelectionSet ss ++ rest))) := by
            simp [tokensOfSelection]
          rw [harr]
          simp only [tokensOfSelection, List.nil_append, List.length_cons,
            List.length_append] at hfuel
          have hfad := parseFieldArgsDirs_rt f args dirs
            (tokensOfOptSelectionSet ss ++ rest) hArgs hDirs (by omega)
            (by omega) hafter
          rw [parseSelection_name_notColon f nv _
            (headNotTok_fieldTail [Token.colon] args dirs ss rest rfl rfl rfl
              (headNotTok_sel_colon hrest))]
          cases ss with
          | some sset =>
            obtain ⟨sels⟩ := sset
            have hbr : tokensOfOptSelectionSet (some ⟨sels⟩) ++ rest =
                Token.lbrace ::
                  (tokensOfSelectionList sels ++ Token.rbrace :: rest) := by
              simp [tokensOfOptSelectionSet, tokensOfSelectionSet]
            have hssrt := ihss ⟨sels⟩ rest hSS (by
              simp only [tokensOfOptSelectionSet, tokensOfSelectionSet,
                List.length_cons, List.length_append, List.length_singleton]
                at hfuel ⊢
              omega)
            rw [show tokensOfSelectionSet ⟨sels⟩ ++ rest =
              Token.lbrace :: (tokensOfSelectionList sels ++ Token.rbrace :: rest)
              by simp [tokensOfSelectionSet]] at hssrt
            rw [hbr] at hfad
            rw [hbr]
            simp only [hfad, hssrt, Option.map_some']
          | none =>
            simp only [hfad]
            cases rest with
            | nil => rfl
            | cons t ts =>
              cases t <;> first | rfl | exact absurd hrest Bool.false_ne_true
        | some al =>
          obtain ⟨av⟩ := al
          have harr : tokensOfSelection
              (GSelection.field (some ⟨av⟩) ⟨nv⟩ args dirs ss) ++ rest =
              Token.nameTok av :: Token.colon :: Token.nameTok nv ::
                (tokensOfArguments args ++
                  (dirs.flatMap tokensOfDirective ++
                    (tokensOfOptSelectionSet ss ++ rest))) := by
            simp [tokensOfSelection]
          rw [harr]
          simp only [tokensOfSelection, List.length_cons, List.length_append,
            List.cons_append, List.nil_append] at hfuel
          have hfad := parseFieldArgsDirs_rt f args dirs
            (tokensOfOptSelectionSet ss ++ rest) hArgs hDirs (by omega)
            (by omega) hafter
          simp only [parseSelection]
          cases ss with
          | some sset =>
            obtain ⟨sels⟩ := sset
            have hbr : tokensOfOptSelectionSet (some ⟨sels⟩) ++ rest =
                Token.lbrace ::
                  (tokensOfSelectionList sels ++ Token.rbrace :: rest) := by
              simp [tokensOfOptSelectionSet, tokensOfSelectionSet]
            have hssrt := ihss ⟨sels⟩ rest hSS (by
              simp only [tokensOfOptSelectionSet, tokensOfSelectionSet,
                List.length_cons, List.length_append, List.length_singleton]
                at hfuel ⊢
              omega)
            rw [show tokensOfSelectionSet ⟨sels⟩ ++ rest =
              Token.lbrace :: (tokensOfSelectionList sels ++ Token.rbrace :: rest)
              by simp [tokensOfSelectionSet]] at hssrt
            rw [hbr] at hfad
            rw [hbr]
            simp only [hfad, hssrt, Option.map_some']
          | none =>
            simp only [hfad]
            cases rest with
            | nil => rfl
            | cons t ts =>
              cases t <;> first | rfl | exact absurd hrest Bool.false_ne_true
      | fragmentSpread nm dirs =>
        obtain ⟨nv⟩ := nm
        simp only [wfSelection, Bool.and_eq_true, bne_iff_ne, ne_eq] at hwf
        obtain ⟨⟨hN, hnotOn⟩, hDirs⟩ := hwf
        have harr : tokensOfSelection (GSelection.fragmentSpread ⟨nv⟩ dirs) ++
            rest =
            Token.spread :: Token.nameTok nv ::
              (dirs.flatMap tokensOfDirective ++ rest) := by
          simp [tokensOfSelection]
        rw [harr]
        simp only [tokensOfSelection, List.length_cons, List.length_append]
          at hfuel
        simp only [parseSelection]
        rw [if_neg hnotOn]
        rw [parseDirectives_rt f dirs rest hDirs (by omega)
          (headNotTok_sel_dirs hrest)]
        rfl
      | inlineFragment tc dirs sset =>
        obtain ⟨sels⟩ := sset
        simp only [wfSelection, Bool.and_eq_true] at hwf
        obtain ⟨⟨hTC, hDirs⟩, hSS⟩ := hwf
        have hlb : tokensOfSelectionSet ⟨sels⟩ ++ rest =
            Token.lbrace :: (tokensOfSelectionList sels ++ Token.rbrace :: rest) := by
          simp [tokensOfSelectionSet]
        cases tc with
        | some tcn =>
          obtain ⟨⟨tv⟩⟩ := tcn
          have harr : tokensOfSelection
              (GSelection.inlineFragment (some ⟨⟨tv⟩⟩) dirs ⟨sels⟩) ++ rest =
              Token.spread :: Token.nameTok "on" :: Token.nameTok tv ::
                (dirs.flatMap tokensOfDirective ++
                  (tokensOfSelectionSet ⟨sels⟩ ++ rest)) := by
            simp [tokensOfSelection]
          rw [harr]
          simp only [tokensOfSelection, tokensOfSelectionSet, List.length_cons,
            List.length_append, List.cons_append, List.nil_append,
            List.length_singleton] at hfuel
          have hpd := parseDirectives_rt f dirs
            (tokensOfSelectionSet ⟨sels⟩ ++ rest) hDirs (by omega)
            (by rw [hlb]; rfl)
          have hssrt := ihss ⟨sels⟩ rest hSS (by
            simp only [tokensOfSelectionSet, List.length_cons,
              List.length_append, List.length_singleton]
            omega)
          simp only [parseSelection]
          simp only [hpd, hssrt, Option.map_some']
          rw [if_pos trivial]
        | none =>
          cases dirs with
          | nil =>
            have harr : tokensOfSelection
                (GSelection.inlineFragment none [] ⟨sels⟩) ++ rest =
                Token.spread :: (Token.lbrace ::
                  (tokensOfSelectionList sels ++ Token.rbrace :: rest)) := by
              simp [tokensOfSelection, tokensOfSelectionSet]
            rw [harr]
            simp only [tokensOfSelection, tokensOfSelectionSet,
              List.length_cons, List.length_append, List.nil_append,
              List.length_singleton] at hfuel
            have hpd : parseDirectives f
                (Token.lbrace :: (tokensOfSelectionList sels ++
                  Token.rbrace :: rest)) =
                some ([], Token.lbrace :: (tokensOfSelectionList sels ++
                  Token.rbrace :: rest)) := by
              have := parseDirectives_rt f []
                (Token.lbrace :: (tokensOfSelectionList sels ++
                  Token.rbrace :: rest)) rfl (by omega) rfl
              simpa using this
            have hssrt := ihss ⟨sels⟩ rest hSS (by
              simp only [tokensOfSelectionSet, List.length_cons,
                List.length_append, List.length_singleton]
              omega)
            rw [hlb] at hssrt
            simp only [parseSelection]
            simp only [hpd, hssrt, Option.map_some']
          | cons d dirs2 =>
            obtain ⟨⟨dn⟩, da⟩ := d
            have hhd : (GDirective.mk ⟨dn⟩ da :: dirs2).flatMap
                tokensOfDirective ++ (tokensOfSelectionSet ⟨sels⟩ ++ rest) =
                Token.atSign :: (Token.nameTok dn :: tokensOfArguments da ++
                  (dirs2.flatMap tokensOfDirective ++
                    (tokensOfSelectionSet ⟨sels⟩ ++ rest))) := by
              simp [tokensOfDirective]
            have harr : tokensOfSelection
                (GSelection.inlineFragment none
                  (GDirective.mk ⟨dn⟩ da :: dirs2) ⟨sels⟩) ++ rest =
                Token.spread ::
                  ((GDirective.mk ⟨dn⟩ da :: dirs2).flatMap tokensOfDirective ++
                    (tokensOfSelectionSet ⟨sels⟩ ++ rest)) := by
              simp [tokensOfSelection]
            rw [harr, hhd]
            simp only [tokensOfSelection, tokensOfSelectionSet,
              tokensOfDirective, List.length_cons, List.length_append,
              List.nil_append, List.cons_append, List.length_singleton,
              List.flatMap_cons] at hfuel
            have hpd := parseDirectives_rt f (GDirective.mk ⟨dn⟩ da :: dirs2)
              (tokensOfSelectionSet ⟨sels⟩ ++ rest) hDirs
              (by simp only [List.flatMap_cons, tokensOfDirective,
                List.length_append, List.length_cons]; omega)
              (by rw [hlb]; rfl)
            have hssrt := ihss ⟨sels⟩ rest hSS (by
              simp only [tokensOfSelectionSet, List.length_cons,
                List.length_append, List.length_singleton]
              omega)
            simp only [parseSelection]
            rw [← hhd]
            simp only [hpd, hssrt, Option.map_some']

theorem name_none_of_printOptName_empty (name : Option GName)
    (hwf : (match name with
            | none => true
            | some n => wfNameString n.value) = true)
    (h : printOptName name = "") : name = none := by
  cases name with
  | none => rfl
  | some nm => exact absurd h (printName_ne_empty nm hwf)

theorem dirs_nil_of_join_empty (dirs : List GDirective)
    (h : join (dirs.map printDirective) " " = "") : dirs = [] := by
  cases dirs with
  | nil => rfl
  | cons d ds =>
    rw [List.map_cons] at h
    exact absurd h (join_cons_ne_empty _ _ _ (printDirective_ne_empty d))

theorem vds_nil_of_wrap_empty (vds : List GVariableDefinition)
    (h : wrap "(" (join (vds.map printVariableDefinition) ",") ")" = "") :
    vds = [] := by
  cases vds with
  | nil => rfl
  | cons v vs =>
    rw [wrap_eq_empty_iff, List.map_cons] at h
    exact absurd h (join_cons_ne_empty _ _ _ (printVariableDefinition_ne_empty v))

theorem parseOperationDefinitionFull_rt (fuel : Nat) (op : String)
    (name : Option GName) (vds : List GVariableDefinition)
    (dirs : List GDirective) (sels : List GSelection) (rest : List Token)
    (hwfv : vds.all wfVariableDefinition = true)
    (hwfd : dirs.all wfDirective = true)
    (hwfs : wfSelectionSet ⟨sels⟩ = true)
    (hfv : (tokensOfVariableDefinitions vds).length < fuel)
    (hfd : (dirs.flatMap tokensOfDirective).length < fuel)
    (hfs : (tokensOfSelectionSet ⟨sels⟩).length < fuel) :
    parseOperationDefinitionFull fuel op name
      (tokensOfVariableDefinitions vds ++
        (dirs.flatMap tokensOfDirective ++
          (tokensOfSelectionSet ⟨sels⟩ ++ rest))) =
      some (⟨op, name, vds, dirs, ⟨sels⟩⟩, rest) := by
  have hlb : tokensOfSelectionSet ⟨sels⟩ ++ rest =
      Token.lbrace :: (tokensOfSelectionList sels ++ Token.rbrace :: rest) := by
    simp [tokensOfSelectionSet]
  have hdhead : headNotTok [Token.lparen]
      (dirs.flatMap tokensOfDirective ++
        (tokensOfSelectionSet ⟨sels⟩ ++ rest)) = true := by
    cases dirs with
    | nil =>
      simp only [List.flatMap_nil, List.nil_append]
      rw [hlb]
      rfl
    | cons d dirs2 =>
      obtain ⟨⟨dn⟩, da⟩ := d
      rw [show (GDirective.mk ⟨dn⟩ da :: dirs2).flatMap tokensOfDirective ++
        (tokensOfSelectionSet ⟨sels⟩ ++ rest) =
        Token.atSign :: (Token.nameTok dn :: tokensOfArguments da ++
          (dirs2.flatMap tokensOfDirective ++
            (tokensOfSelectionSet ⟨sels⟩ ++ rest)))
        by simp [tokensOfDirective]]
      rfl
  have hvd := parseOptVariableDefinitions_rt fuel vds _ hwfv hfv hdhead
  have hpd := parseDirectives_rt fuel dirs (tokensOfSelectionSet ⟨sels⟩ ++ rest)
    hwfd hfd (by rw [hlb]; rfl)
  have hss := (selectionParsers_rt fuel).1 ⟨sels⟩ rest hwfs hfs
  simp only [parseOperationDefinitionFull, hvd, hpd, hss, Option.map_some']

theorem parseOperationDefinition_keyword_name (fuel : Nat) (op m : String)
    (ts : List Token)
    (hop : op = "query" ∨ op = "mutation" ∨ op = "subscription") :
    parseOperationDefinition fuel (Token.nameTok op :: Token.nameTok m :: ts) =
      parseOperationDefinitionFull fuel op (some ⟨m⟩) ts := by
  simp only [parseOperationDefinition]
  rw [if_pos hop]

theorem parseOperationDefinition_keyword (fuel : Nat) (op : String) (t : Token)
    (ts : List Token)
    (hop : op = "query" ∨ op = "mutation" ∨ op = "subscription")
    (hnn : ∀ m : String, ¬t = Token.nameTok m) :
    parseOperationDefinition fuel (Token.nameTok op :: t :: ts) =
      parseOperationDefinitionFull fuel op none (t :: ts) := by
  cases t <;> first
    | exact absurd rfl (hnn _)
    | (simp only [parseOperationDefinition]; rw [if_pos hop])

theorem parseOperationDefinition_rt (fuel : Nat) (od : GOperationDefinition)
    (rest : List Token) (hwf : wfOperationDefinition od = true)
    (hfuel : (tokensOfOperationDefinition od).length < fuel) :
    parseOperationDefinition fuel (tokensOfOperationDefinition od ++ rest) =
      some (od, rest) := by
  obtain ⟨op, name, vds, dirs, ⟨sels⟩⟩ := od
  simp only [wfOperationDefinition, Bool.and_eq_true] at hwf
  obtain ⟨⟨⟨⟨hop, hname⟩, hvds⟩, hdirs⟩, hss⟩ := hwf
  have hop' : op = "query" ∨ op = "mutation" ∨ op = "subscription" := by
    simpa only [Bool.or_eq_true, beq_iff_eq, or_assoc] using hop
  have hlb : tokensOfSelectionSet ⟨sels⟩ ++ rest =
      Token.lbrace :: (tokensOfSelectionList sels ++ Token.rbrace :: rest) := by
    simp [tokensOfSelectionSet]
  by_cases hc : printOptName name = "" ∧
      join (dirs.map printDirective) " " = "" ∧
      wrap "(" (join (vds.map printVariableDefinition) ",") ")" = "" ∧
      op = "query"
  · obtain ⟨hn, hd, hv, hq⟩ := hc
    have hnn : name = none := name_none_of_printOptName_empty name hname hn
    have hde : dirs = [] := dirs_nil_of_join_empty dirs hd
    have hve : vds = [] := vds_nil_of_wrap_empty vds hv
    subst hnn hde hve hq
    have htk : tokensOfOperationDefinition ⟨"query", none, [], [], ⟨sels⟩⟩ =
        tokensOfSelectionSet ⟨sels⟩ := by
      simp only [tokensOfOperationDefinition]
      rw [if_pos ⟨hn, hd, hv, trivial⟩]
    rw [htk] at hfuel ⊢
    have hssrt := (selectionParsers_rt fuel).1 ⟨sels⟩ rest hss hfuel
    rw [hlb] at hssrt ⊢
    simp only [parseOperationDefinition, hssrt, Option.map_some']
  · have htk : tokensOfOperationDefinition ⟨op, name, vds, dirs, ⟨sels⟩⟩ =
        Token.nameTok op ::
          (tokensOfOptName name ++ tokensOfVariableDefinitions vds ++
            dirs.flatMap tokensOfDirective ++ tokensOfSelectionSet ⟨sels⟩) := by
      simp only [tokensOfOperationDefinition]
      rw [if_neg hc]
      cases name <;> rfl
    rw [htk] at hfuel ⊢
    simp only [List.length_cons, List.length_append] at hfuel
    cases name with
    | some nm =>
      obtain ⟨nmv⟩ := nm
      rw [show (Token.nameTok op ::
        (tokensOfOptName (some ⟨nmv⟩) ++ tokensOfVariableDefinitions vds ++
          dirs.flatMap tokensOfDirective ++ tokensOfSelectionSet ⟨sels⟩)) ++
        rest =
        Token.nameTok op :: Token.nameTok nmv ::
          (tokensOfVariableDefinitions vds ++
            (dirs.flatMap tokensOfDirective ++
              (tokensOfSelectionSet ⟨sels⟩ ++ rest)))
        by simp [tokensOfOptName]]
      rw [parseOperationDefinition_keyword_name fuel op nmv _ hop']
      exact parseOperationDefinitionFull_rt fuel op (some ⟨nmv⟩) vds dirs sels
        rest hvds hdirs hss (by omega) (by omega) (by omega)
    | none =>
      have harr : (Token.nameTok op ::
          (tokensOfOptName none ++ tokensOfVariableDefinitions vds ++
            dirs.flatMap tokensOfDirective ++ tokensOfSelectionSet ⟨sels⟩)) ++
          rest =
          Token.nameTok op ::
            (tokensOfVariableDefinitions vds ++
              (dirs.flatMap tokensOfDirective ++
                (tokensOfSelectionSet ⟨sels⟩ ++ rest))) := by
        simp [tokensOfOptName]
      rw [harr]
      have hfull := parseOperationDefinitionFull_rt fuel op none vds dirs sels
        rest hvds hdirs hss (by omega) (by omega) (by omega)
      cases vds with
      | cons vd vds2 =>
        have hhd : tokensOfVariableDefinitions (vd :: vds2) ++
            (dirs.flatMap tokensOfDirective ++
              (tokensOfSelectionSet ⟨sels⟩ ++ rest)) =
            Token.lparen ::
              ((vd :: vds2).flatMap tokensOfVariableDefinition ++
                [Token.rparen] ++
                (dirs.flatMap tokensOfDirective ++
                  (tokensOfSelectionSet ⟨sels⟩ ++ rest))) := by
          simp [tokensOfVariableDefinitions]
        rw [hhd]
        rw [parseOperationDefinition_keyword fuel op _ _ hop' (by intro m h; cases h)]
        rw [← hhd]
        exact hfull
      | nil =>
        rw [show tokensOfVariableDefinitions [] = [] from rfl, List.nil_append]
        rw [show tokensOfVariableDefinitions [] = [] from rfl, List.nil_append]
          at hfull
        cases dirs with
        | cons d dirs2 =>
          obtain ⟨⟨dn⟩, da⟩ := d
          have hhd : (GDirective.mk ⟨dn⟩ da :: dirs2).flatMap
              tokensOfDirective ++ (tokensOfSelectionSet ⟨sels⟩ ++ rest) =
              Token.atSign :: (Token.nameTok dn :: tokensOfArguments da ++
                (dirs2.flatMap tokensOfDirective ++
                  (tokensOfSelectionSet ⟨sels⟩ ++ rest))) := by
            simp [tokensOfDirective]
          rw [hhd]
          rw [parseOperationDefinition_keyword fuel op _ _ hop'
            (by intro m h; cases h)]
          rw [← hhd]
          exact hfull
        | nil =>
          rw [show (([] : List GDirective).flatMap tokensOfDirective) = []
            from rfl, List.nil_append]
          rw [show (([] : List GDirective).flatMap tokensOfDirective) = []
            from rfl, List.nil_append] at hfull
          rw [hlb]
          rw [hlb] at hfull
          rw [parseOperationDefinition_keyword fuel op _ _ hop'
            (by intro m h; cases h)]
          exact hfull

theorem parseFragmentDefinition_rt (fuel : Nat) (n t : String)
    (dirs : List GDirective) (sels : List GSelection) (rest : List Token)
    (hnotOn : ¬n = "on") (hwfd : dirs.all wfDirective = true)
    (hwfs : wfSelectionSet ⟨sels⟩ = true)
    (hfd : (dirs.flatMap tokensOfDirective).length < fuel)
    (hfs : (tokensOfSelectionSet ⟨sels⟩).length < fuel) :
    parseFragmentDefinition fuel
      (Token.nameTok n :: Token.nameTok "on" :: Token.nameTok t ::
        (dirs.flatMap tokensOfDirective ++
          (tokensOfSelectionSet ⟨sels⟩ ++ rest))) =
      some (⟨⟨n⟩, ⟨⟨t⟩⟩, dirs, ⟨sels⟩⟩, rest) := by
  have hlb : tokensOfSelectionSet ⟨sels⟩ ++ rest =
      Token.lbrace :: (tokensOfSelectionList sels ++ Token.rbrace :: rest) := by
    simp [tokensOfSelectionSet]
  have hpd := parseDirectives_rt fuel dirs (tokensOfSelectionSet ⟨sels⟩ ++ rest)
    hwfd hfd (by rw [hlb]; rfl)
  have hss := (selectionParsers_rt fuel).1 ⟨sels⟩ rest hwfs hfs
  simp only [parseFragmentDefinition]
  rw [if_pos ⟨trivial, hnotOn⟩]
  simp only [hpd, hss, Option.map_some']

theorem tokensOfDefinition_head (d : GDefinition) :
    ∃ t ts, tokensOfDefinition d = t :: ts := by
  cases d with
  | fragmentDefinition fd => exact ⟨_, _, rfl⟩
  | operationDefinition od =>
    obtain ⟨op, name, vds, dirs, ⟨sels⟩⟩ := od
    simp only [tokensOfDefinition, tokensOfOperationDefinition]
    split
    · exact ⟨Token.lbrace, tokensOfSelectionList sels ++ [Token.rbrace], rfl⟩
    · exact ⟨Token.nameTok op, _, rfl⟩

theorem parseDefinition_rt (fuel : Nat) (d : GDefinition) (rest : List Token)
    (hwf : wfDefinition d = true)
    (hfuel : (tokensOfDefinition d).length < fuel) :
    parseDefinition fuel (tokensOfDefinition d ++ rest) = some (d, rest) := by
  cases d with
  | operationDefinition od =>
    have hoprt := parseOperationDefinition_rt fuel od rest hwf
      (by simpa [tokensOfDefinition] using hfuel)
    obtain ⟨op, name, vds, dirs, ⟨sels⟩⟩ := od
    by_cases hc : printOptName name = "" ∧
        join (dirs.map printDirective) " " = "" ∧
        wrap "(" (join (vds.map printVariableDefinition) ",") ")" = "" ∧
        op = "query"
    · have htk : tokensOfOperationDefinition ⟨op, name, vds, dirs, ⟨sels⟩⟩ =
          Token.lbrace :: (tokensOfSelectionList sels ++ [Token.rbrace]) := by
        simp only [tokensOfOperationDefinition]
        rw [if_pos hc]
        rfl
      simp only [tokensOfDefinition]
      rw [htk] at hoprt ⊢
      rw [show (Token.lbrace :: (tokensOfSelectionList sels ++ [Token.rbrace])) ++
        rest = Token.lbrace :: ((tokensOfSelectionList sels ++ [Token.rbrace]) ++
          rest) from rfl] at hoprt ⊢
      rw [show parseDefinition fuel (Token.lbrace ::
        ((tokensOfSelectionList sels ++ [Token.rbrace]) ++ rest)) =
        (parseOperationDefinition fuel (Token.lbrace ::
          ((tokensOfSelectionList sels ++ [Token.rbrace]) ++ rest))).map
          (fun p => (GDefinition.operationDefinition p.1, p.2)) from rfl]
      rw [hoprt]
      rfl
    · have hfragne : ¬op = "fragment" := by
        simp only [wfDefinition, wfOperationDefinition, Bool.and_eq_true] at hwf
        have hop' : op = "query" ∨ op = "mutation" ∨ op = "subscription" := by
          simpa only [Bool.or_eq_true, beq_iff_eq, or_assoc] using hwf.1.1.1.1
        rcases hop' with h | h | h <;> (rw [h]; decide)
      have htk : tokensOfOperationDefinition ⟨op, name, vds, dirs, ⟨sels⟩⟩ =
          Token.nameTok op ::
            (tokensOfOptName name ++ tokensOfVariableDefinitions vds ++
              dirs.flatMap tokensOfDirective ++ tokensOfSelectionSet ⟨sels⟩) := by
        simp only [tokensOfOperationDefinition]
        rw [if_neg hc]
        cases name <;> rfl
      simp only [tokensOfDefinition]
      rw [htk] at hoprt ⊢
      rw [List.cons_append] at hoprt ⊢
      simp only [parseDefinition]
      rw [if_neg hfragne]
      rw [hoprt]
      rfl
  | fragmentDefinition fd =>
    obtain ⟨⟨n⟩, ⟨⟨t⟩⟩, dirs, ⟨sels⟩⟩ := fd
    simp only [wfDefinition, wfFragmentDefinition, Bool.and_eq_true,
      bne_iff_ne, ne_eq] at hwf
    obtain ⟨⟨⟨⟨hN, hnotOn⟩, hT⟩, hDirs⟩, hSS⟩ := hwf
    simp only [tokensOfDefinition, tokensOfFragmentDefinition,
      List.length_cons, List.length_append] at hfuel
    have harr : tokensOfDefinition (GDefinition.fragmentDefinition
        ⟨⟨n⟩, ⟨⟨t⟩⟩, dirs, ⟨sels⟩⟩) ++ rest =
        Token.nameTok "fragment" :: Token.nameTok n :: Token.nameTok "on" ::
          Token.nameTok t ::
          (dirs.flatMap tokensOfDirective ++
            (tokensOfSelectionSet ⟨sels⟩ ++ rest)) := by
      simp [tokensOfDefinition, tokensOfFragmentDefinition]
    rw [harr]
    simp only [parseDefinition]
    rw [parseFragmentDefinition_rt fuel n t dirs sels rest hnotOn hDirs hSS
      (by omega) (by omega)]
    rfl

theorem parseDefinitionList_rt (fuel : Nat) :
    ∀ defs, ¬defs = [] → defs.all wfDefinition = true →
      (defs.flatMap tokensOfDefinition).length + 1 < fuel →
      parseDefinitionList fuel (defs.flatMap tokensOfDefinition) =
        some (defs, []) := by
  induction fuel with
  | zero => intro defs _ _ hf; omega
  | succ f ih =>
    intro defs hne hwf hfuel
    cases defs with
    | nil => exact absurd rfl hne
    | cons d defs2 =>
      simp only [List.all_cons, Bool.and_eq_true] at hwf
      simp only [List.flatMap_cons, List.length_append] at hfuel
      obtain ⟨t1, ts1, hht1⟩ := tokensOfDefinition_head d
      have hlen1 : 1 ≤ (tokensOfDefinition d).length := by rw [hht1]; simp
      cases defs2 with
      | nil =>
        have hd := parseDefinition_rt f d [] hwf.1 (by omega)
        rw [show (d :: ([] : List GDefinition)).flatMap tokensOfDefinition =
          tokensOfDefinition d ++ [] by simp]
        simp only [parseDefinitionList_succ, hd]
      | cons d2 defs3 =>
        obtain ⟨t2, ts2, hht2⟩ := tokensOfDefinition_head d2
        have hd := parseDefinition_rt f d
          ((d2 :: defs3).flatMap tokensOfDefinition) hwf.1 (by omega)
        have hhd2 : (d2 :: defs3).flatMap tokensOfDefinition =
            t2 :: (ts2 ++ defs3.flatMap tokensOfDefinition) := by
          simp [hht2]
        rw [show (d :: d2 :: defs3).flatMap tokensOfDefinition =
          tokensOfDefinition d ++ ((d2 :: defs3).flatMap tokensOfDefinition)
          by simp]
        rw [hhd2] at hd ⊢
        simp only [parseDefinitionList_succ, hd]
        rw [← hhd2]
        rw [ih (d2 :: defs3) (by simp) hwf.2 (by omega)]
        rfl

theorem parseTokens_rt (doc : GDocument) (hwf : wfDocument doc = true) :
    parseTokens (tokensOfDocument doc) = some doc := by
  obtain ⟨defs⟩ := doc
  simp only [wfDocument, Bool.and_eq_true] at hwf
  have hne : ¬defs = [] := by
    cases defs with
    | nil => exact absurd hwf.1 Bool.false_ne_true
    | cons a b => simp
  have hdl := parseDefinitionList_rt
    ((defs.flatMap tokensOfDefinition).length + 2) defs hne hwf.2 (by omega)
  simp only [parseTokens, tokensOfDocument, hdl]

/-- C1: Round-trip fidelity of the printer — for every syntactically valid
query text `T` (one on which `parse` succeeds, returning the tree `doc`),
printing that tree and parsing the printed form yields a tree structurally
equal to the original: `parse (print (parse T)) = parse T`. -/
theorem claim1_round_trip (T : String) (doc : GDocument)
    (h : parse T = some doc) : parse (print doc) = some doc := by
  have hwf := parse_wf T doc h
  simp only [parse, lexTokens_print doc hwf]
  exact parseTokens_rt doc hwf

theorem claim1_witness :
    parse (print (GDocument.mk [GDefinition.operationDefinition
      ⟨"query", none, [], [],
        ⟨[GSelection.field none ⟨"a"⟩ [] [] none]⟩⟩])) =
      some (GDocument.mk [GDefinition.operationDefinition
        ⟨"query", none, [], [],
          ⟨[GSelection.field none ⟨"a"⟩ [] [] none]⟩⟩]) :=
  claim1_round_trip "\x7ba\x7d" _ (by rfl)

end MinifyGraphql
